import Mathlib

/-!
# Verification of the RAMP planner (ramp_planner.py)

Shallow embedding of the bidirectional kinodynamic RAMP planner:
the per-axis time-optimal / minimum-acceleration trajectory segment solver,
the closed-form state evaluation, the lazy edge collision validator, and the
arena-based tree data model with its seeding / extension / repair operations.

The Python code computes with numpy floating point; we model those numbers by
exact real numbers (`ℝ`), `np.sqrt` by `Real.sqrt`, and exceptions by
`Except String`.  Division by zero yields the junk value 0 in Lean; the one
place where the code could divide by zero (the coast-class acceleration
formulas of the fixed-time solver, reachable only when `T*vmax` equals the
displacement exactly) is noted at its definition.
-/

namespace RampPlanner

noncomputable section

/-- The four motion-primitive class tags: `'P+P-'`, `'P-P+'`, `'P+L+P-'`, `'P-L-P+'`. -/
inductive TrajType where
  | PpPm
  | PmPp
  | PpLpPm
  | PmLmPp
  deriving DecidableEq, Repr

/-- `solve_quadratic(a, b, c)` (both nested copies in the source are identical):
real solutions of `a·x² + b·x + c = 0`, listed as `[(-b+√disc)/(2a), (-b-√disc)/(2a)]`,
or `[]` if the discriminant is negative. -/
def solve_quadratic (a b c : ℝ) : List ℝ :=
  let discriminant := b ^ 2 - 4 * a * c
  if discriminant < 0 then []
  else [(-b + Real.sqrt discriminant) / (2 * a), (-b - Real.sqrt discriminant) / (2 * a)]

/-! ## Time-optimal interpolants (`_univariate_time_optimal_interpolants`) -/

/-- Class `P+P-` candidate of the time-optimal solver (`compute_p_plus_p_minus`).
Note the source takes `valid_t[0]`, the first valid root in list order, not the
minimum of the valid roots. -/
def uto_p_plus_p_minus (x1 x2 v1 v2 vmax amax : ℝ) : Option ℝ :=
  let solutions := solve_quadratic amax (2 * v1) ((v1 ^ 2 - v2 ^ 2) / (2 * amax) + x1 - x2)
  let valid_t := solutions.filter fun t =>
    if max ((v2 - v1) / amax) 0 ≤ t ∧ t ≤ (vmax - v1) / amax then true else false
  match valid_t with
  | [] => none
  | t_p :: _ => some (2 * t_p + (v1 - v2) / amax)

/-- Class `P-P+` candidate of the time-optimal solver (`compute_p_minus_p_plus`). -/
def uto_p_minus_p_plus (x1 x2 v1 v2 vmax amax : ℝ) : Option ℝ :=
  let solutions := solve_quadratic amax (-2 * v1) ((v1 ^ 2 - v2 ^ 2) / (2 * amax) + x2 - x1)
  let valid_t := solutions.filter fun t =>
    if max ((v1 - v2) / amax) 0 ≤ t ∧ t ≤ (vmax + v1) / amax then true else false
  match valid_t with
  | [] => none
  | t_p :: _ => some (2 * t_p + (v2 - v1) / amax)

/-- Class `P+L+P-` candidate of the time-optimal solver (`compute_p_plus_l_plus_p_minus`). -/
def uto_p_plus_l_plus_p_minus (x1 x2 v1 v2 vmax amax : ℝ) : Option ℝ :=
  let t_p1 := (vmax - v1) / amax
  let t_p2 := (vmax - v2) / amax
  let t_l := (v2 ^ 2 + v1 ^ 2 - 2 * vmax ^ 2) / (2 * vmax * amax) + (x2 - x1) / vmax
  if t_p1 < 0 ∨ t_p2 < 0 ∨ t_l < 0 then none
  else some (t_p1 + t_l + t_p2)

/-- Class `P-L-P+` candidate of the time-optimal solver (`compute_p_minus_l_plus_p_plus`). -/
def uto_p_minus_l_plus_p_plus (x1 x2 v1 v2 vmax amax : ℝ) : Option ℝ :=
  let t_p1 := (vmax + v1) / amax
  let t_p2 := (vmax + v2) / amax
  let t_l := (v2 ^ 2 + v1 ^ 2 - 2 * vmax ^ 2) / (2 * vmax * amax) - (x2 - x1) / vmax
  if t_p1 < 0 ∨ t_p2 < 0 ∨ t_l < 0 then none
  else some (t_p1 + t_l + t_p2)

/-- `_univariate_time_optimal_interpolants`: minimal execution time over the four
candidate classes (`np.min` over the non-`None` candidates), or `None`. -/
def univariate_time_optimal_interpolants (x1 x2 v1 v2 vmax amax : ℝ) : Option ℝ :=
  let times := [uto_p_plus_p_minus x1 x2 v1 v2 vmax amax,
                uto_p_minus_p_plus x1 x2 v1 v2 vmax amax,
                uto_p_plus_l_plus_p_minus x1 x2 v1 v2 vmax amax,
                uto_p_minus_l_plus_p_plus x1 x2 v1 v2 vmax amax].filterMap id
  match times with
  | [] => none
  | t :: ts => some (ts.foldl min t)

/-! ## Minimum-acceleration interpolants (`_minimum_acceleration_interpolants`) -/

/-- Class `P+P-` candidate of the fixed-time solver: valid positive roots `a` of
`T²·a² + (2T(v1+v2) + 4(x1-x2))·a - (v2-v1)² = 0` with switch time in
`(0, T + t_margin)` and peak speed within `vmax`; returns the least valid root. -/
def ma_p_plus_p_minus (x1 x2 v1 v2 vmax T t_margin : ℝ) : Option (ℝ × TrajType) :=
  let solutions := solve_quadratic (T ^ 2) (2 * T * (v1 + v2) + 4 * (x1 - x2)) (-(v2 - v1) ^ 2)
  let valid_a := solutions.filter fun a =>
    let t_s := 0.5 * (T + (v2 - v1) / a)
    if 0 < a ∧ 0 < t_s ∧ t_s < T + t_margin ∧ |v1 + a * t_s| ≤ vmax then true else false
  match valid_a with
  | [] => none
  | a :: as' => some (as'.foldl min a, TrajType.PpPm)

/-- Class `P-P+` candidate of the fixed-time solver. -/
def ma_p_minus_p_plus (x1 x2 v1 v2 vmax T t_margin : ℝ) : Option (ℝ × TrajType) :=
  let solutions := solve_quadratic (T ^ 2) (-2 * T * (v1 + v2) - 4 * (x1 - x2)) (-(v2 - v1) ^ 2)
  let valid_a := solutions.filter fun a =>
    let t_s := 0.5 * (T + (v1 - v2) / a)
    if 0 < a ∧ 0 < t_s ∧ t_s < T + t_margin ∧ |v1 - a * t_s| ≤ vmax then true else false
  match valid_a with
  | [] => none
  | a :: as' => some (as'.foldl min a, TrajType.PmPp)

/-- Class `P+L+P-` candidate of the fixed-time solver.  The numerator
`vmax² - vmax(v1+v2) + (v1²+v2²)/2 = ((vmax-v1)² + (vmax-v2)²)/2` is nonnegative;
in the measure-zero case `T·vmax = x2 - x1` the Lean division yields `a = 0`
(rejected by `a ≤ 0`), where numpy would produce `inf` — a candidate that the
final `a ≤ amax + a_margin` check would likewise discard. -/
def ma_p_plus_l_plus_p_minus (x1 x2 v1 v2 vmax T : ℝ) : Option (ℝ × TrajType) :=
  let a := (vmax ^ 2 - vmax * (v1 + v2) + 0.5 * (v1 ^ 2 + v2 ^ 2)) / (T * vmax - (x2 - x1))
  if a ≤ 0 then none
  else
    let t_p1 := (vmax - v1) / a
    let t_p2 := (vmax - v2) / a
    let t_l := T - t_p1 - t_p2
    if t_p1 < 0 ∨ t_p2 < 0 ∨ t_l < 0 then none
    else some (a, TrajType.PpLpPm)

/-- Class `P-L-P+` candidate of the fixed-time solver (`compute_p_minus_l_minus_p_plus`). -/
def ma_p_minus_l_minus_p_plus (x1 x2 v1 v2 vmax T : ℝ) : Option (ℝ × TrajType) :=
  let a := (vmax ^ 2 + vmax * (v1 + v2) + 0.5 * (v1 ^ 2 + v2 ^ 2)) / (T * vmax + (x2 - x1))
  if a ≤ 0 then none
  else
    let t_p1 := (vmax + v1) / a
    let t_p2 := (vmax + v2) / a
    let t_l := T - t_p1 - t_p2
    if t_p1 < 0 ∨ t_p2 < 0 ∨ t_l < 0 then none
    else some (a, TrajType.PmLmPp)

/-- Python's `min(valid_results, key=lambda x: x[0])`: first pair with minimal
acceleration (ties resolved to the earlier list entry). -/
def min_accel_select (results : List (Option (ℝ × TrajType))) : Option (ℝ × TrajType) :=
  match results.filterMap id with
  | [] => none
  | r :: rs => some (rs.foldl (fun best c => if c.1 < best.1 then c else best) r)

/-- The unclamped selection step of `_minimum_acceleration_interpolants`:
the four class candidates evaluated and the minimum-acceleration one chosen. -/
def ma_selected (x1 x2 v1 v2 vmax T t_margin : ℝ) : Option (ℝ × TrajType) :=
  min_accel_select
    [ma_p_plus_p_minus x1 x2 v1 v2 vmax T t_margin,
     ma_p_minus_p_plus x1 x2 v1 v2 vmax T t_margin,
     ma_p_plus_l_plus_p_minus x1 x2 v1 v2 vmax T,
     ma_p_minus_l_minus_p_plus x1 x2 v1 v2 vmax T]

/-- `_minimum_acceleration_interpolants(x1, x2, v1, v2, vmax, T, dim)` for one axis
with acceleration bound `amax` (the source reads `self.amax[dim]`):
`.error` models the unguarded `raise ValueError("No valid result")`,
`.ok none` models `return None` (minimal acceleration beyond `amax + a_margin`),
and a returned primitive carries `np.clip(a_min, 0, amax)`. -/
def minimum_acceleration_interpolants (x1 x2 v1 v2 vmax T amax t_margin a_margin : ℝ) :
    Except String (Option (ℝ × TrajType)) :=
  match ma_selected x1 x2 v1 v2 vmax T t_margin with
  | none => .error "No valid result"
  | some (a_min, selected_primitive) =>
      if a_min ≤ amax + a_margin then .ok (some (min (max a_min 0) amax, selected_primitive))
      else .ok none

/-- Default `t_margin = 1e-4` of `_minimum_acceleration_interpolants`. -/
def t_margin_default : ℝ := 1 / 10000

/-- Default `a_margin = 1e-6` of `_minimum_acceleration_interpolants`. -/
def a_margin_default : ℝ := 1 / 1000000

/-- Default `safe_margin = 1e-6` of `_calculate_segment_time`. -/
def safe_margin_default : ℝ := 1 / 1000000

/-! ## State evaluation (`_compute_trajectory_state`)

Each `if/elif` branch of the source is a closed-form phase; the phases are
named definitions so that phase-boundary agreement can be stated, and
`compute_trajectory_state` assembles them exactly as the source does.
Results are `(x_t, v_t)` pairs. -/

/-- `P+P-` acceleration phase (`t ≤ t_s`): `v = v1 + a·t`, `x = x1 + v1·t + a·t²/2`. -/
def ppPm_phase1 (x1 v1 a t : ℝ) : ℝ × ℝ :=
  (x1 + v1 * t + 0.5 * a * t ^ 2, v1 + a * t)

/-- `P+P-` deceleration phase, at `delta_t = t - t_s` past the switch:
`v_peak = v1 + a·t_s`, `v = v_peak - a·delta_t`,
`x = x1 + v1·t_s + a·t_s²/2 + v_peak·delta_t - a·delta_t²/2`. -/
def ppPm_phase2 (x1 v1 a t_s delta_t : ℝ) : ℝ × ℝ :=
  (x1 + v1 * t_s + 0.5 * a * t_s ^ 2 + (v1 + a * t_s) * delta_t - 0.5 * a * delta_t ^ 2,
   (v1 + a * t_s) - a * delta_t)

/-- `P-P+` deceleration phase (`t ≤ t_s`). -/
def pmPp_phase1 (x1 v1 a t : ℝ) : ℝ × ℝ :=
  (x1 + v1 * t - 0.5 * a * t ^ 2, v1 - a * t)

/-- `P-P+` acceleration phase past the switch (`v_valley = v1 - a·t_s`). -/
def pmPp_phase2 (x1 v1 a t_s delta_t : ℝ) : ℝ × ℝ :=
  (x1 + v1 * t_s - 0.5 * a * t_s ^ 2 + (v1 - a * t_s) * delta_t + 0.5 * a * delta_t ^ 2,
   (v1 - a * t_s) + a * delta_t)

/-- `P+L+P-` acceleration phase (`t ≤ t_p1`). -/
def plp_phase1 (x1 v1 a t : ℝ) : ℝ × ℝ :=
  (x1 + v1 * t + 0.5 * a * t ^ 2, v1 + a * t)

/-- `P+L+P-` cruise phase, at `delta_t = t - t_p1` into the cruise. -/
def plp_phase2 (x1 v1 a vmax t_p1 delta_t : ℝ) : ℝ × ℝ :=
  (x1 + v1 * t_p1 + 0.5 * a * t_p1 ^ 2 + vmax * delta_t, vmax)

/-- `P+L+P-` deceleration phase, at `delta_t = t - t_p1 - t_l` into the final phase. -/
def plp_phase3 (x1 v1 a vmax t_p1 t_l delta_t : ℝ) : ℝ × ℝ :=
  (x1 + v1 * t_p1 + 0.5 * a * t_p1 ^ 2 + vmax * t_l + vmax * delta_t - 0.5 * a * delta_t ^ 2,
   vmax - a * delta_t)

/-- `P-L-P+` deceleration phase (`t ≤ t_p1`). -/
def pmlp_phase1 (x1 v1 a t : ℝ) : ℝ × ℝ :=
  (x1 + v1 * t - 0.5 * a * t ^ 2, v1 - a * t)

/-- `P-L-P+` cruise phase at `-vmax`. -/
def pmlp_phase2 (x1 v1 a vmax t_p1 delta_t : ℝ) : ℝ × ℝ :=
  (x1 + v1 * t_p1 - 0.5 * a * t_p1 ^ 2 + (-vmax) * delta_t, -vmax)

/-- `P-L-P+` final acceleration phase. -/
def pmlp_phase3 (x1 v1 a vmax t_p1 t_l delta_t : ℝ) : ℝ × ℝ :=
  (x1 + v1 * t_p1 - 0.5 * a * t_p1 ^ 2 + (-vmax) * t_l + (-vmax) * delta_t + 0.5 * a * delta_t ^ 2,
   -vmax + a * delta_t)

/-- `_compute_trajectory_state(x1, x2, v1, v2, a, vmax, T, trajectory_type, t)`:
position and velocity at relative time `t`, branching on the class tag exactly
as the source's `if t <= …` chains do. -/
def compute_trajectory_state (x1 x2 v1 v2 a vmax T : ℝ) (ty : TrajType) (t : ℝ) : ℝ × ℝ :=
  match ty with
  | .PpPm =>
      let t_s := 0.5 * (T + (v2 - v1) / a)
      if t ≤ t_s then ppPm_phase1 x1 v1 a t
      else ppPm_phase2 x1 v1 a t_s (t - t_s)
  | .PmPp =>
      let t_s := 0.5 * (T + (v1 - v2) / a)
      if t ≤ t_s then pmPp_phase1 x1 v1 a t
      else pmPp_phase2 x1 v1 a t_s (t - t_s)
  | .PpLpPm =>
      let t_p1 := (vmax - v1) / a
      let t_p2 := (vmax - v2) / a
      let t_l := T - t_p1 - t_p2
      if t ≤ t_p1 then plp_phase1 x1 v1 a t
      else if t ≤ t_p1 + t_l then plp_phase2 x1 v1 a vmax t_p1 (t - t_p1)
      else plp_phase3 x1 v1 a vmax t_p1 t_l (t - t_p1 - t_l)
  | .PmLmPp =>
      let t_p1 := (vmax + v1) / a
      let t_p2 := (vmax + v2) / a
      let t_l := T - t_p1 - t_p2
      if t ≤ t_p1 then pmlp_phase1 x1 v1 a t
      else if t ≤ t_p1 + t_l then pmlp_phase2 x1 v1 a vmax t_p1 (t - t_p1)
      else pmlp_phase3 x1 v1 a vmax t_p1 t_l (t - t_p1 - t_l)


/-! ## Claim C8: concrete 1D scenario -/

/-- Evaluation: the `P+P-` time-optimal candidate is infeasible in the C8 scenario
(its roots `±√5` fall outside the valid window `[0, 2]`). -/
theorem c8_uto_ppm : uto_p_plus_p_minus 0 5 0 0 2 1 = none := by
  have s20 : Real.sqrt 20 ^ 2 = 20 := Real.sq_sqrt (by norm_num)
  have s20n : (0:ℝ) ≤ Real.sqrt 20 := Real.sqrt_nonneg 20
  have s20p : (0:ℝ) < Real.sqrt 20 := Real.sqrt_pos.mpr (by norm_num)
  have d1 : ¬ (Real.sqrt 20 / 2 ≤ (2:ℝ)) := by nlinarith
  have d2 : ¬ ((0:ℝ) ≤ -Real.sqrt 20 / 2) := by nlinarith
  simp only [uto_p_plus_p_minus, solve_quadratic]
  norm_num [d1, d2]

/-- Evaluation: the `P-P+` time-optimal candidate is infeasible in the C8 scenario
(negative discriminant). -/
theorem c8_uto_pmp : uto_p_minus_p_plus 0 5 0 0 2 1 = none := by
  simp only [uto_p_minus_p_plus, solve_quadratic]
  norm_num

/-- Evaluation: the `P+L+P-` time-optimal candidate in the C8 scenario:
accelerate for `2` s, cruise for `0.5` s, decelerate for `2` s, total `4.5` s. -/
theorem c8_uto_plp : uto_p_plus_l_plus_p_minus 0 5 0 0 2 1 = some (9/2) := by
  simp only [uto_p_plus_l_plus_p_minus]
  norm_num

/-- Evaluation: the `P-L-P+` time-optimal candidate is infeasible in the C8 scenario
(negative cruise duration). -/
theorem c8_uto_pmlp : uto_p_minus_l_plus_p_plus 0 5 0 0 2 1 = none := by
  simp only [uto_p_minus_l_plus_p_plus]
  norm_num

/-- C8: with `vmax = 2`, `amax = 1`, `x1 = 0, v1 = 0, x2 = 5, v2 = 0`, the
time-optimal solver's only feasible class is `P+L+P-` (accelerate to `vmax = 2`
over `(vmax - v1)/amax = 2` s, cruise, decelerate over `2` s), the minimum over
the four candidate classes is `4.5` s, and the resulting trajectory's state at
`t = T` is position `5`, velocity `0`. -/
theorem C8_scenario_time_optimal :
    uto_p_plus_p_minus 0 5 0 0 2 1 = none ∧
    uto_p_minus_p_plus 0 5 0 0 2 1 = none ∧
    uto_p_plus_l_plus_p_minus 0 5 0 0 2 1 = some (9/2) ∧
    uto_p_minus_l_plus_p_plus 0 5 0 0 2 1 = none ∧
    univariate_time_optimal_interpolants 0 5 0 0 2 1 = some (9/2) ∧
    ((2:ℝ) - 0) / 1 = 2 ∧
    compute_trajectory_state 0 5 0 0 1 2 (9/2) TrajType.PpLpPm (9/2) = (5, 0) := by
  refine ⟨c8_uto_ppm, c8_uto_pmp, c8_uto_plp, c8_uto_pmlp, ?_, by norm_num, ?_⟩
  · simp only [univariate_time_optimal_interpolants, c8_uto_ppm, c8_uto_pmp, c8_uto_plp,
      c8_uto_pmlp, List.filterMap]
    rfl
  · simp only [compute_trajectory_state, plp_phase3]
    norm_num

/-! ## Claim C1: the acceleration margin accepts durations below the optimal time -/

/-- Evaluation: the time-optimal solver on the instance
`x1 = 0, x2 = 2, v1 = v2 = 0, vmax = 1, amax = 1` returns `T* = 3`
(`P+P-` rejected since `√2 > 1`, `P-P+` has negative discriminant,
`P+L+P-` gives `1 + 1 + 1`, `P-L-P+` has negative cruise time). -/
theorem c1_time_optimal_eval : univariate_time_optimal_interpolants 0 2 0 0 1 1 = some 3 := by
  have s8 : Real.sqrt 8 ^ 2 = 8 := Real.sq_sqrt (by norm_num)
  have s8n : (0:ℝ) ≤ Real.sqrt 8 := Real.sqrt_nonneg 8
  have s8p : (0:ℝ) < Real.sqrt 8 := Real.sqrt_pos.mpr (by norm_num)
  have d1 : ¬ (Real.sqrt 8 / 2 ≤ (1:ℝ)) := by nlinarith
  have d2 : ¬ ((0:ℝ) ≤ -Real.sqrt 8 / 2) := by nlinarith
  have h1 : uto_p_plus_p_minus 0 2 0 0 1 1 = none := by
    simp only [uto_p_plus_p_minus, solve_quadratic]
    norm_num [d1, d2]
  have h2 : uto_p_minus_p_plus 0 2 0 0 1 1 = none := by
    simp only [uto_p_minus_p_plus, solve_quadratic]
    norm_num
  have h3 : uto_p_plus_l_plus_p_minus 0 2 0 0 1 1 = some 3 := by
    simp only [uto_p_plus_l_plus_p_minus]
    norm_num
  have h4 : uto_p_minus_l_plus_p_plus 0 2 0 0 1 1 = none := by
    simp only [uto_p_minus_l_plus_p_plus]
    norm_num
  simp only [univariate_time_optimal_interpolants, h1, h2, h3, h4, List.filterMap]
  rfl

/-- Evaluation: at the C1/C7 instance, duration `T = 2 + 2000000/2000001`, the
fixed-time solver's only valid class is `P+L+P-` with pre-clamp acceleration
`2000001/2000000 = 1.0000005`, which the `a_margin = 1e-6` acceptance clamps to
`amax = 1`. -/
theorem ma_eval_c1_instance :
    minimum_acceleration_interpolants 0 2 0 0 1 (2 + 2000000/2000001) 1
      t_margin_default a_margin_default = .ok (some (1, TrajType.PpLpPm)) := by
  have s64 : Real.sqrt 64 = 8 := by
    rw [show (64:ℝ) = 8 ^ 2 by norm_num]
    exact Real.sqrt_sq (by norm_num)
  have h1 : ma_p_plus_p_minus 0 2 0 0 1 (2 + 2000000/2000001) t_margin_default = none := by
    have hv : ¬ (|(8000008000002 / 9000006000001 : ℝ) * (3000001 / 2000001)| ≤ 1) := by
      rw [abs_of_nonneg (by norm_num)]
      norm_num
    have hz : ¬ ((0:ℝ) < 0) := lt_irrefl 0
    simp only [ma_p_plus_p_minus, solve_quadratic, t_margin_default]
    norm_num [s64]
    simp [hv, hz]
  have h2 : ma_p_minus_p_plus 0 2 0 0 1 (2 + 2000000/2000001) t_margin_default = none := by
    simp only [ma_p_minus_p_plus, solve_quadratic, t_margin_default]
    norm_num [s64]
  have h3 : ma_p_plus_l_plus_p_minus 0 2 0 0 1 (2 + 2000000/2000001) =
      some (2000001/2000000, TrajType.PpLpPm) := by
    simp only [ma_p_plus_l_plus_p_minus]
    norm_num
  have h4 : ma_p_minus_l_minus_p_plus 0 2 0 0 1 (2 + 2000000/2000001) = none := by
    simp only [ma_p_minus_l_minus_p_plus]
    norm_num
  simp only [minimum_acceleration_interpolants, ma_selected, min_accel_select,
    h1, h2, h3, h4, List.filterMap, a_margin_default]
  norm_num

/-- C1 (failing-input evaluation): on the instance
`x1 = 0, x2 = 2, v1 = v2 = 0, vmax = 1, amax = 1` the time-optimal solver
returns `T* = 3`, yet at the strictly smaller duration
`T = 2 + 2000000/2000001 < 3` the fixed-time solver still returns a valid
primitive — its minimal acceleration `2000001/2000000` exceeds `amax = 1` but
lies within `a_margin = 1e-6`, so it is accepted and clamped to `amax`,
yielding the primitive `(a, class) = (1, P+L+P-)` with `a ≤ amax`.  This
contradicts the claimed per-axis time optimality. -/
theorem C1_suboptimal_duration_accepted :
    univariate_time_optimal_interpolants 0 2 0 0 1 1 = some 3 ∧
    (0:ℝ) < 2 + 2000000/2000001 ∧
    (2 + 2000000/2000001 : ℝ) < 3 ∧
    minimum_acceleration_interpolants 0 2 0 0 1 (2 + 2000000/2000001) 1
      t_margin_default a_margin_default = .ok (some (1, TrajType.PpLpPm)) ∧
    (1:ℝ) ≤ 1 :=
  ⟨c1_time_optimal_eval, by norm_num, by norm_num, ma_eval_c1_instance, le_refl 1⟩

/-! ## Claim C2: existence at the optimal time plus the safety margin -/

/-- Evaluation: the degenerate instance `x1 = x2 = 0, v1 = v2 = 0` has
time-optimal duration `0` (both bang-bang classes admit the root `t_p = 0`). -/
theorem uto_eval_degenerate : univariate_time_optimal_interpolants 0 0 0 0 1 1 = some 0 := by
  have h1 : uto_p_plus_p_minus 0 0 0 0 1 1 = some 0 := by
    simp only [uto_p_plus_p_minus, solve_quadratic]
    norm_num
  have h2 : uto_p_minus_p_plus 0 0 0 0 1 1 = some 0 := by
    simp only [uto_p_minus_p_plus, solve_quadratic]
    norm_num
  have h3 : uto_p_plus_l_plus_p_minus 0 0 0 0 1 1 = none := by
    simp only [uto_p_plus_l_plus_p_minus]
    norm_num
  have h4 : uto_p_minus_l_plus_p_plus 0 0 0 0 1 1 = none := by
    simp only [uto_p_minus_l_plus_p_plus]
    norm_num
  simp only [univariate_time_optimal_interpolants, h1, h2, h3, h4, List.filterMap]
  norm_num

/-- Evaluation: on the degenerate instance the fixed-time solver at
`T = 0 + 1e-6` finds no valid candidate in any class and raises. -/
theorem ma_raise_degenerate :
    minimum_acceleration_interpolants 0 0 0 0 1 (0 + safe_margin_default) 1
      t_margin_default a_margin_default = .error "No valid result" := by
  have h1 : ma_p_plus_p_minus 0 0 0 0 1 (0 + safe_margin_default) t_margin_default = none := by
    simp only [ma_p_plus_p_minus, solve_quadratic, t_margin_default, safe_margin_default]
    norm_num
  have h2 : ma_p_minus_p_plus 0 0 0 0 1 (0 + safe_margin_default) t_margin_default = none := by
    simp only [ma_p_minus_p_plus, solve_quadratic, t_margin_default, safe_margin_default]
    norm_num
  have h3 : ma_p_plus_l_plus_p_minus 0 0 0 0 1 (0 + safe_margin_default) = none := by
    simp only [ma_p_plus_l_plus_p_minus, safe_margin_default]
    norm_num
  have h4 : ma_p_minus_l_minus_p_plus 0 0 0 0 1 (0 + safe_margin_default) = none := by
    simp only [ma_p_minus_l_minus_p_plus, safe_margin_default]
    norm_num
  simp only [minimum_acceleration_interpolants, ma_selected, min_accel_select,
    h1, h2, h3, h4, List.filterMap, id_eq]

/-- C2 (failing-input evaluation): on the degenerate instance
`x1 = x2 = 0, v1 = v2 = 0, vmax = 1, amax = 1` the time-optimal solver returns
the duration `T* = 0`, but the fixed-time solver at `T* + 1e-6` (the
`safe_margin` added by `_calculate_segment_time`) finds no valid candidate in
any of the four classes and raises `ValueError("No valid result")` — it
neither succeeds nor returns `None`, contradicting the claimed existence at
the optimal time. -/
theorem C2_existence_fails_at_degenerate_instance :
    univariate_time_optimal_interpolants 0 0 0 0 1 1 = some 0 ∧
    minimum_acceleration_interpolants 0 0 0 0 1 (0 + safe_margin_default) 1
      t_margin_default a_margin_default = .error "No valid result" :=
  ⟨uto_eval_degenerate, ma_raise_degenerate⟩

/-! ## Inversion lemmas for the fixed-time solver

These recover, from a returned candidate, the defining algebraic facts the
source's validity filters enforce. -/

/-- Any member of `solve_quadratic A B C` with `A ≠ 0` is a root of the quadratic. -/
theorem solve_quadratic_root {A B C x : ℝ} (hx : x ∈ solve_quadratic A B C) (hA : A ≠ 0) :
    A * x ^ 2 + B * x + C = 0 := by
  unfold solve_quadratic at hx
  by_cases h : B ^ 2 - 4 * A * C < 0
  · simp [h] at hx
  · simp only [if_neg h, List.mem_cons, List.mem_singleton] at hx
    have hD : (0:ℝ) ≤ B ^ 2 - 4 * A * C := not_lt.mp h
    have hs : Real.sqrt (B ^ 2 - 4 * A * C) ^ 2 = B ^ 2 - 4 * A * C := Real.sq_sqrt hD
    rcases hx with rfl | hx
    · field_simp
      linear_combination 2 * A ^ 2 * hs
    · rcases hx with rfl | hfalse
      · field_simp
        linear_combination 2 * A ^ 2 * hs
      · simp at hfalse

/-- With a vanishing leading coefficient, both listed "roots" are the junk value `0`
(`x/0 = 0` in Lean; numpy would produce `±inf` here, rejected by every validity
filter just as `0` is). -/
theorem solve_quadratic_lead_zero {B C x : ℝ} (hx : x ∈ solve_quadratic 0 B C) : x = 0 := by
  unfold solve_quadratic at hx
  by_cases h : B ^ 2 - 4 * 0 * C < 0
  · rw [if_pos h] at hx
    simp at hx
  · rw [if_neg h] at hx
    simp only [List.mem_cons, List.mem_singleton] at hx
    rcases hx with rfl | hx
    · norm_num
    · rcases hx with rfl | hfalse
      · norm_num
      · simp at hfalse

/-- The fold computing `min(valid_a)` returns a member of `r :: rs`. -/
theorem foldl_min_mem (rs : List ℝ) (r : ℝ) : rs.foldl min r ∈ r :: rs := by
  induction rs generalizing r with
  | nil => simp
  | cons c cs ih =>
      rw [List.foldl_cons]
      rcases List.mem_cons.mp (ih (min r c)) with h' | h'
      · rcases min_choice r c with hm | hm
        · rw [h', hm]
          exact List.mem_cons_self _ _
        · rw [h', hm]
          exact List.mem_cons_of_mem _ (List.mem_cons_self _ _)
      · exact List.mem_cons_of_mem _ (List.mem_cons_of_mem _ h')

/-- The fold realising Python's `min(valid_results, key=…)` returns a member of `r :: rs`. -/
theorem select_fold_mem (rs : List (ℝ × TrajType)) (r : ℝ × TrajType) :
    rs.foldl (fun best c => if c.1 < best.1 then c else best) r ∈ r :: rs := by
  induction rs generalizing r with
  | nil => simp
  | cons c cs ih =>
      rw [List.foldl_cons]
      rcases List.mem_cons.mp (ih (if c.1 < r.1 then c else r)) with h' | h'
      · rw [h']
        by_cases hc : c.1 < r.1
        · rw [if_pos hc]
          exact List.mem_cons_of_mem _ (List.mem_cons_self _ _)
        · rw [if_neg hc]
          exact List.mem_cons_self _ _
      · exact List.mem_cons_of_mem _ (List.mem_cons_of_mem _ h')

/-- A selected minimum-acceleration result is one of the candidate results. -/
theorem min_accel_select_mem {results : List (Option (ℝ × TrajType))} {r : ℝ × TrajType}
    (h : min_accel_select results = some r) : some r ∈ results := by
  unfold min_accel_select at h
  rcases hf : results.filterMap id with _ | ⟨r0, rs⟩ <;> rw [hf] at h
  · simp at h
  · have heq : List.foldl (fun best c => if c.1 < best.1 then c else best) r0 rs = r :=
      Option.some_inj.mp h
    have hr : r ∈ r0 :: rs := heq ▸ select_fold_mem rs r0
    have hmem2 : r ∈ results.filterMap id := by
      rw [hf]
      exact hr
    rcases List.mem_filterMap.mp hmem2 with ⟨o, ho, hid⟩
    cases o with
    | none => simp at hid
    | some v =>
        have hv : v = r := by simpa using hid
        rw [← hv]
        exact ho

/-- Eliminate the `if … then true else false` shape of the validity filters. -/
theorem ite_true_elim {P : Prop} [Decidable P] (h : (if P then true else false) = true) : P := by
  by_cases hp : P
  · exact hp
  · rw [if_neg hp] at h
    exact absurd h (by simp)

/-- Inversion for a `P+P-` fixed-time candidate: the class tag, positivity,
the defining quadratic, and the validity window of the switch time. -/
theorem ma_ppm_inv {x1 x2 v1 v2 vmax T t_margin a : ℝ} {tag : TrajType}
    (h : ma_p_plus_p_minus x1 x2 v1 v2 vmax T t_margin = some (a, tag)) :
    tag = TrajType.PpPm ∧ 0 < a ∧
    T ^ 2 * a ^ 2 + (2 * T * (v1 + v2) + 4 * (x1 - x2)) * a + -(v2 - v1) ^ 2 = 0 ∧
    0 < 0.5 * (T + (v2 - v1) / a) ∧
    0.5 * (T + (v2 - v1) / a) < T + t_margin ∧
    |v1 + a * (0.5 * (T + (v2 - v1) / a))| ≤ vmax := by
  simp only [ma_p_plus_p_minus] at h
  rcases hf : (solve_quadratic (T ^ 2) (2 * T * (v1 + v2) + 4 * (x1 - x2))
      (-(v2 - v1) ^ 2)).filter
      (fun a => if 0 < a ∧ 0 < 0.5 * (T + (v2 - v1) / a) ∧
          0.5 * (T + (v2 - v1) / a) < T + t_margin ∧
          |v1 + a * (0.5 * (T + (v2 - v1) / a))| ≤ vmax then true else false) with
    _ | ⟨a0, as'⟩ <;> rw [hf] at h
  · simp at h
  · simp only [Option.some_inj, Prod.mk.injEq] at h
    obtain ⟨ha, htag⟩ := h
    have hmem : a ∈ a0 :: as' := ha ▸ foldl_min_mem as' a0
    rw [← hf] at hmem
    have hroot := (List.mem_filter.mp hmem).1
    have hcond := ite_true_elim (List.mem_filter.mp hmem).2
    have hT : T ≠ 0 := by
      intro hT0
      rw [hT0] at hroot
      norm_num at hroot
      exact absurd (solve_quadratic_lead_zero hroot ▸ hcond.1) (lt_irrefl 0)
    have hq := solve_quadratic_root hroot (pow_ne_zero 2 hT)
    exact ⟨htag.symm, hcond.1, hq, hcond.2.1, hcond.2.2.1, hcond.2.2.2⟩

/-- Inversion for a `P-P+` fixed-time candidate. -/
theorem ma_pmp_inv {x1 x2 v1 v2 vmax T t_margin a : ℝ} {tag : TrajType}
    (h : ma_p_minus_p_plus x1 x2 v1 v2 vmax T t_margin = some (a, tag)) :
    tag = TrajType.PmPp ∧ 0 < a ∧
    T ^ 2 * a ^ 2 + (-2 * T * (v1 + v2) - 4 * (x1 - x2)) * a + -(v2 - v1) ^ 2 = 0 ∧
    0 < 0.5 * (T + (v1 - v2) / a) ∧
    0.5 * (T + (v1 - v2) / a) < T + t_margin ∧
    |v1 - a * (0.5 * (T + (v1 - v2) / a))| ≤ vmax := by
  simp only [ma_p_minus_p_plus] at h
  rcases hf : (solve_quadratic (T ^ 2) (-2 * T * (v1 + v2) - 4 * (x1 - x2))
      (-(v2 - v1) ^ 2)).filter
      (fun a => if 0 < a ∧ 0 < 0.5 * (T + (v1 - v2) / a) ∧
          0.5 * (T + (v1 - v2) / a) < T + t_margin ∧
          |v1 - a * (0.5 * (T + (v1 - v2) / a))| ≤ vmax then true else false) with
    _ | ⟨a0, as'⟩ <;> rw [hf] at h
  · simp at h
  · simp only [Option.some_inj, Prod.mk.injEq] at h
    obtain ⟨ha, htag⟩ := h
    have hmem : a ∈ a0 :: as' := ha ▸ foldl_min_mem as' a0
    rw [← hf] at hmem
    have hroot := (List.mem_filter.mp hmem).1
    have hcond := ite_true_elim (List.mem_filter.mp hmem).2
    have hT : T ≠ 0 := by
      intro hT0
      rw [hT0] at hroot
      norm_num at hroot
      exact absurd (solve_quadratic_lead_zero hroot ▸ hcond.1) (lt_irrefl 0)
    have hq := solve_quadratic_root hroot (pow_ne_zero 2 hT)
    exact ⟨htag.symm, hcond.1, hq, hcond.2.1, hcond.2.2.1, hcond.2.2.2⟩

/-- Inversion for a `P+L+P-` fixed-time candidate: the closed-form acceleration
and nonnegativity of all three phase durations. -/
theorem ma_plp_inv {x1 x2 v1 v2 vmax T a : ℝ} {tag : TrajType}
    (h : ma_p_plus_l_plus_p_minus x1 x2 v1 v2 vmax T = some (a, tag)) :
    tag = TrajType.PpLpPm ∧ 0 < a ∧
    a = (vmax ^ 2 - vmax * (v1 + v2) + 0.5 * (v1 ^ 2 + v2 ^ 2)) / (T * vmax - (x2 - x1)) ∧
    0 ≤ (vmax - v1) / a ∧ 0 ≤ (vmax - v2) / a ∧
    0 ≤ T - (vmax - v1) / a - (vmax - v2) / a := by
  simp only [ma_p_plus_l_plus_p_minus] at h
  by_cases h0 : (vmax ^ 2 - vmax * (v1 + v2) + 0.5 * (v1 ^ 2 + v2 ^ 2)) /
      (T * vmax - (x2 - x1)) ≤ 0
  · rw [if_pos h0] at h
    exact absurd h (by simp)
  · rw [if_neg h0] at h
    by_cases h1 : (vmax - v1) / ((vmax ^ 2 - vmax * (v1 + v2) + 0.5 * (v1 ^ 2 + v2 ^ 2)) /
        (T * vmax - (x2 - x1))) < 0 ∨
      (vmax - v2) / ((vmax ^ 2 - vmax * (v1 + v2) + 0.5 * (v1 ^ 2 + v2 ^ 2)) /
        (T * vmax - (x2 - x1))) < 0 ∨
      T - (vmax - v1) / ((vmax ^ 2 - vmax * (v1 + v2) + 0.5 * (v1 ^ 2 + v2 ^ 2)) /
        (T * vmax - (x2 - x1))) -
        (vmax - v2) / ((vmax ^ 2 - vmax * (v1 + v2) + 0.5 * (v1 ^ 2 + v2 ^ 2)) /
        (T * vmax - (x2 - x1))) < 0
    · rw [if_pos h1] at h
      exact absurd h (by simp)
    · rw [if_neg h1] at h
      push_neg at h1
      simp only [Option.some_inj, Prod.mk.injEq] at h
      obtain ⟨haq, htag⟩ := h
      subst haq
      exact ⟨htag.symm, not_le.mp h0, rfl, h1.1, h1.2.1, h1.2.2⟩

/-- Inversion for a `P-L-P+` fixed-time candidate. -/
theorem ma_pmlp_inv {x1 x2 v1 v2 vmax T a : ℝ} {tag : TrajType}
    (h : ma_p_minus_l_minus_p_plus x1 x2 v1 v2 vmax T = some (a, tag)) :
    tag = TrajType.PmLmPp ∧ 0 < a ∧
    a = (vmax ^ 2 + vmax * (v1 + v2) + 0.5 * (v1 ^ 2 + v2 ^ 2)) / (T * vmax + (x2 - x1)) ∧
    0 ≤ (vmax + v1) / a ∧ 0 ≤ (vmax + v2) / a ∧
    0 ≤ T - (vmax + v1) / a - (vmax + v2) / a := by
  simp only [ma_p_minus_l_minus_p_plus] at h
  by_cases h0 : (vmax ^ 2 + vmax * (v1 + v2) + 0.5 * (v1 ^ 2 + v2 ^ 2)) /
      (T * vmax + (x2 - x1)) ≤ 0
  · rw [if_pos h0] at h
    exact absurd h (by simp)
  · rw [if_neg h0] at h
    by_cases h1 : (vmax + v1) / ((vmax ^ 2 + vmax * (v1 + v2) + 0.5 * (v1 ^ 2 + v2 ^ 2)) /
        (T * vmax + (x2 - x1))) < 0 ∨
      (vmax + v2) / ((vmax ^ 2 + vmax * (v1 + v2) + 0.5 * (v1 ^ 2 + v2 ^ 2)) /
        (T * vmax + (x2 - x1))) < 0 ∨
      T - (vmax + v1) / ((vmax ^ 2 + vmax * (v1 + v2) + 0.5 * (v1 ^ 2 + v2 ^ 2)) /
        (T * vmax + (x2 - x1))) -
        (vmax + v2) / ((vmax ^ 2 + vmax * (v1 + v2) + 0.5 * (v1 ^ 2 + v2 ^ 2)) /
        (T * vmax + (x2 - x1))) < 0
    · rw [if_pos h1] at h
      exact absurd h (by simp)
    · rw [if_neg h1] at h
      push_neg at h1
      simp only [Option.some_inj, Prod.mk.injEq] at h
      obtain ⟨haq, htag⟩ := h
      subst haq
      exact ⟨htag.symm, not_le.mp h0, rfl, h1.1, h1.2.1, h1.2.2⟩

/-! ## Exact endpoint identities for strictly valid primitives -/

/-- A `P+P-` primitive whose acceleration is an exact root and whose switch time
lies in `[0, T]` steers the axis exactly from `(x1, v1)` to `(x2, v2)`. -/
theorem ppm_state_endpoints {x1 x2 v1 v2 vmax T a : ℝ}
    (hq : T ^ 2 * a ^ 2 + (2 * T * (v1 + v2) + 4 * (x1 - x2)) * a + -(v2 - v1) ^ 2 = 0)
    (ha : 0 < a) (hts0 : 0 < 0.5 * (T + (v2 - v1) / a))
    (htsT : 0.5 * (T + (v2 - v1) / a) ≤ T) :
    compute_trajectory_state x1 x2 v1 v2 a vmax T TrajType.PpPm 0 = (x1, v1) ∧
    compute_trajectory_state x1 x2 v1 v2 a vmax T TrajType.PpPm T = (x2, v2) := by
  have haz : a ≠ 0 := ne_of_gt ha
  constructor
  · simp only [compute_trajectory_state]
    rw [if_pos (le_of_lt hts0)]
    simp [ppPm_phase1]
  · simp only [compute_trajectory_state]
    by_cases hT : T ≤ 0.5 * (T + (v2 - v1) / a)
    · have hEq : 0.5 * (T + (v2 - v1) / a) = T := le_antisymm htsT hT
      have hv2 : v2 = v1 + a * T := by
        field_simp at hEq
        linarith
      subst hv2
      rw [if_pos hT]
      simp only [ppPm_phase1, Prod.mk.injEq]
      constructor
      · have h4a : (4 * a) ≠ 0 := by
          intro hz
          exact haz (by linarith)
        refine mul_left_cancel₀ h4a ?_
        linear_combination hq
      · ring
    · rw [if_neg hT]
      simp only [ppPm_phase2, Prod.mk.injEq]
      constructor
      · field_simp
        linear_combination a ^ 5 / 4 * hq
      · field_simp
        ring

/-- A `P-P+` primitive whose acceleration is an exact root and whose switch time
lies in `[0, T]` steers the axis exactly from `(x1, v1)` to `(x2, v2)`. -/
theorem pmp_state_endpoints {x1 x2 v1 v2 vmax T a : ℝ}
    (hq : T ^ 2 * a ^ 2 + (-2 * T * (v1 + v2) - 4 * (x1 - x2)) * a + -(v2 - v1) ^ 2 = 0)
    (ha : 0 < a) (hts0 : 0 < 0.5 * (T + (v1 - v2) / a))
    (htsT : 0.5 * (T + (v1 - v2) / a) ≤ T) :
    compute_trajectory_state x1 x2 v1 v2 a vmax T TrajType.PmPp 0 = (x1, v1) ∧
    compute_trajectory_state x1 x2 v1 v2 a vmax T TrajType.PmPp T = (x2, v2) := by
  have haz : a ≠ 0 := ne_of_gt ha
  constructor
  · simp only [compute_trajectory_state]
    rw [if_pos (le_of_lt hts0)]
    simp [pmPp_phase1]
  · simp only [compute_trajectory_state]
    by_cases hT : T ≤ 0.5 * (T + (v1 - v2) / a)
    · have hEq : 0.5 * (T + (v1 - v2) / a) = T := le_antisymm htsT hT
      have hv2 : v2 = v1 - a * T := by
        field_simp at hEq
        linarith
      subst hv2
      rw [if_pos hT]
      simp only [pmPp_phase1, Prod.mk.injEq]
      constructor
      · have h4a : (4 * a) ≠ 0 := by
          intro hz
          exact haz (by linarith)
        refine mul_left_cancel₀ h4a ?_
        linear_combination -hq
      · ring
    · rw [if_neg hT]
      simp only [pmPp_phase2, Prod.mk.injEq]
      constructor
      · field_simp
        linear_combination -(a ^ 5 / 4) * hq
      · field_simp
        ring

/-- A `P+L+P-` primitive with exact closed-form acceleration and nonnegative
phase durations steers the axis exactly from `(x1, v1)` to `(x2, v2)`. -/
theorem plp_state_endpoints {x1 x2 v1 v2 vmax T a : ℝ}
    (ha : 0 < a)
    (haf : a = (vmax ^ 2 - vmax * (v1 + v2) + 0.5 * (v1 ^ 2 + v2 ^ 2)) / (T * vmax - (x2 - x1)))
    (h1 : 0 ≤ (vmax - v1) / a) (h2 : 0 ≤ (vmax - v2) / a)
    (h3 : 0 ≤ T - (vmax - v1) / a - (vmax - v2) / a) :
    compute_trajectory_state x1 x2 v1 v2 a vmax T TrajType.PpLpPm 0 = (x1, v1) ∧
    compute_trajectory_state x1 x2 v1 v2 a vmax T TrajType.PpLpPm T = (x2, v2) := by
  have haz : a ≠ 0 := ne_of_gt ha
  have hnum : 0 ≤ vmax ^ 2 - vmax * (v1 + v2) + 0.5 * (v1 ^ 2 + v2 ^ 2) := by
    nlinarith [sq_nonneg (vmax - v1), sq_nonneg (vmax - v2)]
  have hden : 0 < T * vmax - (x2 - x1) := by
    rcases lt_trichotomy (T * vmax - (x2 - x1)) 0 with hlt | heq | hgt
    · exact absurd (haf ▸ div_nonpos_of_nonneg_of_nonpos hnum (le_of_lt hlt)) (not_le.mpr ha)
    · rw [haf, heq, div_zero] at ha
      exact absurd ha (lt_irrefl 0)
    · exact hgt
  have hkey : a * (T * vmax - (x2 - x1)) =
      vmax ^ 2 - vmax * (v1 + v2) + 0.5 * (v1 ^ 2 + v2 ^ 2) :=
    (eq_div_iff (ne_of_gt hden)).mp haf
  constructor
  · simp only [compute_trajectory_state]
    rw [if_pos h1]
    simp [plp_phase1]
  · simp only [compute_trajectory_state]
    by_cases hA : T ≤ (vmax - v1) / a
    · -- degenerate: the whole duration is the acceleration phase
      have htp1 : (vmax - v1) / a = T := by
        have hle : (vmax - v1) / a ≤ T := by linarith
        linarith [hA, hle]
      have htp2 : (vmax - v2) / a = 0 := by
        have h2' : (vmax - v2) / a ≤ 0 := by linarith [htp1 ▸ h3]
        linarith
      have hvm : vmax = v1 + a * T := by
        have := (div_eq_iff haz).mp htp1
        linarith
      have hv2 : v2 = vmax := by
        have := (div_eq_iff haz).mp htp2
        linarith
      subst hv2
      subst hvm
      rw [if_pos hA]
      simp only [plp_phase1, Prod.mk.injEq]
      constructor
      · refine mul_left_cancel₀ haz ?_
        linear_combination hkey
      · ring
    · rw [if_neg hA]
      by_cases hB : T ≤ (vmax - v1) / a + (T - (vmax - v1) / a - (vmax - v2) / a)
      · -- degenerate: no final deceleration phase, `v2 = vmax`
        have htp2 : (vmax - v2) / a = 0 := by
          have h2' : (vmax - v2) / a ≤ 0 := by linarith
          linarith
        have hv2 : v2 = vmax := by
          have := (div_eq_iff haz).mp htp2
          linarith
        subst hv2
        rw [if_pos hB]
        simp only [plp_phase2, Prod.mk.injEq]
        refine ⟨?_, ?_⟩
        · field_simp
          linear_combination a ^ 3 * hkey
        · trivial
      · rw [if_neg hB]
        simp only [plp_phase3, Prod.mk.injEq]
        refine ⟨?_, ?_⟩
        · field_simp
          linear_combination a ^ 6 * hkey
        · field_simp

/-- A `P-L-P+` primitive with exact closed-form acceleration and nonnegative
phase durations steers the axis exactly from `(x1, v1)` to `(x2, v2)`. -/
theorem pmlp_state_endpoints {x1 x2 v1 v2 vmax T a : ℝ}
    (ha : 0 < a)
    (haf : a = (vmax ^ 2 + vmax * (v1 + v2) + 0.5 * (v1 ^ 2 + v2 ^ 2)) / (T * vmax + (x2 - x1)))
    (h1 : 0 ≤ (vmax + v1) / a) (h2 : 0 ≤ (vmax + v2) / a)
    (h3 : 0 ≤ T - (vmax + v1) / a - (vmax + v2) / a) :
    compute_trajectory_state x1 x2 v1 v2 a vmax T TrajType.PmLmPp 0 = (x1, v1) ∧
    compute_trajectory_state x1 x2 v1 v2 a vmax T TrajType.PmLmPp T = (x2, v2) := by
  have haz : a ≠ 0 := ne_of_gt ha
  have hnum : 0 ≤ vmax ^ 2 + vmax * (v1 + v2) + 0.5 * (v1 ^ 2 + v2 ^ 2) := by
    nlinarith [sq_nonneg (vmax + v1), sq_nonneg (vmax + v2)]
  have hden : 0 < T * vmax + (x2 - x1) := by
    rcases lt_trichotomy (T * vmax + (x2 - x1)) 0 with hlt | heq | hgt
    · exact absurd (haf ▸ div_nonpos_of_nonneg_of_nonpos hnum (le_of_lt hlt)) (not_le.mpr ha)
    · rw [haf, heq, div_zero] at ha
      exact absurd ha (lt_irrefl 0)
    · exact hgt
  have hkey : a * (T * vmax + (x2 - x1)) =
      vmax ^ 2 + vmax * (v1 + v2) + 0.5 * (v1 ^ 2 + v2 ^ 2) :=
    (eq_div_iff (ne_of_gt hden)).mp haf
  constructor
  · simp only [compute_trajectory_state]
    rw [if_pos h1]
    simp [pmlp_phase1]
  · simp only [compute_trajectory_state]
    by_cases hA : T ≤ (vmax + v1) / a
    · have htp1 : (vmax + v1) / a = T := by
        have hle : (vmax + v1) / a ≤ T := by linarith
        linarith [hA, hle]
      have htp2 : (vmax + v2) / a = 0 := by
        have h2' : (vmax + v2) / a ≤ 0 := by linarith [htp1 ▸ h3]
        linarith
      have hvm : vmax = -v1 + a * T := by
        have := (div_eq_iff haz).mp htp1
        linarith
      have hv2 : v2 = -vmax := by
        have := (div_eq_iff haz).mp htp2
        linarith
      subst hv2
      subst hvm
      rw [if_pos hA]
      simp only [pmlp_phase1, Prod.mk.injEq]
      constructor
      · refine mul_left_cancel₀ haz ?_
        linear_combination -hkey
      · ring
    · rw [if_neg hA]
      by_cases hB : T ≤ (vmax + v1) / a + (T - (vmax + v1) / a - (vmax + v2) / a)
      · have htp2 : (vmax + v2) / a = 0 := by
          have h2' : (vmax + v2) / a ≤ 0 := by linarith
          linarith
        have hv2 : v2 = -vmax := by
          have := (div_eq_iff haz).mp htp2
          linarith
        subst hv2
        rw [if_pos hB]
        simp only [pmlp_phase2, Prod.mk.injEq]
        refine ⟨?_, ?_⟩
        · field_simp
          linear_combination -(a ^ 3) * hkey
        · trivial
      · rw [if_neg hB]
        simp only [pmlp_phase3, Prod.mk.injEq]
        refine ⟨?_, ?_⟩
        · field_simp
          linear_combination -(a ^ 6) * hkey
        · field_simp

/-! ## Claim C7: boundary continuity and endpoint interpolation -/

/-- C7 (counterexample): at `x1 = 0, x2 = 2, v1 = v2 = 0, vmax = amax = 1` and
duration `T = 2 + 2000000/2000001`, the fixed-time solver returns the primitive
`(a, class) = (1, P+L+P-)` (its pre-clamp acceleration `1.0000005` was clamped
to `amax`), and evaluating the trajectory state at `t = T` with the returned
acceleration yields position `4000001/2000001 ≠ 2 = x2` — an algebraic
deviation surviving exact arithmetic, so the returned primitive does not
interpolate `(x2, v2)` at `t = T`. -/
theorem C7_clamped_primitive_misses_endpoint :
    minimum_acceleration_interpolants 0 2 0 0 1 (2 + 2000000/2000001) 1
      t_margin_default a_margin_default = .ok (some (1, TrajType.PpLpPm)) ∧
    compute_trajectory_state 0 2 0 0 1 1 (2 + 2000000/2000001) TrajType.PpLpPm
      (2 + 2000000/2000001) = (4000001/2000001, 0) ∧
    (4000001/2000001 : ℝ) ≠ 2 := by
  refine ⟨ma_eval_c1_instance, ?_, by norm_num⟩
  simp only [compute_trajectory_state, plp_phase3]
  norm_num

/-- C7 (amended): every phase boundary of every class joins the two adjoining
closed forms continuously in position and velocity (for all real parameters,
with nonzero acceleration where the phase duration divides by it); and whenever
the fixed-time solver's selected candidate `(a, tag)` satisfies `a ≤ amax`
(so no clamping occurs) and its switch time lies within `[0, T]` (so the
`t_margin` tolerance is not exercised), the solver returns exactly that
primitive and its trajectory interpolates `(x1, v1)` at `t = 0` and `(x2, v2)`
at `t = T` exactly. -/
theorem C7_boundary_continuity_and_exact_endpoints
    {x1 x2 v1 v2 vmax T amax t_margin a_margin a : ℝ} {tag : TrajType}
    (hsel : ma_selected x1 x2 v1 v2 vmax T t_margin = some (a, tag))
    (hamax : a ≤ amax) (hmargin : 0 ≤ a_margin)
    (hswPpPm : tag = TrajType.PpPm → 0.5 * (T + (v2 - v1) / a) ≤ T)
    (hswPmPp : tag = TrajType.PmPp → 0.5 * (T + (v1 - v2) / a) ≤ T) :
    (∀ y1 w1 b t_s : ℝ, ppPm_phase1 y1 w1 b t_s = ppPm_phase2 y1 w1 b t_s 0) ∧
    (∀ y1 w1 b t_s : ℝ, pmPp_phase1 y1 w1 b t_s = pmPp_phase2 y1 w1 b t_s 0) ∧
    (∀ y1 w1 wmax b : ℝ, b ≠ 0 →
      plp_phase1 y1 w1 b ((wmax - w1) / b) = plp_phase2 y1 w1 b wmax ((wmax - w1) / b) 0) ∧
    (∀ y1 w1 wmax b t_p1 t_l : ℝ,
      plp_phase2 y1 w1 b wmax t_p1 t_l = plp_phase3 y1 w1 b wmax t_p1 t_l 0) ∧
    (∀ y1 w1 wmax b : ℝ, b ≠ 0 →
      pmlp_phase1 y1 w1 b ((wmax + w1) / b) = pmlp_phase2 y1 w1 b wmax ((wmax + w1) / b) 0) ∧
    (∀ y1 w1 wmax b t_p1 t_l : ℝ,
      pmlp_phase2 y1 w1 b wmax t_p1 t_l = pmlp_phase3 y1 w1 b wmax t_p1 t_l 0) ∧
    minimum_acceleration_interpolants x1 x2 v1 v2 vmax T amax t_margin a_margin
      = .ok (some (a, tag)) ∧
    compute_trajectory_state x1 x2 v1 v2 a vmax T tag 0 = (x1, v1) ∧
    compute_trajectory_state x1 x2 v1 v2 a vmax T tag T = (x2, v2) := by
  have hb1 : ∀ y1 w1 b t_s : ℝ, ppPm_phase1 y1 w1 b t_s = ppPm_phase2 y1 w1 b t_s 0 := by
    intro y1 w1 b t_s
    simp only [ppPm_phase1, ppPm_phase2, Prod.mk.injEq]
    constructor <;> ring
  have hb2 : ∀ y1 w1 b t_s : ℝ, pmPp_phase1 y1 w1 b t_s = pmPp_phase2 y1 w1 b t_s 0 := by
    intro y1 w1 b t_s
    simp only [pmPp_phase1, pmPp_phase2, Prod.mk.injEq]
    constructor <;> ring
  have hb3 : ∀ y1 w1 wmax b : ℝ, b ≠ 0 →
      plp_phase1 y1 w1 b ((wmax - w1) / b) = plp_phase2 y1 w1 b wmax ((wmax - w1) / b) 0 := by
    intro y1 w1 wmax b hb
    simp only [plp_phase1, plp_phase2, Prod.mk.injEq]
    constructor
    · ring
    · field_simp
  have hb4 : ∀ y1 w1 wmax b t_p1 t_l : ℝ,
      plp_phase2 y1 w1 b wmax t_p1 t_l = plp_phase3 y1 w1 b wmax t_p1 t_l 0 := by
    intro y1 w1 wmax b t_p1 t_l
    simp only [plp_phase2, plp_phase3, Prod.mk.injEq]
    constructor <;> ring
  have hb5 : ∀ y1 w1 wmax b : ℝ, b ≠ 0 →
      pmlp_phase1 y1 w1 b ((wmax + w1) / b) = pmlp_phase2 y1 w1 b wmax ((wmax + w1) / b) 0 := by
    intro y1 w1 wmax b hb
    simp only [pmlp_phase1, pmlp_phase2, Prod.mk.injEq]
    constructor
    · ring
    · field_simp
  have hb6 : ∀ y1 w1 wmax b t_p1 t_l : ℝ,
      pmlp_phase2 y1 w1 b wmax t_p1 t_l = pmlp_phase3 y1 w1 b wmax t_p1 t_l 0 := by
    intro y1 w1 wmax b t_p1 t_l
    simp only [pmlp_phase2, pmlp_phase3, Prod.mk.injEq]
    constructor <;> ring
  -- identify which class produced the selected candidate
  have hsel' : min_accel_select
      [ma_p_plus_p_minus x1 x2 v1 v2 vmax T t_margin,
       ma_p_minus_p_plus x1 x2 v1 v2 vmax T t_margin,
       ma_p_plus_l_plus_p_minus x1 x2 v1 v2 vmax T,
       ma_p_minus_l_minus_p_plus x1 x2 v1 v2 vmax T] = some (a, tag) := hsel
  have hmem := min_accel_select_mem hsel'
  have hfacts : 0 < a ∧
      compute_trajectory_state x1 x2 v1 v2 a vmax T tag 0 = (x1, v1) ∧
      compute_trajectory_state x1 x2 v1 v2 a vmax T tag T = (x2, v2) := by
    simp only [List.mem_cons, List.mem_singleton] at hmem
    rcases hmem with hc | hc | hc | hc | hfalse
    · obtain ⟨htag, hpos, hq, hts0, htsm, hpk⟩ := ma_ppm_inv hc.symm
      subst htag
      obtain ⟨h0, hT⟩ := ppm_state_endpoints hq hpos hts0 (hswPpPm rfl)
      exact ⟨hpos, h0, hT⟩
    · obtain ⟨htag, hpos, hq, hts0, htsm, hpk⟩ := ma_pmp_inv hc.symm
      subst htag
      obtain ⟨h0, hT⟩ := pmp_state_endpoints hq hpos hts0 (hswPmPp rfl)
      exact ⟨hpos, h0, hT⟩
    · obtain ⟨htag, hpos, haf, hp1, hp2, hp3⟩ := ma_plp_inv hc.symm
      subst htag
      obtain ⟨h0, hT⟩ := plp_state_endpoints hpos haf hp1 hp2 hp3
      exact ⟨hpos, h0, hT⟩
    · obtain ⟨htag, hpos, haf, hp1, hp2, hp3⟩ := ma_pmlp_inv hc.symm
      subst htag
      obtain ⟨h0, hT⟩ := pmlp_state_endpoints hpos haf hp1 hp2 hp3
      exact ⟨hpos, h0, hT⟩
    · simp at hfalse
  obtain ⟨hpos, h0, hT⟩ := hfacts
  refine ⟨hb1, hb2, hb3, hb4, hb5, hb6, ?_, h0, hT⟩
  simp only [minimum_acceleration_interpolants, hsel]
  rw [if_pos (by linarith : a ≤ amax + a_margin)]
  rw [max_eq_left hpos.le, min_eq_left hamax]

/-- Evaluation: for a unit displacement at rest (`x2 - x1 = 1`, `v1 = v2 = 0`)
with `vmax = 100` and duration `T = 2 + 1e-6`, the fixed-time solver selects
the `P+P-` candidate with acceleration `4/T²` (< 1). -/
theorem ma_sel_eval_unit_disp :
    ma_selected 0 1 0 0 100 (2 + 1/1000000) t_margin_default =
      some (4 / (2 + 1/1000000) ^ 2, TrajType.PpPm) := by
  have s16 : Real.sqrt 16 = 4 := by
    rw [show (16:ℝ) = 4 ^ 2 by norm_num]
    exact Real.sqrt_sq (by norm_num)
  have h1 : ma_p_plus_p_minus 0 1 0 0 100 (2 + 1/1000000) t_margin_default =
      some (4 / (2 + 1/1000000) ^ 2, TrajType.PpPm) := by
    simp only [ma_p_plus_p_minus, solve_quadratic, t_margin_default]
    norm_num [s16, abs_le]
  have h2 : ma_p_minus_p_plus 0 1 0 0 100 (2 + 1/1000000) t_margin_default = none := by
    simp only [ma_p_minus_p_plus, solve_quadratic, t_margin_default]
    norm_num [s16]
  have h3 : ma_p_plus_l_plus_p_minus 0 1 0 0 100 (2 + 1/1000000) = none := by
    simp only [ma_p_plus_l_plus_p_minus]
    norm_num
  have h4 : ma_p_minus_l_minus_p_plus 0 1 0 0 100 (2 + 1/1000000) = none := by
    simp only [ma_p_minus_l_minus_p_plus]
    norm_num
  simp only [ma_selected, min_accel_select, h1, h2, h3, h4, List.filterMap, id_eq]
  rfl

/-- Witness for the amended C7 theorem at a concrete strictly-valid input:
unit displacement at rest, `vmax = 100`, `amax = 1`, `T = 2 + 1e-6`. -/
theorem C7_boundary_continuity_witness :
    minimum_acceleration_interpolants 0 1 0 0 100 (2 + 1/1000000) 1
      t_margin_default a_margin_default =
      .ok (some (4 / (2 + 1/1000000) ^ 2, TrajType.PpPm)) ∧
    compute_trajectory_state 0 1 0 0 (4 / (2 + 1/1000000) ^ 2) 100 (2 + 1/1000000)
      TrajType.PpPm 0 = (0, 0) ∧
    compute_trajectory_state 0 1 0 0 (4 / (2 + 1/1000000) ^ 2) 100 (2 + 1/1000000)
      TrajType.PpPm (2 + 1/1000000) = (1, 0) := by
  have h := @C7_boundary_continuity_and_exact_endpoints 0 1 0 0 100 (2 + 1/1000000) 1
    t_margin_default a_margin_default (4 / (2 + 1/1000000) ^ 2) TrajType.PpPm
    ma_sel_eval_unit_disp (by norm_num) (by norm_num [a_margin_default])
    (fun _ => by norm_num) (fun ht => by cases ht)
  exact ⟨h.2.2.2.2.2.2.1, h.2.2.2.2.2.2.2.1, h.2.2.2.2.2.2.2.2⟩

/-! ## Lazy collision validator (`_check_edge_collision`) -/

/-- `np.linspace(a, b, n)`: `n` evenly spaced samples including both endpoints
(`[]` for `n = 0`, `[a]` for `n = 1`). -/
def linspace (a b : ℝ) (n : ℕ) : List ℝ :=
  if n ≤ 1 then (List.range n).map fun _ => a
  else (List.range n).map fun i : ℕ => a + (b - a) * (i : ℝ) / ((n : ℝ) - 1)

/-- Reshape a concatenated state vector of length `2·dim` into
`(positions, velocities)` as `state.reshape(2, dim)` does. -/
def reshape2 (dim : ℕ) (s : List ℝ) : List ℝ × List ℝ := (s.take dim, s.drop dim)

/-- `_get_state_in_segment`: per-dimension closed-form state at relative time `t`.
Out-of-range indices read the junk default `0` (never exercised by the planner,
which always passes `dim`-length data). -/
def get_state_in_segment (vmax : List ℝ) (dim : ℕ) (start_state end_state : List ℝ × List ℝ)
    (segment_time : ℝ) (segment_trajectory : List (ℝ × TrajType)) (t : ℝ) :
    List ℝ × List ℝ :=
  ((List.range dim).map fun d =>
      (compute_trajectory_state (start_state.1.getD d 0) (end_state.1.getD d 0)
        (start_state.2.getD d 0) (end_state.2.getD d 0)
        (segment_trajectory.getD d (0, TrajType.PpPm)).1 (vmax.getD d 0) segment_time
        (segment_trajectory.getD d (0, TrajType.PpPm)).2 t).1,
   (List.range dim).map fun d =>
      (compute_trajectory_state (start_state.1.getD d 0) (end_state.1.getD d 0)
        (start_state.2.getD d 0) (end_state.2.getD d 0)
        (segment_trajectory.getD d (0, TrajType.PpPm)).1 (vmax.getD d 0) segment_time
        (segment_trajectory.getD d (0, TrajType.PpPm)).2 t).2)

/-- `_check_edge_collision` on raw states: trivially free for a zero-duration
segment, otherwise sample `int(segment_time/time_step) + 1` evenly spaced times
spanning `[0, segment_time]` and require the collision checker to accept the
position at every sample (the loop returns `False` at the first rejection). -/
def check_edge_collision (collision_checker : List ℝ → Bool) (vmax : List ℝ) (dim : ℕ)
    (start_state end_state : List ℝ) (segment_time : ℝ)
    (trajectory_info : List (ℝ × TrajType)) (time_step : ℝ) : Bool :=
  if segment_time = (0:ℝ) then true
  else
    let num_samples := (⌊segment_time / time_step⌋).toNat + 1
    let times := linspace 0 segment_time num_samples
    times.all fun t =>
      collision_checker (get_state_in_segment vmax dim (reshape2 dim start_state)
        (reshape2 dim end_state) segment_time trajectory_info t).1

/-- Default `time_step = 0.01` of `_check_edge_collision`. -/
def time_step_default : ℝ := 1 / 100

/-! ## Claim C9: the edge validation sampling rule -/

/-- C9: a zero-duration edge is trivially free; a positive-duration edge is
sampled at exactly `⌊segment_time/time_step⌋ + 1` evenly spaced times spanning
`[0, segment_time]`, and the edge is reported free iff the external collision
predicate accepts the trajectory position at every sampled time. -/
theorem C9_edge_sampling_rule (collision_checker : List ℝ → Bool) (vmax : List ℝ)
    (dim : ℕ) (s e : List ℝ) (T : ℝ) (info : List (ℝ × TrajType)) (h : ℝ)
    (hT : 0 < T) :
    check_edge_collision collision_checker vmax dim s e 0 info h = true ∧
    (linspace 0 T ((⌊T / h⌋).toNat + 1)).length = (⌊T / h⌋).toNat + 1 ∧
    (check_edge_collision collision_checker vmax dim s e T info h = true ↔
      ∀ t ∈ linspace 0 T ((⌊T / h⌋).toNat + 1),
        collision_checker (get_state_in_segment vmax dim (reshape2 dim s)
          (reshape2 dim e) T info t).1 = true) := by
  refine ⟨?_, ?_, ?_⟩
  · simp [check_edge_collision]
  · unfold linspace
    by_cases hn : (⌊T / h⌋).toNat + 1 ≤ 1
    · rw [if_pos hn]
      simp
    · rw [if_neg hn]
      simp
  · unfold check_edge_collision
    rw [if_neg (ne_of_gt hT)]
    exact List.all_eq_true

/-- Witness for C9 at a concrete input (`T = h = 0.01`, a trivially accepting
collision predicate, a one-dimensional unit segment). -/
theorem C9_edge_sampling_rule_witness :
    check_edge_collision (fun _ => true) [100] 1 [0, 0] [1, 0] 0
      [(1, TrajType.PpPm)] time_step_default = true ∧
    (linspace 0 (1/100) ((⌊(1:ℝ)/100 / time_step_default⌋).toNat + 1)).length =
      (⌊(1:ℝ)/100 / time_step_default⌋).toNat + 1 ∧
    (check_edge_collision (fun _ => true) [100] 1 [0, 0] [1, 0] (1/100)
      [(1, TrajType.PpPm)] time_step_default = true ↔
      ∀ t ∈ linspace 0 (1/100) ((⌊(1:ℝ)/100 / time_step_default⌋).toNat + 1),
        (fun (_ : List ℝ) => true) (get_state_in_segment [100] 1 (reshape2 1 [0, 0])
          (reshape2 1 [1, 0]) (1/100) [(1, TrajType.PpPm)] t).1 = true) :=
  C9_edge_sampling_rule (fun _ => true) [100] 1 [0, 0] [1, 0] (1/100)
    [(1, TrajType.PpPm)] time_step_default (by norm_num)

/-! ## State/tree data model (class `Node`, `RampPlanner.__init__`)

Python `Node` objects are mutable and referenced by identity; we model them in
an arena (`nodes : List NodeRec`) with stable indices as handles.  `self.start`
and `self.goal` are the arena entries `start_idx` / `goal_idx`, never members
of either tree list.  Exceptions are modeled by `Except String`. -/

/-- The two tree tags (`tree_type` strings `'forward'` / `'backward'`). -/
inductive TreeType where
  | forward
  | backward
  deriving DecidableEq, Repr

/-- One `Node`: state vector, owning tree tag, parent handle, segment data for
the edge from the parent, and the derived children back-references. -/
structure NodeRec where
  state : List ℝ
  tree_type : TreeType
  parent : Option ℕ
  segment_time : Option ℝ
  trajectory_info : Option (List (ℝ × TrajType))
  children : List ℕ

instance : Inhabited NodeRec :=
  ⟨{ state := [], tree_type := TreeType.forward, parent := none,
     segment_time := none, trajectory_info := none, children := [] }⟩

/-- The constructor parameters of `RampPlanner` (collision checker and the
externally supplied smoothing function are opaque function parameters). -/
structure PlannerCfg where
  dim : ℕ
  collision_checker : List ℝ → Bool
  pos_min : List ℝ
  pos_max : List ℝ
  vmax : List ℝ
  amax : List ℝ
  smooth_fn : List (List ℝ) → List (List ℝ)

/-- The planner's mutable state: the node arena, the two seed handles, and the
two tree membership lists. -/
structure PlannerState where
  nodes : List NodeRec
  start_idx : ℕ
  goal_idx : ℕ
  forward_tree : List ℕ
  backward_tree : List ℕ

/-- Dereference a node handle (out-of-range handles read the junk default,
never exercised by the planner). -/
def getNode (s : PlannerState) (i : ℕ) : NodeRec := s.nodes.getD i default

/-- In-place update of one node, as Python attribute assignment does. -/
def setNode (s : PlannerState) (i : ℕ) (f : NodeRec → NodeRec) : PlannerState :=
  { s with nodes := s.nodes.set i (f (getNode s i)) }

/-- The tree list selected by a tag. -/
def treeOf (s : PlannerState) (ty : TreeType) : List ℕ :=
  match ty with
  | TreeType.forward => s.forward_tree
  | TreeType.backward => s.backward_tree

/-- Append a handle to the selected tree list (`tree.append(node)`). -/
def pushTree (s : PlannerState) (ty : TreeType) (i : ℕ) : PlannerState :=
  match ty with
  | TreeType.forward => { s with forward_tree := s.forward_tree ++ [i] }
  | TreeType.backward => { s with backward_tree := s.backward_tree ++ [i] }

/-- `old_tree.remove(node)`: Python raises `ValueError` when absent. -/
def eraseTree (s : PlannerState) (ty : TreeType) (i : ℕ) : Except String PlannerState :=
  if i ∈ treeOf s ty then
    match ty with
    | TreeType.forward => .ok { s with forward_tree := s.forward_tree.erase i }
    | TreeType.backward => .ok { s with backward_tree := s.backward_tree.erase i }
  else .error "ValueError: list.remove(x): x not in list"

/-- The opposite tag. -/
def TreeType.other : TreeType → TreeType
  | TreeType.forward => TreeType.backward
  | TreeType.backward => TreeType.forward

/-- `RampPlanner.__init__`: seed nodes for `self.start` / `self.goal`, empty trees. -/
def init_planner (start goal : List ℝ) : PlannerState :=
  { nodes := [{ state := start, tree_type := TreeType.forward, parent := none,
                segment_time := none, trajectory_info := none, children := [] },
              { state := goal, tree_type := TreeType.backward, parent := none,
                segment_time := none, trajectory_info := none, children := [] }],
    start_idx := 0, goal_idx := 1, forward_tree := [], backward_tree := [] }

/-! ## Segment solver combination over axes -/

/-- Collect per-axis `Option` results; the first `None` wins (`None in data`). -/
def option_list {α : Type} : List (Option α) → Option (List α)
  | [] => some []
  | none :: _ => none
  | some x :: rest => (option_list rest).map (x :: ·)

/-- `_calculate_segment_time`: per-axis time-optimal durations, then `np.max`
plus `safe_margin`.  A `None` from any axis makes `np.max` compare `None` with
floats and raise a `TypeError` (modeled as an error), as does an empty axis
list. -/
def calculate_segment_time (vmax amax : List ℝ) (dim : ℕ)
    (start_state end_state : List ℝ × List ℝ) (safe_margin : ℝ) : Except String ℝ :=
  let t_requireds := (List.range dim).map fun d =>
    univariate_time_optimal_interpolants (start_state.1.getD d 0) (end_state.1.getD d 0)
      (start_state.2.getD d 0) (end_state.2.getD d 0) (vmax.getD d 0) (amax.getD d 0)
  match option_list t_requireds with
  | none => .error "TypeError: comparison of None in np.max"
  | some [] => .error "ValueError: zero-size array in np.max"
  | some (t :: ts) => .ok (ts.foldl max t + safe_margin)

/-- Collect per-axis fixed-time solver results; the first raise propagates
(the list comprehension is evaluated left to right). -/
def collect_trajectories {α : Type} : List (Except String α) → Except String (List α)
  | [] => .ok []
  | .error e :: _ => .error e
  | .ok v :: rest => (collect_trajectories rest).map (v :: ·)

/-- `_calculate_segment_trajectory`: per-axis minimum-acceleration interpolants;
an axis raising propagates, and any axis returning `None` yields `None`. -/
def calculate_segment_trajectory (vmax amax : List ℝ) (dim : ℕ)
    (start_state end_state : List ℝ × List ℝ) (T : ℝ) :
    Except String (Option (List (ℝ × TrajType))) := do
  let trajectory_data ← collect_trajectories ((List.range dim).map fun d =>
    minimum_acceleration_interpolants (start_state.1.getD d 0) (end_state.1.getD d 0)
      (start_state.2.getD d 0) (end_state.2.getD d 0) (vmax.getD d 0) T (amax.getD d 0)
      t_margin_default a_margin_default)
  .ok (option_list trajectory_data)

/-- `_compute_optimal_segment`: segment time then trajectory; a `None`
trajectory raises `ValueError("Invalid trajectory!")`. -/
def compute_optimal_segment (vmax amax : List ℝ) (dim : ℕ)
    (start_state end_state : List ℝ × List ℝ) :
    Except String (ℝ × List (ℝ × TrajType)) := do
  let segment_time ← calculate_segment_time vmax amax dim start_state end_state
    safe_margin_default
  let segment_trajectory ← calculate_segment_trajectory vmax amax dim start_state end_state
    segment_time
  match segment_trajectory with
  | none => .error "Invalid trajectory!"
  | some tr => .ok (segment_time, tr)

/-! ## Seeding (`seed_trees`, `generate_max_braking_trajectory`) -/

/-- `_check_state_limits`: the position components within `[pos_min, pos_max]`. -/
def check_state_limits (cfg : PlannerCfg) (state : List ℝ) : Bool :=
  List.all (List.range cfg.dim) fun i =>
    if cfg.pos_min.getD i 0 ≤ state.getD i 0 ∧ state.getD i 0 ≤ cfg.pos_max.getD i 0
    then true else false

/-- The braking duration `t_max` of `generate_max_braking_trajectory`:
`np.max(np.abs(velocity) / amax)` (`0` for an empty axis list). -/
def braking_t_max (cfg : PlannerCfg) (velocity : List ℝ) : ℝ :=
  match (List.range cfg.dim).map (fun i => |velocity.getD i 0| / cfg.amax.getD i 0) with
  | [] => 0
  | t :: ts => ts.foldl max t

/-- The braking start position of `generate_max_braking_trajectory`. -/
def braking_initial_position (cfg : PlannerCfg) (position velocity : List ℝ) : List ℝ :=
  (List.range cfg.dim).map fun i =>
    if 0 < braking_t_max cfg velocity then
      position.getD i 0 + -(0.5) * (velocity.getD i 0 / braking_t_max cfg velocity) *
        braking_t_max cfg velocity ^ 2
    else position.getD i 0

/-- The braking segment's per-axis trajectory data. -/
def braking_trajectory_info (cfg : PlannerCfg) (velocity : List ℝ) : List (ℝ × TrajType) :=
  (List.range cfg.dim).map fun i =>
    if 0 < braking_t_max cfg velocity then
      (|velocity.getD i 0 / braking_t_max cfg velocity|, TrajType.PpPm)
    else ((0:ℝ), TrajType.PpPm)

/-- `generate_max_braking_trajectory`: the zero-velocity state reachable by
constant per-axis deceleration arriving at `state`, or `None` when it violates
position limits or the collision predicate. -/
def generate_max_braking_trajectory (cfg : PlannerCfg) (state : List ℝ) :
    Option (List ℝ × ℝ × List (ℝ × TrajType)) :=
  let position := state.take cfg.dim
  let velocity := state.drop cfg.dim
  let initial_state :=
    braking_initial_position cfg position velocity ++ List.replicate cfg.dim (0:ℝ)
  if check_state_limits cfg initial_state = false then none
  else if cfg.collision_checker initial_state = false then none
  else some (initial_state, braking_t_max cfg velocity, braking_trajectory_info cfg velocity)

/-- Seed one side: generate the braking root, append it, store the braking
segment on the seed node, and validate the braking edge.  A failed braking
generation is silently skipped (the source's `if initial_state is not None:`
guard falls through to `return True`). -/
def seed_side (cfg : PlannerCfg) (s : PlannerState) (ty : TreeType) : PlannerState × Bool :=
  let seedIdx := match ty with
    | TreeType.forward => s.start_idx
    | TreeType.backward => s.goal_idx
  match generate_max_braking_trajectory cfg (getNode s seedIdx).state with
  | none => (s, true)
  | some (initial_state, segment_time, trajectory_info) =>
      let newIdx := s.nodes.length
      let s1 := { s with nodes := s.nodes ++
        [{ state := initial_state, tree_type := ty, parent := none,
           segment_time := none, trajectory_info := none, children := [] }] }
      let s2 := pushTree s1 ty newIdx
      let s3 := setNode s2 seedIdx fun n =>
        { n with segment_time := some segment_time,
                 trajectory_info := some trajectory_info }
      (s3, check_edge_collision cfg.collision_checker cfg.vmax cfg.dim initial_state
        (getNode s3 seedIdx).state segment_time trajectory_info time_step_default)

/-- `seed_trees`: forward side first; an early `False` aborts before the
backward side, mirroring the `return False` in the loop. -/
def seed_trees (cfg : PlannerCfg) (s : PlannerState) : PlannerState × Bool :=
  let r1 := seed_side cfg s TreeType.forward
  if r1.2 then seed_side cfg r1.1 TreeType.backward
  else (r1.1, false)

/-! ## Extension (`extend_tree`, `_sample_free_space_state`) -/

/-- `_sample_free_space_state`: the sampled position (the uniform draw is the
`random_position` parameter) concatenated with zero velocity. -/
def sample_free_space_state (cfg : PlannerCfg) (random_position : List ℝ) : List ℝ :=
  random_position ++ List.replicate cfg.dim (0:ℝ)

/-- `extend_tree`: pick a random existing node (`random.choice`, modeled by the
rng draw `k` reduced mod the tree size; `IndexError` on an empty tree), sample
a zero-velocity state, reject it on collision, otherwise solve the segment
(which may raise) and append the new leaf. -/
def extend_tree (cfg : PlannerCfg) (s : PlannerState) (ty : TreeType) (k : ℕ)
    (random_position : List ℝ) : Except String (PlannerState × Option ℕ) :=
  let tree := treeOf s ty
  if tree.length = 0 then
    .error "IndexError: random.choice from empty sequence"
  else
    let sampled_idx := tree.getD (k % tree.length) 0
    let random_state := sample_free_space_state cfg random_position
    if cfg.collision_checker random_state = false then .ok (s, none)
    else do
      let (segment_time, trajectory_info) ← compute_optimal_segment cfg.vmax cfg.amax cfg.dim
        (reshape2 cfg.dim (getNode s sampled_idx).state) (reshape2 cfg.dim random_state)
      let newIdx := s.nodes.length
      let s1 := { s with nodes := s.nodes ++
        [{ state := random_state, tree_type := (getNode s sampled_idx).tree_type,
           parent := some sampled_idx, segment_time := some segment_time,
           trajectory_info := some trajectory_info, children := [] }] }
      let s2 := pushTree s1 ty newIdx
      let s3 := setNode s2 sampled_idx fun n => { n with children := n.children ++ [newIdx] }
      .ok (s3, some newIdx)

/-! ## Connection (`connect_trees`, `_find_nearest_node`, `_trace_path`) -/

/-- `init_weights`: inverse squared position ranges, then inverse squared
`2·vmax` for velocity components. -/
def init_weights (cfg : PlannerCfg) : List ℝ :=
  ((List.range cfg.dim).map fun i => 1 / (cfg.pos_max.getD i 0 - cfg.pos_min.getD i 0) ^ 2) ++
  ((List.range cfg.dim).map fun i => 1 / (cfg.vmax.getD i 0 * 2) ^ 2)

/-- `_weighted_euclidean_distance`: `√(Σ wᵢ·diffᵢ²)` over the `2·dim` components. -/
def weighted_euclidean_distance (cfg : PlannerCfg) (state_from state_to : List ℝ) : ℝ :=
  Real.sqrt (((List.range (2 * cfg.dim)).map fun i =>
    (init_weights cfg).getD i 0 * (state_from.getD i 0 - state_to.getD i 0) ^ 2).sum)

/-- `_find_nearest_node` (`KDTree.query`): the member of `tree` of least
weighted distance to the target node, ties to the earlier entry; `none` models
the KDTree failure on an empty tree. -/
def find_nearest_node (cfg : PlannerCfg) (s : PlannerState) (tree : List ℕ) (target : ℕ) :
    Option (ℕ × ℝ) :=
  match tree with
  | [] => none
  | i :: is => some (is.foldl (fun best j =>
      let d := weighted_euclidean_distance cfg (getNode s j).state (getNode s target).state
      if d < best.2 then (j, d) else best)
      (i, weighted_euclidean_distance cfg (getNode s i).state (getNode s target).state))

/-- `_trace_path`: follow parent links to the root collecting nodes, then
reverse (the accumulator builds the reversed-walk directly).  The fuel is an
artifact of the shallow embedding; with the forest invariant a fuel of the
arena size suffices, and exhaustion models nontermination on a cyclic graph. -/
def trace_path_aux (s : PlannerState) : ℕ → ℕ → List ℕ → Except String (List ℕ)
  | 0, _, _ => .error "nontermination in _trace_path"
  | fuel + 1, i, acc =>
      match (getNode s i).parent with
      | none => .ok (i :: acc)
      | some p => trace_path_aux s fuel p (i :: acc)

/-- `_trace_path`, root-to-node order. -/
def trace_path (s : PlannerState) (i : ℕ) : Except String (List ℕ) :=
  trace_path_aux s (s.nodes.length + 1) i []

/-- `connect_trees`: nearest node of the other tree within `epsilon`, then the
two root-to-tip paths. -/
def connect_trees (cfg : PlannerCfg) (s : PlannerState) (tree : List ℕ) (node : ℕ)
    (epsilon : ℝ) : Except String (Option (List ℕ × List ℕ)) :=
  match find_nearest_node cfg s tree node with
  | none => .error "ValueError: empty KDTree data"
  | some (nearest_node, distance) =>
      if epsilon < distance then .ok none
      else do
        let path1 ← trace_path s nearest_node
        let path2 ← trace_path s node
        .ok (some (path1, path2))

/-! ## Path validation (`_check_path_collision`, `_check_paths_collision`,
`_connect_paths`) -/

/-- An edge between two arena nodes, validated with the child's stored segment
data (`None` segment data on a non-root path entry would crash the source;
junk defaults model the unreachable read). -/
def check_edge_nodes (cfg : PlannerCfg) (s : PlannerState) (i j : ℕ) (segment_time : ℝ)
    (trajectory_info : List (ℝ × TrajType)) : Bool :=
  check_edge_collision cfg.collision_checker cfg.vmax cfg.dim (getNode s i).state
    (getNode s j).state segment_time trajectory_info time_step_default

/-- `_check_path_collision`: first failing consecutive pair of a root-to-leaf
path, or `none`. -/
def check_path_collision (cfg : PlannerCfg) (s : PlannerState) : List ℕ → Option (ℕ × ℕ)
  | a :: b :: rest =>
      if check_edge_nodes cfg s a b ((getNode s b).segment_time.getD 0)
          ((getNode s b).trajectory_info.getD []) = true
      then check_path_collision cfg s (b :: rest)
      else some (a, b)
  | _ => none

/-- `_connect_paths`: orient the two root-to-tip paths forward-to-backward,
concatenate, and insert the start/goal seed nodes when their states differ
from the path ends (`np.array_equal` is state-vector equality). -/
def connect_paths (s : PlannerState) (path1 path2 : List ℕ) : Except String (List ℕ) := do
  let combined ←
    if (getNode s (path1.headD 0)).tree_type = TreeType.forward ∧
        (getNode s (path2.headD 0)).tree_type = TreeType.backward then
      Except.ok (path1 ++ path2.reverse)
    else if (getNode s (path2.headD 0)).tree_type = TreeType.forward ∧
        (getNode s (path1.headD 0)).tree_type = TreeType.backward then
      Except.ok (path2 ++ path1.reverse)
    else Except.error "Invalid paths: Unable to determine start and end nodes."
  let combined1 :=
    if (getNode s s.start_idx).state = (getNode s (combined.headD 0)).state then combined
    else s.start_idx :: combined
  let combined2 :=
    if (getNode s s.goal_idx).state = (getNode s (combined1.getLastD 0)).state then combined1
    else combined1 ++ [s.goal_idx]
  .ok combined2

/-- The two possible outcomes of `_check_paths_collision`. -/
inductive PathsResult where
  | path (p : List ℕ)
  | collision (t : ℕ × ℕ × ℕ × ℕ)

/-- `_check_paths_collision`: validate `path1`, `path2`, then the freshly
solved bridge segment; a failure yields the 4-tuple
`(segment_start, segment_end, bridge_start, bridge_end)`, success yields the
combined path. -/
def check_paths_collision (cfg : PlannerCfg) (s : PlannerState)
    (paths : List ℕ × List ℕ) : Except String PathsResult :=
  let path1 := paths.1
  let path2 := paths.2
  let bridge_start := path1.getLastD 0
  let bridge_end := path2.getLastD 0
  match check_path_collision cfg s path1 with
  | some (a, b) => .ok (PathsResult.collision (a, b, bridge_start, bridge_end))
  | none =>
    match check_path_collision cfg s path2 with
    | some (a, b) => .ok (PathsResult.collision (a, b, bridge_start, bridge_end))
    | none => do
        let (segment_time, trajectory_info) ← compute_optimal_segment cfg.vmax cfg.amax cfg.dim
          (reshape2 cfg.dim (getNode s bridge_start).state)
          (reshape2 cfg.dim (getNode s bridge_end).state)
        if check_edge_nodes cfg s bridge_start bridge_end segment_time trajectory_info = true
        then do
          let path ← connect_paths s path1 path2
          .ok (PathsResult.path path)
        else .ok (PathsResult.collision (bridge_start, bridge_end, bridge_start, bridge_end))

/-! ## Tree repair (`remove_infeasible_edge`) -/

/-- The inner stack loop of `remove_infeasible_edge`: relabel a node's entire
descendant subtree to the new parent's tree tag and move each node from the old
tree list to the other one.  Python pops from the end of the stack and extends
with the children, so the next node popped is the last child pushed. -/
def relabel_subtree (newParent : ℕ) (oldTy : TreeType) :
    ℕ → List ℕ → PlannerState → Except String PlannerState
  | 0, _, _ => .error "nontermination in subtree relabeling"
  | _ + 1, [], s => .ok s
  | fuel + 1, n :: rest, s => do
      let s1 := setNode s n fun nd => { nd with tree_type := (getNode s newParent).tree_type }
      let s2 ← eraseTree s1 oldTy n
      let s3 := pushTree s2 oldTy.other n
      relabel_subtree newParent oldTy fuel ((getNode s3 n).children.reverse ++ rest) s3

/-- The re-parenting walk of `remove_infeasible_edge`: from the same-tree
bridge node toward the root via the recorded old parents, stopping at the
failing edge's start node.  Walking past a root (`old_parent = None`) crashes
the source with an `AttributeError`; fuel exhaustion models nontermination. -/
def repair_loop (cfg : PlannerCfg) (oldTy : TreeType) (stop : ℕ) :
    ℕ → ℕ → ℕ → PlannerState → Except String PlannerState
  | 0, _, _, _ => .error "nontermination in remove_infeasible_edge"
  | fuel + 1, current, newParent, s =>
      if current = stop then .ok s
      else
        match (getNode s current).parent with
        | none => .error "AttributeError: NoneType has no attribute children"
        | some old_parent => do
            let s1 := setNode s current fun nd => { nd with parent := some newParent }
            let s2 ←
              if current ∈ (getNode s1 old_parent).children then
                Except.ok (setNode s1 old_parent fun nd =>
                  { nd with children := nd.children.erase current })
              else Except.error "ValueError: list.remove(x): x not in list"
            let s3 := setNode s2 newParent fun nd =>
              { nd with children := nd.children ++ [current] }
            let (segment_time, trajectory_info) ← compute_optimal_segment cfg.vmax cfg.amax
              cfg.dim (reshape2 cfg.dim (getNode s3 newParent).state)
              (reshape2 cfg.dim (getNode s3 current).state)
            let s4 := setNode s3 current fun nd =>
              { nd with segment_time := some segment_time,
                        trajectory_info := some trajectory_info }
            let s5 ← relabel_subtree newParent oldTy (fuel + 1) [current] s4
            repair_loop cfg oldTy stop fuel old_parent current s5

/-- `remove_infeasible_edge`: a bridge failure (differing tree tags) is a
no-op; an internal failure re-parents the chain from the same-tree bridge node
up to the failing edge's start node onto the other tree. -/
def remove_infeasible_edge (cfg : PlannerCfg) (s : PlannerState)
    (infeasible_edge : ℕ × ℕ × ℕ × ℕ) : Except String PlannerState :=
  let start_node := infeasible_edge.1
  let end_node := infeasible_edge.2.1
  let bridge_start_node := infeasible_edge.2.2.1
  let bridge_end_node := infeasible_edge.2.2.2
  if (getNode s start_node).tree_type ≠ (getNode s end_node).tree_type then .ok s
  else
    let oldTy := (getNode s start_node).tree_type
    let pair :=
      if (getNode s bridge_start_node).tree_type = (getNode s end_node).tree_type
      then (bridge_start_node, bridge_end_node)
      else (bridge_end_node, bridge_start_node)
    repair_loop cfg oldTy start_node (s.nodes.length + 1) pair.1 pair.2 s

/-! ## Path reconstruction and smoothing (`reconstruct_path`, `smooth_path`,
`_construct_path`) -/

/-- `reconstruct_path`: fresh forward-tagged copies of the path nodes; segment
data is copied for intact forward parent-child pairs and re-solved (possibly
raising) across broken pairs. -/
def reconstruct_aux (cfg : PlannerCfg) :
    List ℕ → PlannerState → List ℕ → Except String (PlannerState × List ℕ)
  | [], s, acc => .ok (s, acc.reverse)
  | nodeIdx :: rest, s, acc =>
      let newIdx := s.nodes.length
      match acc with
      | [] =>
          reconstruct_aux cfg rest
            { s with nodes := s.nodes ++
              [{ state := (getNode s nodeIdx).state, tree_type := TreeType.forward,
                 parent := none, segment_time := none, trajectory_info := none,
                 children := [] }] } (newIdx :: acc)
      | prev :: _ => do
          let seg ←
            if (getNode s nodeIdx).tree_type = TreeType.forward then
              Except.ok ((getNode s nodeIdx).segment_time, (getNode s nodeIdx).trajectory_info)
            else do
              let (t, tr) ← compute_optimal_segment cfg.vmax cfg.amax cfg.dim
                (reshape2 cfg.dim (getNode s prev).state)
                (reshape2 cfg.dim (getNode s nodeIdx).state)
              Except.ok (some t, some tr)
          let s1 := { s with nodes := s.nodes ++
            [{ state := (getNode s nodeIdx).state, tree_type := TreeType.forward,
               parent := some prev, segment_time := seg.1, trajectory_info := seg.2,
               children := [] }] }
          let s2 := setNode s1 prev fun nd => { nd with children := nd.children ++ [newIdx] }
          reconstruct_aux cfg rest s2 (newIdx :: acc)

/-- `reconstruct_path`. -/
def reconstruct_path (cfg : PlannerCfg) (s : PlannerState) (path : List ℕ) :
    Except String (PlannerState × List ℕ) :=
  reconstruct_aux cfg path s []

/-- `_construct_path`: forward-tagged nodes for the smoothed states, re-solving
every consecutive segment (possibly raising). -/
def construct_aux (cfg : PlannerCfg) :
    List (List ℝ) → PlannerState → List ℕ → Except String (PlannerState × List ℕ)
  | [], s, acc => .ok (s, acc.reverse)
  | st :: rest, s, acc =>
      let newIdx := s.nodes.length
      match acc with
      | [] =>
          construct_aux cfg rest
            { s with nodes := s.nodes ++
              [{ state := st, tree_type := TreeType.forward, parent := none,
                 segment_time := none, trajectory_info := none, children := [] }] }
            (newIdx :: acc)
      | prev :: _ => do
          let (t, tr) ← compute_optimal_segment cfg.vmax cfg.amax cfg.dim
            (reshape2 cfg.dim (getNode s prev).state) (reshape2 cfg.dim st)
          let s1 := { s with nodes := s.nodes ++
            [{ state := st, tree_type := TreeType.forward, parent := some prev,
               segment_time := some t, trajectory_info := some tr, children := [] }] }
          let s2 := setNode s1 prev fun nd => { nd with children := nd.children ++ [newIdx] }
          construct_aux cfg rest s2 (newIdx :: acc)

/-- `smooth_path`: the external smoothing function (FSBAS) applied to the path
states, then `_construct_path`. -/
def smooth_path (cfg : PlannerCfg) (s : PlannerState) (path : List ℕ) :
    Except String (PlannerState × List ℕ) :=
  construct_aux cfg (cfg.smooth_fn (path.map fun i => (getNode s i).state)) s []

/-! ## The planning loop (`plan`) -/

/-- One iteration of the main planning loop: extend the current tree, attempt a
connection, validate, and either finish with a path, repair, or continue. -/
def plan_iteration (cfg : PlannerCfg) (s : PlannerState) (i k : ℕ) (pos : List ℝ) :
    Except String (Sum PlannerState (List (List ℝ))) := do
  let current := if i % 2 = 0 then TreeType.forward else TreeType.backward
  let (s1, extended) ← extend_tree cfg s current k pos
  match extended with
  | none => .ok (Sum.inl s1)
  | some extended_node => do
      let other_tree := treeOf s1 current.other
      let conn ← connect_trees cfg s1 other_tree extended_node (1/10)
      match conn with
      | none => .ok (Sum.inl s1)
      | some paths => do
          let result ← check_paths_collision cfg s1 paths
          match result with
          | PathsResult.path p => do
              let (s2, reconstructed) ← reconstruct_path cfg s1 p
              let (s3, smoothed) ← smooth_path cfg s2 reconstructed
              .ok (Sum.inr (smoothed.map fun idx => (getNode s3 idx).state))
          | PathsResult.collision tup => do
              let s2 ← remove_infeasible_edge cfg s1 tup
              .ok (Sum.inl s2)

/-- The iteration budget is the length of the supplied randomness stream
(`max_iters` draws of `(node choice, sampled position)`). -/
def plan_loop (cfg : PlannerCfg) :
    PlannerState → List (ℕ × List ℝ) → ℕ → Except String (Option (List (List ℝ)))
  | _, [], _ => .ok none
  | s, (k, pos) :: rest, i => do
      let r ← plan_iteration cfg s i k pos
      match r with
      | Sum.inl s' => plan_loop cfg s' rest (i + 1)
      | Sum.inr path => .ok (some path)

/-- `plan`: seed both trees (returning the no-path signal `none` on a reported
seed failure), then run the alternating growth/connection loop; `.error`
models an exception escaping `plan` to its caller. -/
def plan (cfg : PlannerCfg) (start goal : List ℝ) (rng : List (ℕ × List ℝ)) :
    Except String (Option (List (List ℝ))) :=
  let s0 := init_planner start goal
  let seeded := seed_trees cfg s0
  if seeded.2 then plan_loop cfg seeded.1 rng 0
  else .ok none

/-- Monadic bind on a successful `Except` computation. -/
theorem except_bind_ok {α β : Type} (a : α) (f : α → Except String β) :
    (Except.ok a >>= f) = f a := rfl

/-- Monadic bind short-circuits on an `Except` error. -/
theorem except_bind_err {α β : Type} (e : String) (f : α → Except String β) :
    (Except.error e >>= f) = Except.error e := rfl

/-! ## Claim C4: seed failure visibility -/

/-- `List.range 1` evaluates to `[0]`. -/
theorem range_one_eq : List.range 1 = [0] := rfl

/-- Configuration for the C4 run: one axis, position limits `[0, 10]`, unit
bounds; the collision predicate rejects exactly the forward braking state
`[5, 0]`. -/
def c4_cfg : PlannerCfg :=
  { dim := 1,
    collision_checker := fun l => if l = [(5:ℝ), 0] then false else true,
    pos_min := [0], pos_max := [10], vmax := [1], amax := [1],
    smooth_fn := fun l => l }

/-- Evaluation: the forward braking state `[5, 0]` fails the collision
predicate, so the braking generation returns `None`. -/
theorem c4_gen5 : generate_max_braking_trajectory c4_cfg [5, 0] = none := by
  simp only [generate_max_braking_trajectory, braking_t_max, braking_initial_position,
    braking_trajectory_info, check_state_limits, c4_cfg]
  norm_num [range_one_eq]

/-- Evaluation: the backward braking state `[7, 0]` is accepted (zero braking
time for a zero-velocity attachment state). -/
theorem c4_gen7 : generate_max_braking_trajectory c4_cfg [7, 0] =
    some ([7, 0], 0, [(0, TrajType.PpPm)]) := by
  simp only [generate_max_braking_trajectory, braking_t_max, braking_initial_position,
    braking_trajectory_info, check_state_limits, c4_cfg]
  norm_num [range_one_eq]

/-- C4 (failing-input evaluation): when the forward tree's zero-velocity
braking state fails the collision predicate, `seed_trees` nevertheless reports
success (`True`) with the forward tree left empty — the `if initial_state is
not None:` guard silently skips the failure — and `plan` then enters the
extension loop and crashes on `random.choice` of the empty forward tree
instead of returning the no-path signal `None`. -/
theorem C4_seed_failure_enters_loop_and_crashes :
    (seed_trees c4_cfg (init_planner [5, 0] [7, 0])).2 = true ∧
    (seed_trees c4_cfg (init_planner [5, 0] [7, 0])).1.forward_tree = [] ∧
    plan c4_cfg [5, 0] [7, 0] [(0, [1])] =
      .error "IndexError: random.choice from empty sequence" := by
  have hseed : seed_side c4_cfg (init_planner [5, 0] [7, 0]) TreeType.forward =
      (init_planner [5, 0] [7, 0], true) := by
    simp only [seed_side, init_planner, getNode]
    norm_num [c4_gen5]
  have hback : seed_side c4_cfg (init_planner [5, 0] [7, 0]) TreeType.backward =
      ({ nodes := [{ state := [5, 0], tree_type := TreeType.forward, parent := none,
                     segment_time := none, trajectory_info := none, children := [] },
                   { state := [7, 0], tree_type := TreeType.backward, parent := none,
                     segment_time := some 0, trajectory_info := some [(0, TrajType.PpPm)],
                     children := [] },
                   { state := [7, 0], tree_type := TreeType.backward, parent := none,
                     segment_time := none, trajectory_info := none, children := [] }],
         start_idx := 0, goal_idx := 1, forward_tree := [],
         backward_tree := [2] }, true) := by
    simp only [seed_side, init_planner, getNode]
    norm_num [c4_gen7, pushTree, setNode, check_edge_collision, getNode]
  refine ⟨?_, ?_, ?_⟩
  · simp [seed_trees, hseed, hback]
  · simp [seed_trees, hseed, hback]
  · simp only [plan, seed_trees, hseed, hback]
    norm_num [plan_loop, plan_iteration, extend_tree, treeOf, except_bind_err]

/-! ## Claim C3: solver failures escape `plan` -/

/-- Configuration for the C3 run: one axis, everything collision-free. -/
def c3_cfg : PlannerCfg :=
  { dim := 1, collision_checker := fun _ => true, pos_min := [0], pos_max := [10],
    vmax := [1], amax := [1], smooth_fn := fun l => l }

/-- Evaluation: the zero-velocity start `[0, 0]` seeds successfully. -/
theorem c3_gen0 : generate_max_braking_trajectory c3_cfg [0, 0] =
    some ([0, 0], 0, [(0, TrajType.PpPm)]) := by
  simp only [generate_max_braking_trajectory, braking_t_max, braking_initial_position,
    braking_trajectory_info, check_state_limits, c3_cfg]
  norm_num [range_one_eq]

/-- Evaluation: the zero-velocity goal `[7, 0]` seeds successfully. -/
theorem c3_gen7 : generate_max_braking_trajectory c3_cfg [7, 0] =
    some ([7, 0], 0, [(0, TrajType.PpPm)]) := by
  simp only [generate_max_braking_trajectory, braking_t_max, braking_initial_position,
    braking_trajectory_info, check_state_limits, c3_cfg]
  norm_num [range_one_eq]

/-- `ma_raise_degenerate` with the duration numeral normalized. -/
theorem ma_raise_degenerate' :
    minimum_acceleration_interpolants 0 0 0 0 1 safe_margin_default 1
      t_margin_default a_margin_default = .error "No valid result" := by
  have h := ma_raise_degenerate
  rwa [zero_add] at h

/-- Evaluation: solving a segment between identical zero-velocity states: the
time-optimal duration is `0`, and the fixed-time solver at `0 + 1e-6` raises. -/
theorem c3_segment_raises :
    compute_optimal_segment [1] [1] 1 (reshape2 1 [0, 0]) (reshape2 1 [0, 0]) =
      .error "No valid result" := by
  have ht : calculate_segment_time [1] [1] 1 (reshape2 1 [0, 0]) (reshape2 1 [0, 0])
      safe_margin_default = .ok safe_margin_default := by
    simp only [calculate_segment_time, reshape2]
    norm_num [range_one_eq, uto_eval_degenerate, option_list]
  have htr : calculate_segment_trajectory [1] [1] 1 (reshape2 1 [0, 0]) (reshape2 1 [0, 0])
      safe_margin_default = .error "No valid result" := by
    simp only [calculate_segment_trajectory, reshape2]
    norm_num [range_one_eq, ma_raise_degenerate', collect_trajectories, except_bind_err]
  simp only [compute_optimal_segment, ht, except_bind_ok, htr, except_bind_err]

/-- C3 (failing-input evaluation): both trees seed successfully, but the first
extension draws a sample at the chosen node's own position; the per-segment
fixed-time solver finds no valid primitive at the duration `0 + 1e-6` and
raises `ValueError("No valid result")`, which `extend_tree` and the planning
loop leave unguarded — the exception escapes `plan` to its caller instead of
being treated as a skipped extension. -/
theorem C3_solver_failure_escapes_plan :
    plan c3_cfg [0, 0] [7, 0] [(0, [0])] = .error "No valid result" := by
  have hseedf : seed_side c3_cfg (init_planner [0, 0] [7, 0]) TreeType.forward =
      ({ nodes := [{ state := [0, 0], tree_type := TreeType.forward, parent := none,
                     segment_time := some 0, trajectory_info := some [(0, TrajType.PpPm)],
                     children := [] },
                   { state := [7, 0], tree_type := TreeType.backward, parent := none,
                     segment_time := none, trajectory_info := none, children := [] },
                   { state := [0, 0], tree_type := TreeType.forward, parent := none,
                     segment_time := none, trajectory_info := none, children := [] }],
         start_idx := 0, goal_idx := 1, forward_tree := [2],
         backward_tree := [] }, true) := by
    simp only [seed_side, init_planner, getNode]
    norm_num [c3_gen0, pushTree, setNode, check_edge_collision, getNode]
  have hseedb : seed_trees c3_cfg (init_planner [0, 0] [7, 0]) =
      ({ nodes := [{ state := [0, 0], tree_type := TreeType.forward, parent := none,
                     segment_time := some 0, trajectory_info := some [(0, TrajType.PpPm)],
                     children := [] },
                   { state := [7, 0], tree_type := TreeType.backward, parent := none,
                     segment_time := some 0, trajectory_info := some [(0, TrajType.PpPm)],
                     children := [] },
                   { state := [0, 0], tree_type := TreeType.forward, parent := none,
                     segment_time := none, trajectory_info := none, children := [] },
                   { state := [7, 0], tree_type := TreeType.backward, parent := none,
                     segment_time := none, trajectory_info := none, children := [] }],
         start_idx := 0, goal_idx := 1, forward_tree := [2],
         backward_tree := [3] }, true) := by
    simp only [seed_trees, hseedf]
    simp only [seed_side, getNode]
    norm_num [c3_gen7, pushTree, setNode, check_edge_collision, getNode]
  simp only [plan, hseedb]
  simp only [plan_loop, plan_iteration, extend_tree, treeOf, getNode,
    sample_free_space_state, c3_cfg]
  norm_num [c3_segment_raises, except_bind_err, except_bind_ok]

/-! ## Arena access lemmas -/

/-- `setNode` keeps the arena size. -/
theorem setNode_nodes_length (s : PlannerState) (i : ℕ) (f : NodeRec → NodeRec) :
    (setNode s i f).nodes.length = s.nodes.length := by
  simp [setNode]

/-- `setNode` leaves other handles untouched. -/
theorem getNode_setNode_other {s : PlannerState} {i j : ℕ} (f : NodeRec → NodeRec)
    (h : j ≠ i) : getNode (setNode s i f) j = getNode s j := by
  simp [getNode, setNode, List.getD, List.getElem?_set_ne (Ne.symm h)]

/-- `setNode` applies the update at an in-range handle. -/
theorem getNode_setNode_self {s : PlannerState} {i : ℕ} (f : NodeRec → NodeRec)
    (h : i < s.nodes.length) : getNode (setNode s i f) i = f (getNode s i) := by
  simp [getNode, setNode, List.getD, List.getElem?_set_self h,
    List.getElem?_eq_getElem h]

/-- A field-preserving update preserves that field at every handle. -/
theorem getNode_setNode_parent (s : PlannerState) (i : ℕ) (f : NodeRec → NodeRec)
    (hf : ∀ nd, (f nd).parent = nd.parent) (j : ℕ) :
    (getNode (setNode s i f) j).parent = (getNode s j).parent := by
  by_cases hji : j = i
  · subst hji
    by_cases hlt : j < s.nodes.length
    · rw [getNode_setNode_self f hlt, hf]
    · simp [getNode, setNode, List.getD, List.set_eq_of_length_le (le_of_not_lt hlt)]
  · rw [getNode_setNode_other f hji]

/-- `pushTree` does not touch the arena. -/
theorem pushTree_nodes (s : PlannerState) (ty : TreeType) (i : ℕ) :
    (pushTree s ty i).nodes = s.nodes := by
  cases ty <;> simp [pushTree]

/-- `eraseTree` does not touch the arena. -/
theorem eraseTree_nodes {s s' : PlannerState} {ty : TreeType} {i : ℕ}
    (h : eraseTree s ty i = .ok s') : s'.nodes = s.nodes := by
  unfold eraseTree at h
  by_cases hm : i ∈ treeOf s ty
  · rw [if_pos hm] at h
    cases ty <;> (cases h; rfl)
  · rw [if_neg hm] at h
    cases h

/-- The subtree relabeling loop never changes a parent pointer. -/
theorem relabel_parent_preserved {np : ℕ} {oldTy : TreeType} :
    ∀ (fuel : ℕ) (stack : List ℕ) (s s' : PlannerState),
    relabel_subtree np oldTy fuel stack s = .ok s' →
    ∀ j, (getNode s' j).parent = (getNode s j).parent := by
  intro fuel
  induction fuel with
  | zero => intro stack s s' h; cases h
  | succ fuel ih =>
      intro stack s s' h j
      match stack with
      | [] =>
          simp only [relabel_subtree] at h
          cases h
          rfl
      | n :: rest =>
          simp only [relabel_subtree] at h
          rcases he : eraseTree (setNode s n fun nd =>
              { nd with tree_type := (getNode s np).tree_type }) oldTy n with e | s2
          · rw [he] at h
            cases h
          · rw [he] at h
            simp only [except_bind_ok] at h
            have h5 := ih _ _ _ h j
            rw [h5]
            have h2 : (getNode (pushTree s2 oldTy.other n) j).parent =
                (getNode s2 j).parent := by
              simp [getNode, pushTree_nodes]
            rw [h2]
            have h3 : (getNode s2 j).parent = (getNode (setNode s n fun nd =>
                { nd with tree_type := (getNode s np).tree_type }) j).parent := by
              simp [getNode, eraseTree_nodes he]
            rw [h3]
            exact getNode_setNode_parent s n
              (fun nd => { nd with tree_type := (getNode s np).tree_type })
              (fun nd => rfl) j

/-- The subtree relabeling loop keeps the arena size. -/
theorem relabel_length_preserved {np : ℕ} {oldTy : TreeType} :
    ∀ (fuel : ℕ) (stack : List ℕ) (s s' : PlannerState),
    relabel_subtree np oldTy fuel stack s = .ok s' →
    s'.nodes.length = s.nodes.length := by
  intro fuel
  induction fuel with
  | zero => intro stack s s' h; cases h
  | succ fuel ih =>
      intro stack s s' h
      match stack with
      | [] =>
          simp only [relabel_subtree] at h
          cases h
          rfl
      | n :: rest =>
          simp only [relabel_subtree] at h
          rcases he : eraseTree (setNode s n fun nd =>
              { nd with tree_type := (getNode s np).tree_type }) oldTy n with e | s2
          · rw [he] at h
            cases h
          · rw [he] at h
            simp only [except_bind_ok] at h
            have h5 := ih _ _ _ h
            rw [h5]
            have := eraseTree_nodes he
            simp [pushTree_nodes, this, setNode_nodes_length]

/-! ## Claim C5: the repair walk stops at the failing edge's start node

The spec says the re-parenting walk of `remove_infeasible_edge` continues to
the tree's original root.  The source's loop is
`while current_node is not start_node`, so it stops at the failing edge's
start node instead; ancestors strictly between that node and the root are
never reassigned. -/

/-- Evaluation: time-optimal duration for a unit displacement at rest with
`vmax = 100`, `amax = 1` is `2` (pure bang-bang, no cruise phase). -/
theorem uto_eval_unit_disp :
    univariate_time_optimal_interpolants 0 1 0 0 100 1 = some 2 := by
  have s4 : Real.sqrt 4 = 2 := by
    rw [show (4:ℝ) = 2 ^ 2 by norm_num]
    exact Real.sqrt_sq (by norm_num)
  have h1 : uto_p_plus_p_minus 0 1 0 0 100 1 = some 2 := by
    simp only [uto_p_plus_p_minus, solve_quadratic]
    norm_num [s4]
  have h2 : uto_p_minus_p_plus 0 1 0 0 100 1 = none := by
    simp only [uto_p_minus_p_plus, solve_quadratic]
    norm_num
  have h3 : uto_p_plus_l_plus_p_minus 0 1 0 0 100 1 = none := by
    simp only [uto_p_plus_l_plus_p_minus]
    norm_num
  have h4 : uto_p_minus_l_plus_p_plus 0 1 0 0 100 1 = none := by
    simp only [uto_p_minus_l_plus_p_plus]
    norm_num
  simp only [univariate_time_optimal_interpolants, h1, h2, h3, h4, List.filterMap]
  rfl

/-- Evaluation: the fixed-time solver at the padded duration `2 + 1e-6` keeps
the `P+P-` primitive with acceleration `4/T²` (strictly inside `amax = 1`,
no clamping). -/
theorem ma_full_eval_unit_disp :
    minimum_acceleration_interpolants 0 1 0 0 100 (2 + 1/1000000) 1
      t_margin_default a_margin_default =
      .ok (some (4 / (2 + 1/1000000) ^ 2, TrajType.PpPm)) := by
  simp only [minimum_acceleration_interpolants, ma_sel_eval_unit_disp]
  norm_num [a_margin_default]

/-- Evaluation: segment time for the unit-displacement segment is `2 + 1e-6`
(the time-optimal `2` plus `safe_margin`). -/
theorem cst_eval_unit_disp :
    calculate_segment_time [100] [1] 1 (reshape2 1 [0, 0]) (reshape2 1 [1, 0])
      safe_margin_default = .ok (2 + 1/1000000) := by
  simp only [calculate_segment_time, reshape2]
  norm_num [range_one_eq, uto_eval_unit_disp, option_list, safe_margin_default]

/-- Evaluation: the per-axis fixed-time trajectory list for the
unit-displacement segment. -/
theorem ctr_eval_unit_disp :
    calculate_segment_trajectory [100] [1] 1 (reshape2 1 [0, 0]) (reshape2 1 [1, 0])
      (2 + 1/1000000) = .ok (some [(4 / (2 + 1/1000000) ^ 2, TrajType.PpPm)]) := by
  have hma := ma_full_eval_unit_disp
  norm_num at hma
  simp only [calculate_segment_trajectory, reshape2]
  norm_num [range_one_eq, hma, collect_trajectories, option_list, except_bind_ok,
    Except.map]

/-- Evaluation: the full segment recomputation performed by the repair walk for
the unit-displacement edge. -/
theorem cos_eval_unit_disp :
    compute_optimal_segment [100] [1] 1 (reshape2 1 [0, 0]) (reshape2 1 [1, 0]) =
      .ok (2 + 1/1000000, [(4 / (2 + 1/1000000) ^ 2, TrajType.PpPm)]) := by
  simp only [compute_optimal_segment, cst_eval_unit_disp, except_bind_ok,
    ctr_eval_unit_disp]

/-- Configuration for the C5 run: one axis, everything collision-free,
`vmax = 100`, `amax = 1`. -/
def c5_cfg : PlannerCfg :=
  { dim := 1, collision_checker := fun _ => true, pos_min := [0], pos_max := [10],
    vmax := [100], amax := [1], smooth_fn := fun l => l }

/-- Arena for the C5 run: a forward chain `3 → 2 → 1` (node 3 the forward
root) and a lone backward root `0`.  Node 1 is the forward bridge node, node 0
the backward one; the edge `2 → 1` is the one reported infeasible. -/
def c5_state : PlannerState :=
  { nodes :=
      [{ state := [0, 0], tree_type := TreeType.backward, parent := none,
         segment_time := none, trajectory_info := none, children := [] },
       { state := [1, 0], tree_type := TreeType.forward, parent := some 2,
         segment_time := some 1, trajectory_info := some [(1, TrajType.PpPm)],
         children := [] },
       { state := [2, 0], tree_type := TreeType.forward, parent := some 3,
         segment_time := some 1, trajectory_info := some [(1, TrajType.PpPm)],
         children := [1] },
       { state := [3, 0], tree_type := TreeType.forward, parent := none,
         segment_time := none, trajectory_info := none, children := [2] }],
    start_idx := 3, goal_idx := 0,
    forward_tree := [3, 2, 1], backward_tree := [0] }

/-- The state `remove_infeasible_edge` leaves behind on the C5 run: the bridge
node 1 is re-parented onto the backward root 0 with a recomputed segment and
moved to the backward tree; the walk then reaches node 2 — the failing edge's
start node — and stops, leaving node 2 (parent 3, forward) and the forward
root 3 untouched. -/
def c5_final : PlannerState :=
  { nodes :=
      [{ state := [0, 0], tree_type := TreeType.backward, parent := none,
         segment_time := none, trajectory_info := none, children := [1] },
       { state := [1, 0], tree_type := TreeType.backward, parent := some 0,
         segment_time := some (2 + 1/1000000),
         trajectory_info := some [(4 / (2 + 1/1000000) ^ 2, TrajType.PpPm)],
         children := [] },
       { state := [2, 0], tree_type := TreeType.forward, parent := some 3,
         segment_time := some 1, trajectory_info := some [(1, TrajType.PpPm)],
         children := [] },
       { state := [3, 0], tree_type := TreeType.forward, parent := none,
         segment_time := none, trajectory_info := none, children := [2] }],
    start_idx := 3, goal_idx := 0,
    forward_tree := [3, 2], backward_tree := [0, 1] }

/-- Evaluation: the complete repair run on the C5 arena. -/
theorem c5_repair_eval :
    remove_infeasible_edge c5_cfg c5_state (2, 1, 1, 0) = .ok c5_final := by
  simp only [remove_infeasible_edge]
  norm_num [c5_state, c5_cfg, c5_final, getNode, setNode, treeOf, pushTree, eraseTree,
    TreeType.other, repair_loop, relabel_subtree, List.getD, cos_eval_unit_disp,
    except_bind_ok, except_bind_err]

/-- Any successful run of the repair walk leaves the stop node's parent
pointer untouched and preserves the arena size: parents change only at
visited nodes, and the guard excludes the stop node from every iteration. -/
theorem repair_loop_stop_parent (cfg : PlannerCfg) (oldTy : TreeType) (stop : ℕ) :
    ∀ (fuel : ℕ) (current np : ℕ) (s s' : PlannerState),
    repair_loop cfg oldTy stop fuel current np s = .ok s' →
    (getNode s' stop).parent = (getNode s stop).parent ∧
    s'.nodes.length = s.nodes.length := by
  intro fuel
  induction fuel with
  | zero => intro current np s s' h; cases h
  | succ fuel ih =>
      intro current np s s' h
      by_cases hc : current = stop
      · rw [repair_loop, if_pos hc] at h
        cases h
        exact ⟨rfl, rfl⟩
      · rw [repair_loop, if_neg hc] at h
        rcases hp : (getNode s current).parent with _ | op
        · rw [hp] at h
          cases h
        · rw [hp] at h
          simp only at h
          by_cases hm : current ∈
              (getNode (setNode s current fun nd => { nd with parent := some np })
                op).children
          · rw [if_pos hm] at h
            simp only [except_bind_ok] at h
            rcases hseg : compute_optimal_segment cfg.vmax cfg.amax cfg.dim
                (reshape2 cfg.dim
                  (getNode (setNode (setNode (setNode s current fun nd =>
                    { nd with parent := some np }) op fun nd =>
                    { nd with children := nd.children.erase current }) np fun nd =>
                    { nd with children := nd.children ++ [current] }) np).state)
                (reshape2 cfg.dim
                  (getNode (setNode (setNode (setNode s current fun nd =>
                    { nd with parent := some np }) op fun nd =>
                    { nd with children := nd.children.erase current }) np fun nd =>
                    { nd with children := nd.children ++ [current] }) current).state)
              with e | seg
            · rw [hseg] at h
              simp only [except_bind_err] at h
              cases h
            · rw [hseg] at h
              simp only [except_bind_ok] at h
              rcases hrel : relabel_subtree np oldTy (fuel + 1) [current]
                  (setNode (setNode (setNode (setNode s current fun nd =>
                    { nd with parent := some np }) op fun nd =>
                    { nd with children := nd.children.erase current }) np fun nd =>
                    { nd with children := nd.children ++ [current] }) current fun nd =>
                    { nd with segment_time := some seg.1,
                              trajectory_info := some seg.2 })
                  with e | s5
              · rw [hrel] at h
                simp only [except_bind_err] at h
                cases h
              · rw [hrel] at h
                simp only [except_bind_ok] at h
                obtain ⟨ihp, ihl⟩ := ih op current s5 s' h
                constructor
                · rw [ihp, relabel_parent_preserved _ _ _ _ hrel stop]
                  rw [getNode_setNode_parent _ _ (fun nd =>
                    { nd with segment_time := some seg.1,
                              trajectory_info := some seg.2 }) (fun nd => rfl) stop]
                  rw [getNode_setNode_parent _ _ (fun nd =>
                    { nd with children := nd.children ++ [current] }) (fun nd => rfl) stop]
                  rw [getNode_setNode_parent _ _ (fun nd =>
                    { nd with children := nd.children.erase current }) (fun nd => rfl) stop]
                  have hsc : stop ≠ current := fun he => hc he.symm
                  rw [getNode_setNode_other _ hsc]
                · rw [ihl, relabel_length_preserved _ _ _ _ hrel]
                  simp [setNode_nodes_length]
          · rw [if_neg hm] at h
            simp only [except_bind_err] at h
            cases h

/-- C5 (counterexample): on the concrete arena `c5_state` — forward chain
`3 → 2 → 1` with root 3, failing edge `2 → 1`, bridge pair `(1, 0)` — the walk
re-parents only the bridge node 1 onto the backward root and stops at node 2,
the failing edge's start node.  Node 2 is an ancestor strictly between the
collision point and the forward root, yet it keeps `parent = 3`, stays
forward-tagged, and remains in `forward_tree`, contradicting the claim that
the walk continues to the tree's original root and inverts the entire portion
of the tree between the collision point and the root. -/
theorem C5_walk_stops_before_root :
    remove_infeasible_edge c5_cfg c5_state (2, 1, 1, 0) = .ok c5_final ∧
    (getNode c5_state 3).parent = none ∧
    (getNode c5_final 1).parent = some 0 ∧
    (getNode c5_final 1).tree_type = TreeType.backward ∧
    (getNode c5_final 2).parent = some 3 ∧
    (getNode c5_final 2).tree_type = TreeType.forward ∧
    2 ∈ c5_final.forward_tree := by
  refine ⟨c5_repair_eval, ?_, ?_, ?_, ?_, ?_, ?_⟩ <;>
    norm_num [c5_state, c5_final, getNode, List.getD]

/-- C5 (amended): whenever `remove_infeasible_edge` succeeds, the failing
edge's start node — the loop bound of the source's
`while current_node is not start_node` walk — is never re-parented, and no
node is created or discarded.  The walk therefore inverts exactly the chain
from the same-tree bridge node up to (but excluding) the failing edge's start
node, not the portion extending to the tree's original root. -/
theorem C5_repair_walk_extent (cfg : PlannerCfg) (s s' : PlannerState)
    (e : ℕ × ℕ × ℕ × ℕ) (h : remove_infeasible_edge cfg s e = .ok s') :
    (getNode s' e.1).parent = (getNode s e.1).parent ∧
    s'.nodes.length = s.nodes.length := by
  unfold remove_infeasible_edge at h
  by_cases hty : (getNode s e.1).tree_type ≠ (getNode s e.2.1).tree_type
  · rw [if_pos hty] at h
    cases h
    exact ⟨rfl, rfl⟩
  · rw [if_neg hty] at h
    simp only at h
    exact repair_loop_stop_parent cfg _ e.1 _ _ _ s s' h

/-- Witness for the amended C5 theorem at the concrete C5 arena. -/
theorem C5_repair_walk_extent_witness :
    remove_infeasible_edge c5_cfg c5_state (2, 1, 1, 0) = .ok c5_final ∧
    (getNode c5_final 2).parent = (getNode c5_state 2).parent ∧
    c5_final.nodes.length = c5_state.nodes.length :=
  ⟨c5_repair_eval,
   (C5_repair_walk_extent c5_cfg c5_state c5_final (2, 1, 1, 0) c5_repair_eval).1,
   (C5_repair_walk_extent c5_cfg c5_state c5_final (2, 1, 1, 0) c5_repair_eval).2⟩

/-! ## Claim C10: the zero-velocity tree invariant -/

/-- Destructing a successful `Except` bind. -/
theorem except_bind_ok_inv {α β : Type} {e : Except String α} {f : α → Except String β}
    {b : β} (h : (e >>= f) = .ok b) : ∃ a, e = .ok a ∧ f a = .ok b := by
  cases e with
  | error s => rw [except_bind_err] at h; cases h
  | ok a => exact ⟨a, rfl, by rwa [except_bind_ok] at h⟩

/-- `getD` on a snoc, away from the appended slot. -/
theorem getD_snoc_ne {α : Type} (x d : α) :
    ∀ (l : List α) (i : ℕ), i ≠ l.length → (l ++ [x]).getD i d = l.getD i d := by
  intro l
  induction l with
  | nil =>
      intro i hi
      match i with
      | 0 => exact absurd rfl hi
      | n + 1 => simp [List.getD]
  | cons a l ih =>
      intro i hi
      match i with
      | 0 => simp [List.getD]
      | n + 1 =>
          simp only [List.cons_append, List.getD_cons_succ]
          exact ih n (fun he => hi (by simp [he]))

/-- `getD` on a snoc, at the appended slot. -/
theorem getD_snoc_self {α : Type} (x d : α) :
    ∀ (l : List α), (l ++ [x]).getD l.length d = x := by
  intro l
  induction l with
  | nil => simp [List.getD]
  | cons a l ih =>
      simp only [List.cons_append, List.length_cons, List.getD_cons_succ]
      exact ih

/-- A state-preserving update preserves every handle's state vector. -/
theorem getNode_setNode_state (s : PlannerState) (i : ℕ) (f : NodeRec → NodeRec)
    (hf : ∀ nd, (f nd).state = nd.state) (j : ℕ) :
    (getNode (setNode s i f) j).state = (getNode s j).state := by
  by_cases hji : j = i
  · subst hji
    by_cases hlt : j < s.nodes.length
    · rw [getNode_setNode_self f hlt, hf]
    · simp [getNode, setNode, List.getD, List.set_eq_of_length_le (le_of_not_lt hlt)]
  · rw [getNode_setNode_other f hji]

/-- `pushTree` keeps the seed handles. -/
theorem pushTree_start (s : PlannerState) (ty : TreeType) (i : ℕ) :
    (pushTree s ty i).start_idx = s.start_idx := by
  cases ty <;> rfl

/-- `pushTree` keeps the seed handles. -/
theorem pushTree_goal (s : PlannerState) (ty : TreeType) (i : ℕ) :
    (pushTree s ty i).goal_idx = s.goal_idx := by
  cases ty <;> rfl

/-- Membership after a `pushTree`: the pushed handle or an old member. -/
theorem mem_pushTree_union {s : PlannerState} {ty : TreeType} {n i : ℕ}
    (h : i ∈ (pushTree s ty n).forward_tree ∨ i ∈ (pushTree s ty n).backward_tree) :
    i = n ∨ i ∈ s.forward_tree ∨ i ∈ s.backward_tree := by
  cases ty <;> simp [pushTree] at h <;> tauto

/-- Inversion of a successful `eraseTree`: the handle was a member, the arena
and seed handles are untouched, and tree membership only shrinks. -/
theorem eraseTree_ok {s s' : PlannerState} {ty : TreeType} {i : ℕ}
    (h : eraseTree s ty i = .ok s') :
    s'.nodes = s.nodes ∧ s'.start_idx = s.start_idx ∧ s'.goal_idx = s.goal_idx ∧
    i ∈ treeOf s ty ∧
    (∀ j, j ∈ s'.forward_tree ∨ j ∈ s'.backward_tree →
      j ∈ s.forward_tree ∨ j ∈ s.backward_tree) := by
  unfold eraseTree at h
  by_cases hm : i ∈ treeOf s ty
  · rw [if_pos hm] at h
    cases ty
    · cases h
      refine ⟨rfl, rfl, rfl, hm, ?_⟩
      intro j hj
      rcases hj with hj | hj
      · exact Or.inl (List.mem_of_mem_erase hj)
      · exact Or.inr hj
    · cases h
      refine ⟨rfl, rfl, rfl, hm, ?_⟩
      intro j hj
      rcases hj with hj | hj
      · exact Or.inl hj
      · exact Or.inr (List.mem_of_mem_erase hj)
  · rw [if_neg hm] at h
    cases h

/-- The subtree relabeling loop never touches a state vector, the seed handles,
and never introduces a tree member. -/
theorem relabel_preserves {np : ℕ} {oldTy : TreeType} :
    ∀ (fuel : ℕ) (stack : List ℕ) (s s' : PlannerState),
    relabel_subtree np oldTy fuel stack s = .ok s' →
    (∀ j, (getNode s' j).state = (getNode s j).state) ∧
    s'.start_idx = s.start_idx ∧ s'.goal_idx = s.goal_idx ∧
    (∀ i, i ∈ s'.forward_tree ∨ i ∈ s'.backward_tree →
      i ∈ s.forward_tree ∨ i ∈ s.backward_tree) := by
  intro fuel
  induction fuel with
  | zero => intro stack s s' h; cases h
  | succ fuel ih =>
      intro stack s s' h
      match stack with
      | [] =>
          simp only [relabel_subtree] at h
          cases h
          exact ⟨fun j => rfl, rfl, rfl, fun i hi => hi⟩
      | n :: rest =>
          simp only [relabel_subtree] at h
          rcases he : eraseTree (setNode s n fun nd =>
              { nd with tree_type := (getNode s np).tree_type }) oldTy n with e | s2
          · rw [he] at h
            cases h
          · rw [he] at h
            simp only [except_bind_ok] at h
            obtain ⟨ihs, ihst, ihg, ihm⟩ := ih _ _ _ h
            obtain ⟨hnodes, hst, hg, hmem, hshrink⟩ := eraseTree_ok he
            have hn_union : n ∈ s.forward_tree ∨ n ∈ s.backward_tree := by
              cases oldTy
              · exact Or.inl hmem
              · exact Or.inr hmem
            refine ⟨?_, ?_, ?_, ?_⟩
            · intro j
              rw [ihs j]
              have h2 : (getNode (pushTree s2 oldTy.other n) j).state =
                  (getNode s2 j).state := by
                simp [getNode, pushTree_nodes]
              rw [h2]
              have h3 : (getNode s2 j).state = (getNode (setNode s n fun nd =>
                  { nd with tree_type := (getNode s np).tree_type }) j).state := by
                simp [getNode, hnodes]
              rw [h3]
              exact getNode_setNode_state s n
                (fun nd => { nd with tree_type := (getNode s np).tree_type })
                (fun nd => rfl) j
            · rw [ihst, pushTree_start, hst]
              rfl
            · rw [ihg, pushTree_goal, hg]
              rfl
            · intro i hi
              rcases mem_pushTree_union (ihm i hi) with hi' | hi'
              · exact hi' ▸ hn_union
              · exact hshrink i hi'

/-- Any successful run of the repair walk preserves every state vector, the
seed handles, the arena size, and never introduces a tree member. -/
theorem repair_loop_preserves (cfg : PlannerCfg) (oldTy : TreeType) (stop : ℕ) :
    ∀ (fuel : ℕ) (current np : ℕ) (s s' : PlannerState),
    repair_loop cfg oldTy stop fuel current np s = .ok s' →
    (∀ j, (getNode s' j).state = (getNode s j).state) ∧
    s'.start_idx = s.start_idx ∧ s'.goal_idx = s.goal_idx ∧
    s'.nodes.length = s.nodes.length ∧
    (∀ i, i ∈ s'.forward_tree ∨ i ∈ s'.backward_tree →
      i ∈ s.forward_tree ∨ i ∈ s.backward_tree) := by
  intro fuel
  induction fuel with
  | zero => intro current np s s' h; cases h
  | succ fuel ih =>
      intro current np s s' h
      by_cases hc : current = stop
      · rw [repair_loop, if_pos hc] at h
        cases h
        exact ⟨fun j => rfl, rfl, rfl, rfl, fun i hi => hi⟩
      · rw [repair_loop, if_neg hc] at h
        rcases hp : (getNode s current).parent with _ | op
        · rw [hp] at h
          cases h
        · rw [hp] at h
          simp only at h
          by_cases hm : current ∈
              (getNode (setNode s current fun nd => { nd with parent := some np })
                op).children
          · rw [if_pos hm] at h
            simp only [except_bind_ok] at h
            obtain ⟨seg, hseg, h⟩ := except_bind_ok_inv h
            obtain ⟨st, ti⟩ := seg
            simp only at h
            obtain ⟨s5, hrel, h⟩ := except_bind_ok_inv h
            obtain ⟨ihs, ihst, ihg, ihl, ihm⟩ := ih op current s5 s' h
            obtain ⟨rs, rst, rg, rm⟩ := relabel_preserves _ _ _ _ hrel
            have rl := relabel_length_preserved _ _ _ _ hrel
            refine ⟨?_, ?_, ?_, ?_, ?_⟩
            · intro j
              rw [ihs j, rs j]
              rw [getNode_setNode_state _ _ (fun nd =>
                { nd with segment_time := some st, trajectory_info := some ti })
                (fun nd => rfl) j]
              rw [getNode_setNode_state _ _ (fun nd =>
                { nd with children := nd.children ++ [current] }) (fun nd => rfl) j]
              rw [getNode_setNode_state _ _ (fun nd =>
                { nd with children := nd.children.erase current }) (fun nd => rfl) j]
              rw [getNode_setNode_state _ _ (fun nd =>
                { nd with parent := some np }) (fun nd => rfl) j]
            · rw [ihst, rst]; rfl
            · rw [ihg, rg]; rfl
            · rw [ihl, rl]
              simp [setNode_nodes_length]
            · intro i hi
              exact rm i (ihm i hi)
          · rw [if_neg hm] at h
            simp only [except_bind_err] at h
            cases h

/-- The C10 invariant: the seed handles are the first two arena slots, and
every handle stored in either tree list designates a later slot whose state
vector ends in `dim` exact zeros — the velocity half. -/
def c10_inv (cfg : PlannerCfg) (s : PlannerState) : Prop :=
  s.start_idx = 0 ∧ s.goal_idx = 1 ∧ 2 ≤ s.nodes.length ∧
  ∀ i, i ∈ s.forward_tree ∨ i ∈ s.backward_tree →
    2 ≤ i ∧ List.drop cfg.dim (getNode s i).state = List.replicate cfg.dim 0

/-- A state-preserving node update preserves the C10 invariant. -/
theorem c10_setNode (cfg : PlannerCfg) (s : PlannerState) (i : ℕ) (f : NodeRec → NodeRec)
    (hf : ∀ nd, (f nd).state = nd.state) (hinv : c10_inv cfg s) :
    c10_inv cfg (setNode s i f) := by
  obtain ⟨h0, h1, hlen, hmem⟩ := hinv
  refine ⟨h0, h1, ?_, ?_⟩
  · rw [setNode_nodes_length]; exact hlen
  · intro j hj
    obtain ⟨h2j, hzj⟩ := hmem j hj
    refine ⟨h2j, ?_⟩
    rw [getNode_setNode_state s i f hf j]
    exact hzj

/-- Appending a zero-velocity node and pushing its handle preserves the C10
invariant. -/
theorem c10_append_push (cfg : PlannerCfg) (s : PlannerState) (ty : TreeType)
    (nd : NodeRec) (hnd : List.drop cfg.dim nd.state = List.replicate cfg.dim 0)
    (hinv : c10_inv cfg s) :
    c10_inv cfg (pushTree { s with nodes := s.nodes ++ [nd] } ty s.nodes.length) := by
  obtain ⟨h0, h1, hlen, hmem⟩ := hinv
  refine ⟨?_, ?_, ?_, ?_⟩
  · rw [pushTree_start]; exact h0
  · rw [pushTree_goal]; exact h1
  · have : (pushTree { s with nodes := s.nodes ++ [nd] } ty s.nodes.length).nodes =
        s.nodes ++ [nd] := pushTree_nodes _ _ _
    rw [this, List.length_append]
    omega
  · intro i hi
    have hstate : (getNode (pushTree { s with nodes := s.nodes ++ [nd] } ty
        s.nodes.length) i).state = ((s.nodes ++ [nd]).getD i default).state := by
      simp [getNode, pushTree_nodes]
    by_cases hieq : i = s.nodes.length
    · subst hieq
      refine ⟨hlen, ?_⟩
      rw [hstate, getD_snoc_self]
      exact hnd
    · rcases mem_pushTree_union hi with hi' | hi'
      · exact absurd hi' hieq
      · obtain ⟨h2i, hzi⟩ := hmem i hi'
        refine ⟨h2i, ?_⟩
        rw [hstate, getD_snoc_ne _ _ _ _ hieq]
        exact hzi

/-- The sampled state of `_sample_free_space_state` has an exactly-zero
velocity half. -/
theorem sample_state_zero_velocity (cfg : PlannerCfg) (rp : List ℝ)
    (hrp : rp.length = cfg.dim) :
    List.drop cfg.dim (sample_free_space_state cfg rp) = List.replicate cfg.dim 0 := by
  simp only [sample_free_space_state]
  rw [← hrp, List.drop_left]

/-- The braking root generated by `generate_max_braking_trajectory` has an
exactly-zero velocity half. -/
theorem gen_braking_zero_velocity (cfg : PlannerCfg) (st ist : List ℝ) (t : ℝ)
    (ti : List (ℝ × TrajType))
    (h : generate_max_braking_trajectory cfg st = some (ist, t, ti)) :
    List.drop cfg.dim ist = List.replicate cfg.dim 0 := by
  simp only [generate_max_braking_trajectory] at h
  split at h
  · cases h
  · split at h
    · cases h
    · simp only [Option.some.injEq, Prod.mk.injEq] at h
      obtain ⟨h1, -, -⟩ := h
      rw [← h1]
      have hl : (braking_initial_position cfg (List.take cfg.dim st)
          (List.drop cfg.dim st)).length = cfg.dim := by
        simp [braking_initial_position]
      rw [List.drop_left' hl]

/-- One seeding side preserves the C10 invariant: the appended braking root is
zero-velocity and the stored-segment update on the seed node does not touch
any state. -/
theorem seed_side_c10 (cfg : PlannerCfg) (s : PlannerState) (ty : TreeType)
    (hinv : c10_inv cfg s) : c10_inv cfg (seed_side cfg s ty).1 := by
  cases ty
  case forward =>
    simp only [seed_side]
    rcases hgen : generate_max_braking_trajectory cfg (getNode s s.start_idx).state
        with _ | ⟨ist, st, ti⟩
    · exact hinv
    · have hz := gen_braking_zero_velocity cfg _ _ _ _ hgen
      have base := c10_setNode cfg _ s.start_idx
        (fun n => { n with segment_time := some st, trajectory_info := some ti })
        (fun nd => rfl)
        (c10_append_push cfg s TreeType.forward
          { state := ist, tree_type := TreeType.forward, parent := none,
            segment_time := none, trajectory_info := none, children := [] } hz hinv)
      exact base
  case backward =>
    simp only [seed_side]
    rcases hgen : generate_max_braking_trajectory cfg (getNode s s.goal_idx).state
        with _ | ⟨ist, st, ti⟩
    · exact hinv
    · have hz := gen_braking_zero_velocity cfg _ _ _ _ hgen
      have base := c10_setNode cfg _ s.goal_idx
        (fun n => { n with segment_time := some st, trajectory_info := some ti })
        (fun nd => rfl)
        (c10_append_push cfg s TreeType.backward
          { state := ist, tree_type := TreeType.backward, parent := none,
            segment_time := none, trajectory_info := none, children := [] } hz hinv)
      exact base

/-- A successful extension preserves the C10 invariant: the appended leaf is a
zero-velocity sample and the chosen node only gains a child link. -/
theorem extend_tree_c10 (cfg : PlannerCfg) (s : PlannerState) (ty : TreeType)
    (k : ℕ) (rp : List ℝ) (s' : PlannerState) (n : Option ℕ)
    (hinv : c10_inv cfg s) (hrp : rp.length = cfg.dim)
    (h : extend_tree cfg s ty k rp = .ok (s', n)) : c10_inv cfg s' := by
  simp only [extend_tree] at h
  split at h
  · cases h
  · split at h
    · simp only [Except.ok.injEq, Prod.mk.injEq] at h
      obtain ⟨hs', -⟩ := h
      exact hs' ▸ hinv
    · obtain ⟨seg, hseg, h⟩ := except_bind_ok_inv h
      obtain ⟨st, ti⟩ := seg
      simp only [Except.ok.injEq, Prod.mk.injEq] at h
      obtain ⟨hs', -⟩ := h
      rw [← hs']
      exact c10_setNode cfg _ _
        (fun n => { n with children := n.children ++ [s.nodes.length] })
        (fun nd => rfl)
        (c10_append_push cfg s ty
          { state := sample_free_space_state cfg rp,
            tree_type := (getNode s ((treeOf s ty).getD (k % (treeOf s ty).length) 0)).tree_type,
            parent := some ((treeOf s ty).getD (k % (treeOf s ty).length) 0),
            segment_time := some st, trajectory_info := some ti, children := [] }
          (sample_state_zero_velocity cfg rp hrp) hinv)

/-- A successful repair preserves the C10 invariant and every state vector. -/
theorem remove_infeasible_edge_c10 (cfg : PlannerCfg) (s s' : PlannerState)
    (e : ℕ × ℕ × ℕ × ℕ) (hinv : c10_inv cfg s)
    (h : remove_infeasible_edge cfg s e = .ok s') :
    c10_inv cfg s' ∧ ∀ j, (getNode s' j).state = (getNode s j).state := by
  simp only [remove_infeasible_edge] at h
  split at h
  · cases h
    exact ⟨hinv, fun j => rfl⟩
  · obtain ⟨ps, pst, pg, pl, pm⟩ := repair_loop_preserves cfg _ e.1 _ _ _ s s' h
    obtain ⟨h0, h1, hlen, hmem⟩ := hinv
    refine ⟨⟨pst ▸ h0, pg ▸ h1, pl ▸ hlen, ?_⟩, ps⟩
    intro i hi
    obtain ⟨h2i, hzi⟩ := hmem i (pm i hi)
    refine ⟨h2i, ?_⟩
    rw [ps i]
    exact hzi

/-- C10: the zero-velocity tree invariant.  Seeding from the two-node initial
arena establishes `c10_inv`; successful extensions and repairs preserve it
(repair without touching any state vector); and under the invariant no tree
member is ever the start or goal seed handle — so every node ever held in a
tree list has an exactly-zero velocity half, while only the start and goal
seed nodes may carry nonzero velocity. -/
theorem C10_zero_velocity_tree_invariant (cfg : PlannerCfg) :
    (∀ start goal, c10_inv cfg (seed_trees cfg (init_planner start goal)).1) ∧
    (∀ s ty k rp s' n, c10_inv cfg s → rp.length = cfg.dim →
        extend_tree cfg s ty k rp = .ok (s', n) → c10_inv cfg s') ∧
    (∀ s e s', c10_inv cfg s → remove_infeasible_edge cfg s e = .ok s' →
        c10_inv cfg s' ∧ ∀ j, (getNode s' j).state = (getNode s j).state) ∧
    (∀ s, c10_inv cfg s → ∀ i, i ∈ s.forward_tree ∨ i ∈ s.backward_tree →
        i ≠ s.start_idx ∧ i ≠ s.goal_idx) := by
  refine ⟨?_, ?_, ?_, ?_⟩
  · intro start goal
    have h0 : c10_inv cfg (init_planner start goal) := by
      refine ⟨rfl, rfl, by simp [init_planner], ?_⟩
      intro i hi
      simp [init_planner] at hi
    have h1 := seed_side_c10 cfg _ TreeType.forward h0
    simp only [seed_trees]
    by_cases hb : (seed_side cfg (init_planner start goal) TreeType.forward).2
    · rw [if_pos hb]
      exact seed_side_c10 cfg _ TreeType.backward h1
    · rw [if_neg hb]
      exact h1
  · intro s ty k rp s' n hinv hrp h
    exact extend_tree_c10 cfg s ty k rp s' n hinv hrp h
  · intro s e s' hinv h
    exact remove_infeasible_edge_c10 cfg s s' e hinv h
  · intro s hinv i hi
    obtain ⟨h2i, -⟩ := hinv.2.2.2 i hi
    constructor
    · rw [hinv.1]
      omega
    · rw [hinv.2.1]
      omega

/-- A small invariant-satisfying arena for the C10 witness: the seed nodes in
slots 0 and 1 (the start deliberately carrying a nonzero velocity) and one
zero-velocity tree member in slot 2. -/
def c10_state : PlannerState :=
  { nodes := [{ state := [5, 1], tree_type := TreeType.forward, parent := none,
                segment_time := none, trajectory_info := none, children := [] },
              { state := [7, 0], tree_type := TreeType.backward, parent := none,
                segment_time := none, trajectory_info := none, children := [] },
              { state := [3, 0], tree_type := TreeType.forward, parent := none,
                segment_time := none, trajectory_info := none, children := [] }],
    start_idx := 0, goal_idx := 1, forward_tree := [2], backward_tree := [] }

/-- The witness arena satisfies the C10 invariant. -/
theorem c10_state_inv : c10_inv c4_cfg c10_state := by
  refine ⟨rfl, rfl, by norm_num [c10_state], ?_⟩
  intro i hi
  rcases hi with hi | hi
  · have h2 : i = 2 := by simpa [c10_state] using hi
    subst h2
    refine ⟨le_refl 2, ?_⟩
    norm_num [c10_state, getNode, List.getD, c4_cfg]
  · simp [c10_state] at hi

/-- Evaluation: an extension whose sample `[5, 0]` is rejected by the `c4_cfg`
collision checker returns the unchanged state. -/
theorem c10_extend_eval :
    extend_tree c4_cfg c10_state TreeType.forward 0 [5] = .ok (c10_state, none) := by
  simp only [extend_tree, treeOf, c10_state, c4_cfg, sample_free_space_state]
  norm_num

/-- Evaluation: a repair on a bridge edge (endpoints in different trees) is a
no-op. -/
theorem c10_repair_noop :
    remove_infeasible_edge c4_cfg c10_state (0, 1, 0, 1) = .ok c10_state := by
  simp only [remove_infeasible_edge, getNode, c10_state, List.getD]
  norm_num
  exact fun h => nomatch h

/-- Witness for C10 at concrete inputs: a seeded two-node world, a rejected
extension sample, and a bridge-edge repair on the witness arena. -/
theorem C10_zero_velocity_witness :
    c10_inv c4_cfg (seed_trees c4_cfg (init_planner [5, 1] [7, 0])).1 ∧
    c10_inv c4_cfg c10_state ∧
    (∀ j, (getNode c10_state j).state = (getNode c10_state j).state) ∧
    (2 : ℕ) ≠ c10_state.start_idx ∧ (2 : ℕ) ≠ c10_state.goal_idx := by
  have hthm := C10_zero_velocity_tree_invariant c4_cfg
  have hmem : (2 : ℕ) ∈ c10_state.forward_tree ∨ (2 : ℕ) ∈ c10_state.backward_tree :=
    Or.inl (by simp [c10_state])
  refine ⟨hthm.1 [5, 1] [7, 0],
    hthm.2.1 c10_state TreeType.forward 0 [5] c10_state none c10_state_inv
      (by simp [c4_cfg]) c10_extend_eval,
    (hthm.2.2.1 c10_state (0, 1, 0, 1) c10_state c10_state_inv c10_repair_noop).2,
    (hthm.2.2.2 c10_state c10_state_inv 2 hmem).1,
    (hthm.2.2.2 c10_state c10_state_inv 2 hmem).2⟩

/-! ## Claim C6: the forest invariant -/

/-- Follow `parent` links for at most `fuel` nodes; `some r` when a root
(`parent = none`) is reached, `none` on fuel exhaustion (a cycle never
produces `some`). -/
def rootOf? (s : PlannerState) : ℕ → ℕ → Option ℕ
  | 0, _ => none
  | fuel + 1, i =>
      match (getNode s i).parent with
      | none => some i
      | some p => rootOf? s fuel p

/-- A tree list is parent-closed: members' parents are members. -/
def tree_closed (s : PlannerState) (tree : List ℕ) : Prop :=
  ∀ i, i ∈ tree → ∀ p, (getNode s i).parent = some p → p ∈ tree

/-- A tree list is rooted: some member is reached from every member by
following parent links within tree-size many steps. -/
def tree_rooted (s : PlannerState) (tree : List ℕ) : Prop :=
  tree = [] ∨ ∃ r, r ∈ tree ∧ ∀ i, i ∈ tree → rootOf? s tree.length i = some r

/-- Reaching a root is monotone in the fuel. -/
theorem rootOf_mono (s : PlannerState) :
    ∀ {fuel fuel' : ℕ} {i r : ℕ}, fuel ≤ fuel' →
    rootOf? s fuel i = some r → rootOf? s fuel' i = some r := by
  intro fuel
  induction fuel with
  | zero => intro fuel' i r hle h; cases h
  | succ fuel ih =>
      intro fuel' i r hle h
      match fuel' with
      | 0 => omega
      | fuel'' + 1 =>
          simp only [rootOf?] at h ⊢
          rcases hp : (getNode s i).parent with _ | p
          · rw [hp] at h
            exact h
          · rw [hp] at h
            exact ih (Nat.succ_le_succ_iff.mp hle) h

/-- `rootOf?` only reads the parents of nodes on the chain: it is unchanged
between two states agreeing on the parents of a parent-closed set. -/
theorem rootOf_congr (s s' : PlannerState) (tree : List ℕ)
    (hcl : tree_closed s tree)
    (heq : ∀ j, j ∈ tree → (getNode s' j).parent = (getNode s j).parent) :
    ∀ (fuel : ℕ) (i : ℕ), i ∈ tree → rootOf? s' fuel i = rootOf? s fuel i := by
  intro fuel
  induction fuel with
  | zero => intro i hi; rfl
  | succ fuel ih =>
      intro i hi
      simp only [rootOf?]
      rw [heq i hi]
      rcases hp : (getNode s i).parent with _ | p
      · rfl
      · exact ih p (hcl i hi p hp)

/-- A `getD` read at a valid index is a member. -/
theorem getD_mem_of_lt {α : Type} (l : List α) (i : ℕ) (d : α) (h : i < l.length) :
    l.getD i d ∈ l := by
  rw [List.getD_eq_getElem l d h]
  exact List.getElem_mem h

/-- Tree-list projections through `setNode` and `pushTree`. -/
theorem setNode_forward (s : PlannerState) (i : ℕ) (f : NodeRec → NodeRec) :
    (setNode s i f).forward_tree = s.forward_tree := rfl

/-- Tree-list projections through `setNode` and `pushTree`. -/
theorem setNode_backward (s : PlannerState) (i : ℕ) (f : NodeRec → NodeRec) :
    (setNode s i f).backward_tree = s.backward_tree := rfl

/-- Tree-list projections through `setNode` and `pushTree`. -/
theorem pushTree_fwd_fwd (s : PlannerState) (n : ℕ) :
    (pushTree s TreeType.forward n).forward_tree = s.forward_tree ++ [n] := rfl

/-- Tree-list projections through `setNode` and `pushTree`. -/
theorem pushTree_bwd_fwd (s : PlannerState) (n : ℕ) :
    (pushTree s TreeType.forward n).backward_tree = s.backward_tree := rfl

/-- Tree-list projections through `setNode` and `pushTree`. -/
theorem pushTree_fwd_bwd (s : PlannerState) (n : ℕ) :
    (pushTree s TreeType.backward n).forward_tree = s.forward_tree := rfl

/-- Tree-list projections through `setNode` and `pushTree`. -/
theorem pushTree_bwd_bwd (s : PlannerState) (n : ℕ) :
    (pushTree s TreeType.backward n).backward_tree = s.backward_tree ++ [n] := rfl

/-- Iterate the `parent` link exactly `d` times (`none` when a root is hit
before `d` steps). -/
def iterP (s : PlannerState) : ℕ → ℕ → Option ℕ
  | 0, i => some i
  | d + 1, i =>
      match (getNode s i).parent with
      | none => none
      | some p => iterP s d p

/-- Splitting an iterated parent walk. -/
theorem iterP_add (s : PlannerState) :
    ∀ (a b i : ℕ), iterP s (a + b) i = (iterP s a i).bind (fun y => iterP s b y) := by
  intro a
  induction a with
  | zero => intro b i; simp [iterP]
  | succ a ih =>
      intro b i
      have hr : a + 1 + b = (a + b) + 1 := by omega
      rw [hr]
      simp only [iterP]
      rcases hp : (getNode s i).parent with _ | p
      · rfl
      · exact ih b p

/-- Walking `d` steps along the chain reduces the fuel a root search needs. -/
theorem rootOf_iterP (s : PlannerState) :
    ∀ (d fuel i x r : ℕ), iterP s d i = some x → rootOf? s fuel i = some r →
    rootOf? s (fuel - d) x = some r := by
  intro d
  induction d with
  | zero =>
      intro fuel i x r hit hroot
      injection hit with hit
      subst hit
      simpa using hroot
  | succ d ih =>
      intro fuel i x r hit hroot
      simp only [iterP] at hit
      rcases hp : (getNode s i).parent with _ | p
      · rw [hp] at hit
        cases hit
      · rw [hp] at hit
        match fuel with
        | 0 => cases hroot
        | fuel + 1 =>
            simp only [rootOf?] at hroot
            rw [hp] at hroot
            have := ih fuel p x r hit hroot
            simpa [Nat.succ_sub_succ] using this

/-- A parent-link cycle can be traversed any number of times. -/
theorem iterP_cycle_pow (s : PlannerState) (c i : ℕ) (h : iterP s c i = some i) :
    ∀ k, iterP s (k * c) i = some i := by
  intro k
  induction k with
  | zero => simp [iterP]
  | succ k ih =>
      have he : (k + 1) * c = k * c + c := by ring
      rw [he, iterP_add, ih]
      simpa using h

/-- A node on a parent-link cycle never reaches a root. -/
theorem rootOf_no_cycle (s : PlannerState) (fuel i r c : ℕ) (hc : 1 ≤ c)
    (hcyc : iterP s c i = some i) (hroot : rootOf? s fuel i = some r) : False := by
  have hpow := iterP_cycle_pow s c i hcyc (fuel + 1)
  have hsh := rootOf_iterP s ((fuel + 1) * c) fuel i i r hpow hroot
  have hz : fuel - (fuel + 1) * c = 0 := by
    have : fuel + 1 ≤ (fuel + 1) * c := Nat.le_mul_of_pos_right _ hc
    omega
  rw [hz] at hsh
  cases hsh

/-- The result of a successful root search is a root, reached by some walk. -/
theorem rootOf_root (s : PlannerState) :
    ∀ (fuel i r : ℕ), rootOf? s fuel i = some r →
    (getNode s r).parent = none ∧ ∃ d, iterP s d i = some r := by
  intro fuel
  induction fuel with
  | zero => intro i r h; cases h
  | succ fuel ih =>
      intro i r h
      simp only [rootOf?] at h
      rcases hp : (getNode s i).parent with _ | p
      · rw [hp] at h
        injection h with h
        subst h
        exact ⟨hp, 0, rfl⟩
      · rw [hp] at h
        obtain ⟨h1, d, h2⟩ := ih p r h
        refine ⟨h1, d + 1, ?_⟩
        simp only [iterP]
        rw [hp]
        exact h2

/-- Root searches from one node agree across fuels. -/
theorem rootOf_det (s : PlannerState) (fuel fuel' i r r' : ℕ)
    (h : rootOf? s fuel i = some r) (h' : rootOf? s fuel' i = some r') : r = r' := by
  rcases le_total fuel fuel' with hle | hle
  · have h2 := rootOf_mono s hle h
    exact Option.some.inj (h2.symm.trans h')
  · have h2 := rootOf_mono s hle h'
    exact (Option.some.inj (h2.symm.trans h)).symm

/-- Prepending a walk to a successful root search. -/
theorem rootOf_prepend (s : PlannerState) :
    ∀ (d x y f r : ℕ), iterP s d x = some y → rootOf? s f y = some r →
    rootOf? s (f + d) x = some r := by
  intro d
  induction d with
  | zero =>
      intro x y f r hit hr
      injection hit with hit
      subst hit
      simpa using hr
  | succ d ih =>
      intro x y f r hit hr
      simp only [iterP] at hit
      rcases hp : (getNode s x).parent with _ | p
      · rw [hp] at hit
        cases hit
      · rw [hp] at hit
        have hm := ih p y f r hit hr
        have he : f + (d + 1) = (f + d) + 1 := by omega
        rw [he]
        simp only [rootOf?]
        rw [hp]
        exact hm

/-- A parent-closed tree list traps parent walks. -/
theorem iterP_in_tree (s : PlannerState) (tree : List ℕ) (hcl : tree_closed s tree) :
    ∀ (d i y : ℕ), i ∈ tree → iterP s d i = some y → y ∈ tree := by
  intro d
  induction d with
  | zero =>
      intro i y hi h
      injection h with h
      subst h
      exact hi
  | succ d ih =>
      intro i y hi h
      simp only [iterP] at h
      rcases hp : (getNode s i).parent with _ | p
      · rw [hp] at h
        cases h
      · rw [hp] at h
        exact ih p y (hcl i hi p hp) h

/-- Walks agree between two states whose parents differ only at a node the
chain avoids. -/
theorem iterP_congr_avoid (s s' : PlannerState) (bad : ℕ)
    (hpar : ∀ j, j ≠ bad → (getNode s' j).parent = (getNode s j).parent) :
    ∀ (d i : ℕ), (∀ e y, e < d → iterP s e i = some y → y ≠ bad) →
    iterP s' d i = iterP s d i := by
  intro d
  induction d with
  | zero => intro i h; rfl
  | succ d ih =>
      intro i havoid
      have hib : i ≠ bad := havoid 0 i (by omega) rfl
      simp only [iterP]
      rw [hpar i hib]
      rcases hp : (getNode s i).parent with _ | p
      · rfl
      · refine ih p ?_
        intro e y he hit
        refine havoid (e + 1) y (by omega) ?_
        simp only [iterP]
        rw [hp]
        exact hit

/-- Root searches agree between two states whose parents differ only at a
node the chain avoids. -/
theorem rootOf_congr_avoid (s s' : PlannerState) (bad : ℕ)
    (hpar : ∀ j, j ≠ bad → (getNode s' j).parent = (getNode s j).parent) :
    ∀ (fuel i : ℕ), (∀ e y, iterP s e i = some y → y ≠ bad) →
    rootOf? s' fuel i = rootOf? s fuel i := by
  intro fuel
  induction fuel with
  | zero => intro i h; rfl
  | succ fuel ih =>
      intro i havoid
      have hib : i ≠ bad := havoid 0 i rfl
      simp only [rootOf?]
      rw [hpar i hib]
      rcases hp : (getNode s i).parent with _ | p
      · rfl
      · refine ih p ?_
        intro e y hit
        refine havoid (e + 1) y ?_
        simp only [iterP]
        rw [hp]
        exact hit

/-- Chain compression: a successful root search from a member of a duplicate
free list that traps the chain also succeeds with the list length as fuel —
the walk visits distinct list members only. -/
theorem rootOf_compress (s : PlannerState) :
    ∀ (n : ℕ) (L : List ℕ), L.length ≤ n → L.Nodup →
    ∀ (i fuel r : ℕ), rootOf? s fuel i = some r → i ∈ L →
    (∀ d y, iterP s d i = some y → y ∈ L) →
    rootOf? s L.length i = some r := by
  intro n
  induction n with
  | zero =>
      intro L hL _ i fuel r hroot hiL _
      have hnil : L = [] := List.eq_nil_of_length_eq_zero (Nat.le_zero.mp hL)
      subst hnil
      cases hiL
  | succ n ih =>
      intro L hL hnd i fuel r hroot hiL hchain
      match fuel with
      | 0 => cases hroot
      | fuel + 1 =>
          obtain ⟨m, hm⟩ : ∃ m, L.length = m + 1 :=
            ⟨L.length - 1, by have := List.length_pos_of_mem hiL; omega⟩
          rcases hp : (getNode s i).parent with _ | p
          · simp only [rootOf?] at hroot
            rw [hp] at hroot
            rw [hm]
            simp only [rootOf?]
            rw [hp]
            exact hroot
          · simp only [rootOf?] at hroot
            rw [hp] at hroot
            have hroot2 : rootOf? s (fuel + 1) i = some r := by
              simp only [rootOf?]
              rw [hp]
              exact hroot
            have hstep1 : iterP s 1 i = some p := by
              simp only [iterP]
              rw [hp]
            have hpne : p ≠ i := by
              intro he
              rw [he] at hstep1
              exact rootOf_no_cycle s (fuel + 1) i r 1 le_rfl hstep1 hroot2
            have hpL : p ∈ L.erase i :=
              (List.Nodup.mem_erase_iff hnd).mpr ⟨hpne, hchain 1 p hstep1⟩
            have hchain' : ∀ d y, iterP s d p = some y → y ∈ L.erase i := by
              intro d y hit
              have hstep : iterP s (d + 1) i = some y := by
                simp only [iterP]
                rw [hp]
                exact hit
              have hyL : y ∈ L := hchain (d + 1) y hstep
              have hyne : y ≠ i := by
                intro he
                rw [he] at hstep
                exact rootOf_no_cycle s (fuel + 1) i r (d + 1) (by omega) hstep hroot2
              exact (List.Nodup.mem_erase_iff hnd).mpr ⟨hyne, hyL⟩
            have hlerase : (L.erase i).length = m := by
              rw [List.length_erase_of_mem hiL, hm]
              omega
            have ihp := ih (L.erase i) (by omega) (hnd.erase i) p fuel r hroot hpL hchain'
            rw [hlerase] at ihp
            rw [hm]
            simp only [rootOf?]
            rw [hp]
            exact ihp

/-- Reflexive-transitive closure of the child relation of a fixed children
map: the node set a stack-based subtree walk visits. -/
inductive ReachCh (ch : ℕ → List ℕ) : ℕ → ℕ → Prop where
  | refl (x : ℕ) : ReachCh ch x x
  | step {x y z : ℕ} : ReachCh ch x y → z ∈ ch y → ReachCh ch x z

/-- Transitivity of child reachability. -/
theorem ReachCh_trans (ch : ℕ → List ℕ) {x y z : ℕ}
    (h1 : ReachCh ch x y) (h2 : ReachCh ch y z) : ReachCh ch x z := by
  induction h2 with
  | refl => exact h1
  | step _ hmem ih => exact ReachCh.step ih hmem

/-- Unfolding child reachability at the source. -/
theorem ReachCh_unfold (ch : ℕ → List ℕ) (n x : ℕ) :
    ReachCh ch n x ↔ x = n ∨ ∃ c ∈ ch n, ReachCh ch c x := by
  constructor
  · intro h
    induction h with
    | refl => exact Or.inl rfl
    | step _ hmem ih =>
        rcases ih with rfl | ⟨c, hc, hrc⟩
        · exact Or.inr ⟨_, hmem, ReachCh.refl _⟩
        · exact Or.inr ⟨c, hc, ReachCh.step hrc hmem⟩
  · rintro (rfl | ⟨c, hc, hr⟩)
    · exact ReachCh.refl x
    · exact ReachCh_trans ch (ReachCh.step (ReachCh.refl n) hc) hr

/-- Splitting the walk frontier of a cons stack. -/
theorem moved_cons (ch : ℕ → List ℕ) (n : ℕ) (rest : List ℕ) (x : ℕ) :
    (∃ y ∈ n :: rest, ReachCh ch y x) ↔
    ReachCh ch n x ∨ ∃ y ∈ rest, ReachCh ch y x := by
  constructor
  · rintro ⟨y, hy, hr⟩
    rcases List.mem_cons.mp hy with rfl | hy'
    · exact Or.inl hr
    · exact Or.inr ⟨y, hy', hr⟩
  · rintro (hr | ⟨y, hy, hr⟩)
    · exact ⟨n, List.mem_cons_self n rest, hr⟩
    · exact ⟨y, List.mem_cons_of_mem n hy, hr⟩

/-- Splitting the walk frontier of an appended stack. -/
theorem moved_append (ch : ℕ → List ℕ) (l1 l2 : List ℕ) (x : ℕ) :
    (∃ y ∈ l1 ++ l2, ReachCh ch y x) ↔
    (∃ y ∈ l1, ReachCh ch y x) ∨ ∃ y ∈ l2, ReachCh ch y x := by
  constructor
  · rintro ⟨y, hy, hr⟩
    rcases List.mem_append.mp hy with hy' | hy'
    · exact Or.inl ⟨y, hy', hr⟩
    · exact Or.inr ⟨y, hy', hr⟩
  · rintro (⟨y, hy, hr⟩ | ⟨y, hy, hr⟩)
    · exact ⟨y, List.mem_append_left _ hy, hr⟩
    · exact ⟨y, List.mem_append_right _ hy, hr⟩

/-- The walk frontier ignores stack order. -/
theorem moved_reverse (ch : ℕ → List ℕ) (l : List ℕ) (x : ℕ) :
    (∃ y ∈ l.reverse, ReachCh ch y x) ↔ ∃ y ∈ l, ReachCh ch y x := by
  constructor <;> rintro ⟨y, hy, hr⟩ <;>
    exact ⟨y, List.mem_reverse.mp (by simpa using hy), hr⟩

/-- Well-formedness of one tree: in-range duplicate-free members tagged with
the tree, parent-closed, children inverse to parents within the tree with
duplicate-free children lists, and every member reaching one root within
tree-size many parent steps. -/
def tree_wf (s : PlannerState) (ty : TreeType) : Prop :=
  (∀ i ∈ treeOf s ty, i < s.nodes.length) ∧
  (treeOf s ty).Nodup ∧
  (∀ i ∈ treeOf s ty, (getNode s i).tree_type = ty) ∧
  tree_closed s (treeOf s ty) ∧
  (∀ i ∈ treeOf s ty, ∀ c ∈ (getNode s i).children,
      (getNode s c).parent = some i ∧ c ∈ treeOf s ty) ∧
  (∀ c ∈ treeOf s ty, ∀ p, (getNode s c).parent = some p →
      c ∈ (getNode s p).children) ∧
  (∀ i ∈ treeOf s ty, (getNode s i).children.Nodup) ∧
  tree_rooted s (treeOf s ty)

/-- The C6 forest invariant: both trees are well formed and the membership
lists are disjoint. -/
def forest_wf (s : PlannerState) : Prop :=
  tree_wf s TreeType.forward ∧ tree_wf s TreeType.backward ∧
  ∀ i ∈ s.forward_tree, i ∉ s.backward_tree

/-- Reading the forest invariant relative to a chosen tree tag. -/
theorem forest_wf_ty (s : PlannerState) (h : forest_wf s) (ty : TreeType) :
    tree_wf s ty ∧ tree_wf s ty.other ∧
    (∀ i ∈ treeOf s ty, i ∉ treeOf s ty.other) ∧
    (∀ i ∈ treeOf s ty.other, i ∉ treeOf s ty) := by
  obtain ⟨hf, hb, hd⟩ := h
  cases ty
  · exact ⟨hf, hb, hd, fun i hib hif => hd i hif hib⟩
  · exact ⟨hb, hf, fun i hib hif => hd i hif hib, hd⟩

/-- Rebuilding the forest invariant from a chosen tree tag. -/
theorem forest_wf_of_ty (s : PlannerState) (ty : TreeType)
    (h1 : tree_wf s ty) (h2 : tree_wf s ty.other)
    (hd : ∀ i ∈ treeOf s ty, i ∉ treeOf s ty.other) : forest_wf s := by
  cases ty
  · exact ⟨h1, h2, hd⟩
  · refine ⟨h2, h1, ?_⟩
    intro i hif hib
    exact hd i hib hif

/-- A children-preserving update preserves every handle's children list. -/
theorem getNode_setNode_children (s : PlannerState) (i : ℕ) (f : NodeRec → NodeRec)
    (hf : ∀ nd, (f nd).children = nd.children) (j : ℕ) :
    (getNode (setNode s i f) j).children = (getNode s j).children := by
  by_cases hji : j = i
  · subst hji
    by_cases hlt : j < s.nodes.length
    · rw [getNode_setNode_self f hlt, hf]
    · simp [getNode, setNode, List.getD, List.set_eq_of_length_le (le_of_not_lt hlt)]
  · rw [getNode_setNode_other f hji]

/-- Exact inversion of a successful `eraseTree`. -/
theorem eraseTree_lists {s s' : PlannerState} {ty : TreeType} {i : ℕ}
    (h : eraseTree s ty i = .ok s') :
    s'.nodes = s.nodes ∧ i ∈ treeOf s ty ∧
    treeOf s' ty = (treeOf s ty).erase i ∧
    treeOf s' ty.other = treeOf s ty.other := by
  unfold eraseTree at h
  by_cases hm : i ∈ treeOf s ty
  · rw [if_pos hm] at h
    cases ty
    · cases h
      exact ⟨rfl, hm, rfl, rfl⟩
    · cases h
      exact ⟨rfl, hm, rfl, rfl⟩
  · rw [if_neg hm] at h
    cases h

/-- Exact tree lists of a `pushTree`. -/
theorem pushTree_lists (s : PlannerState) (ty : TreeType) (n : ℕ) :
    treeOf (pushTree s ty n) ty = treeOf s ty ++ [n] ∧
    treeOf (pushTree s ty n) ty.other = treeOf s ty.other := by
  cases ty <;> exact ⟨rfl, rfl⟩

/-- `setNode` does not touch the tree lists. -/
theorem treeOf_setNode (s : PlannerState) (i : ℕ) (f : NodeRec → NodeRec)
    (ty : TreeType) : treeOf (setNode s i f) ty = treeOf s ty := by
  cases ty <;> rfl

/-- The opposite-tag involution. -/
theorem other_other (ty : TreeType) : ty.other.other = ty := by
  cases ty <;> rfl

/-- Characterization of a successful run of the subtree relabeling loop over
a fixed children map `ch`: exactly the nodes child-reachable from the stack
are retagged with `T` and moved from the `oldTy` list to the opposite list;
everything else — records, membership, duplicate freedom — is untouched. -/
theorem relabel_spec (np : ℕ) (oldTy : TreeType) (T : TreeType) (ch : ℕ → List ℕ) :
    ∀ (fuel : ℕ) (stack : List ℕ) (s s' : PlannerState),
    (∀ x, (getNode s x).children = ch x) →
    (∀ y ∈ stack, ¬ ReachCh ch y np) →
    (getNode s np).tree_type = T →
    (treeOf s oldTy).Nodup →
    (treeOf s oldTy.other).Nodup →
    (∀ x ∈ treeOf s oldTy, x ∉ treeOf s oldTy.other) →
    (∀ x ∈ treeOf s oldTy, x < s.nodes.length) →
    relabel_subtree np oldTy fuel stack s = .ok s' →
    (∀ x, ¬ (∃ y ∈ stack, ReachCh ch y x) → getNode s' x = getNode s x) ∧
    (∀ x, (∃ y ∈ stack, ReachCh ch y x) →
        getNode s' x = { getNode s x with tree_type := T }) ∧
    (∀ x, x ∈ treeOf s' oldTy ↔
        x ∈ treeOf s oldTy ∧ ¬ (∃ y ∈ stack, ReachCh ch y x)) ∧
    (∀ x, x ∈ treeOf s' oldTy.other ↔
        x ∈ treeOf s oldTy.other ∨ (∃ y ∈ stack, ReachCh ch y x)) ∧
    (treeOf s' oldTy).Nodup ∧ (treeOf s' oldTy.other).Nodup ∧
    (∀ x, (∃ y ∈ stack, ReachCh ch y x) → x ∈ treeOf s oldTy) := by
  intro fuel
  induction fuel with
  | zero => intro stack s s' _ _ _ _ _ _ _ h; cases h
  | succ fuel ih =>
      intro stack s s' hch hstack hnptag hndO hndT hdisj hbnd h
      match stack with
      | [] =>
          simp only [relabel_subtree] at h
          cases h
          have hemp : ∀ x, ¬ (∃ y ∈ ([] : List ℕ), ReachCh ch y x) := by
            rintro x ⟨y, hy, -⟩
            cases hy
          exact ⟨fun x _ => rfl, fun x hx => absurd hx (hemp x),
            fun x => ⟨fun hx => ⟨hx, hemp x⟩, fun hx => hx.1⟩,
            fun x => ⟨fun hx => Or.inl hx, fun hx => hx.elim id
              (fun hx => absurd hx (hemp x))⟩,
            hndO, hndT, fun x hx => absurd hx (hemp x)⟩
      | n :: rest =>
          simp only [relabel_subtree] at h
          rcases he : eraseTree (setNode s n fun nd =>
              { nd with tree_type := (getNode s np).tree_type }) oldTy n with e | s2
          · rw [he] at h
            cases h
          · rw [he] at h
            simp only [except_bind_ok] at h
            obtain ⟨hnodes2, hmem2, herase2, hother2⟩ := eraseTree_lists he
            -- membership of the processed node in the original list
            have hn_mem : n ∈ treeOf s oldTy := by
              rw [treeOf_setNode] at hmem2
              exact hmem2
            have hn_lt : n < s.nodes.length := hbnd n hn_mem
            have hnp_ne_n : np ≠ n := by
              intro he2
              exact hstack n (List.mem_cons_self n rest) (he2 ▸ ReachCh.refl np)
            -- record-level description of the state fed to the recursion
            have hrec2 : ∀ x, getNode s2 x = getNode (setNode s n fun nd =>
                { nd with tree_type := (getNode s np).tree_type }) x := by
              intro x
              simp [getNode, hnodes2]
            have hrec3 : ∀ x, getNode (pushTree s2 oldTy.other n) x = getNode s2 x := by
              intro x
              simp [getNode, pushTree_nodes]
            have hrecn : getNode (pushTree s2 oldTy.other n) n =
                { getNode s n with tree_type := T } := by
              rw [hrec3, hrec2, getNode_setNode_self _ hn_lt, hnptag]
            have hrec_ne : ∀ x, x ≠ n → getNode (pushTree s2 oldTy.other n) x =
                getNode s x := by
              intro x hx
              rw [hrec3, hrec2, getNode_setNode_other _ hx]
            -- children map and stack rewriting
            have hch3 : ∀ x, (getNode (pushTree s2 oldTy.other n) x).children = ch x := by
              intro x
              by_cases hx : x = n
              · subst hx
                rw [hrecn]
                exact hch x
              · rw [hrec_ne x hx]
                exact hch x
            rw [hch3 n] at h
            -- tree lists of the recursion state
            have hlist3O : treeOf (pushTree s2 oldTy.other n) oldTy =
                (treeOf s oldTy).erase n := by
              have hp := (pushTree_lists s2 oldTy.other n).2
              rw [other_other] at hp
              rw [hp, herase2, treeOf_setNode]
            have hlist3T : treeOf (pushTree s2 oldTy.other n) oldTy.other =
                treeOf s oldTy.other ++ [n] := by
              rw [(pushTree_lists s2 oldTy.other n).1, hother2, treeOf_setNode]
            -- hypotheses of the induction hypothesis
            have hnd3O : (treeOf (pushTree s2 oldTy.other n) oldTy).Nodup := by
              rw [hlist3O]
              exact hndO.erase n
            have hnd3T : (treeOf (pushTree s2 oldTy.other n) oldTy.other).Nodup := by
              rw [hlist3T, List.nodup_append]
              refine ⟨hndT, List.nodup_singleton n, ?_⟩
              intro a ha hb
              rw [List.mem_singleton] at hb
              subst hb
              exact hdisj _ hn_mem ha
            have hdisj3 : ∀ x ∈ treeOf (pushTree s2 oldTy.other n) oldTy,
                x ∉ treeOf (pushTree s2 oldTy.other n) oldTy.other := by
              intro x hx
              rw [hlist3O] at hx
              rw [hlist3T]
              obtain ⟨hxn, hxm⟩ := (List.Nodup.mem_erase_iff hndO).mp hx
              intro hxo
              rcases List.mem_append.mp hxo with hxo | hxo
              · exact hdisj x hxm hxo
              · rw [List.mem_singleton] at hxo
                exact hxn hxo
            have hbnd3 : ∀ x ∈ treeOf (pushTree s2 oldTy.other n) oldTy,
                x < (pushTree s2 oldTy.other n).nodes.length := by
              intro x hx
              rw [hlist3O] at hx
              have hxl := hbnd x (List.mem_of_mem_erase hx)
              have hl : (pushTree s2 oldTy.other n).nodes.length = s.nodes.length := by
                rw [pushTree_nodes, hnodes2, setNode_nodes_length]
              rw [hl]
              exact hxl
            have hstack3 : ∀ y ∈ (ch n).reverse ++ rest, ¬ ReachCh ch y np := by
              intro y hy hr
              rcases List.mem_append.mp hy with hy | hy
              · rw [List.mem_reverse] at hy
                exact hstack n (List.mem_cons_self n rest)
                  (ReachCh_trans ch (ReachCh.step (ReachCh.refl n) hy) hr)
              · exact hstack y (List.mem_cons_of_mem n hy) hr
            have hnptag3 : (getNode (pushTree s2 oldTy.other n) np).tree_type = T := by
              rw [hrec_ne np hnp_ne_n]
              exact hnptag
            obtain ⟨ih1, ih2, ih3, ih4, ih5, ih6, ih7⟩ :=
              ih ((ch n).reverse ++ rest) (pushTree s2 oldTy.other n) s'
                hch3 hstack3 hnptag3 hnd3O hnd3T hdisj3 hbnd3 h
            -- frontier decomposition
            have hmv : ∀ x, (∃ y ∈ n :: rest, ReachCh ch y x) ↔
                x = n ∨ (∃ y ∈ (ch n).reverse ++ rest, ReachCh ch y x) := by
              intro x
              rw [moved_cons, moved_append, moved_reverse, ReachCh_unfold]
              constructor
              · rintro ((rfl | ⟨c, hc, hr⟩) | hrest)
                · exact Or.inl rfl
                · exact Or.inr (Or.inl ⟨c, hc, hr⟩)
                · exact Or.inr (Or.inr hrest)
              · rintro (rfl | (⟨c, hc, hr⟩ | hrest))
                · exact Or.inl (Or.inl rfl)
                · exact Or.inl (Or.inr ⟨c, hc, hr⟩)
                · exact Or.inr hrest
            refine ⟨?_, ?_, ?_, ?_, ih5, ih6, ?_⟩
            · intro x hx
              rw [hmv] at hx
              have hxn : x ≠ n := fun h2 => hx (Or.inl h2)
              have hxm : ¬ ∃ y ∈ (ch n).reverse ++ rest, ReachCh ch y x :=
                fun h2 => hx (Or.inr h2)
              rw [ih1 x hxm, hrec_ne x hxn]
            · intro x hx
              rw [hmv] at hx
              by_cases hxn : x = n
              · subst hxn
                by_cases hxm : ∃ y ∈ (ch x).reverse ++ rest, ReachCh ch y x
                · rw [ih2 x hxm, hrecn]
                · rw [ih1 x hxm, hrecn]
              · rcases hx with hx | hx
                · exact absurd hx hxn
                · rw [ih2 x hx, hrec_ne x hxn]
            · intro x
              rw [ih3 x, hlist3O, List.Nodup.mem_erase_iff hndO, hmv]
              constructor
              · rintro ⟨⟨hxn, hxm⟩, hxmv⟩
                exact ⟨hxm, fun h2 => h2.elim hxn hxmv⟩
              · rintro ⟨hxm, hxmv⟩
                have hxn : x ≠ n := fun h2 => hxmv (Or.inl h2)
                have hxm2 : ¬ ∃ y ∈ (ch n).reverse ++ rest, ReachCh ch y x :=
                  fun h2 => hxmv (Or.inr h2)
                exact ⟨⟨hxn, hxm⟩, hxm2⟩
            · intro x
              rw [ih4 x, hlist3T, List.mem_append, List.mem_singleton, hmv]
              constructor
              · rintro ((hx | hx) | hx)
                · exact Or.inl hx
                · exact Or.inr (Or.inl hx)
                · exact Or.inr (Or.inr hx)
              · rintro (hx | (hx | hx))
                · exact Or.inl (Or.inl hx)
                · exact Or.inl (Or.inr hx)
                · exact Or.inr hx
            · intro x hx
              rw [hmv] at hx
              rcases hx with rfl | hx
              · exact hn_mem
              · have := ih7 x hx
                rw [hlist3O] at this
                exact List.mem_of_mem_erase this

/-- One iteration of the repair walk preserves the forest invariant: given a
well-formed forest, re-parenting the same-tree node `current` onto the
opposite-tree node `np` (with the bookkeeping `s4` of the source — parent
rewrite, child unlink at the old parent `op`, child link at `np`, stored
segment) followed by a successful relabeling of `current`'s subtree yields a
well-formed forest in which `op` stays in the old tree and `current` has
moved to the opposite tree. -/
theorem repair_iteration_wf (s s4 s5 : PlannerState) (oldTy : TreeType)
    (current np op fl : ℕ)
    (hwf : forest_wf s)
    (hcur : current ∈ treeOf s oldTy)
    (hnp : np ∈ treeOf s oldTy.other)
    (hop : (getNode s current).parent = some op)
    (h4par : ∀ x, x ≠ current → (getNode s4 x).parent = (getNode s x).parent)
    (h4parc : (getNode s4 current).parent = some np)
    (h4tag : ∀ x, (getNode s4 x).tree_type = (getNode s x).tree_type)
    (h4ch : ∀ x, x ≠ op → x ≠ np → (getNode s4 x).children = (getNode s x).children)
    (h4chop : (getNode s4 op).children = (getNode s op).children.erase current)
    (h4chnp : (getNode s4 np).children = (getNode s np).children ++ [current])
    (h4len : s4.nodes.length = s.nodes.length)
    (h4trees : ∀ ty, treeOf s4 ty = treeOf s ty)
    (hrel : relabel_subtree np oldTy fl [current] s4 = .ok s5) :
    forest_wf s5 ∧ op ∈ treeOf s5 oldTy ∧ current ∈ treeOf s5 oldTy.other := by
  obtain ⟨hT, hO, hdTO, hdOT⟩ := forest_wf_ty s hwf oldTy
  obtain ⟨hTb, hTnd, hTtag, hTcl, hTch, hTpar, hTchnd, hTroot⟩ := hT
  obtain ⟨hOb, hOnd, hOtag, hOcl, hOch, hOpar, hOchnd, hOroot⟩ := hO
  have hopT : op ∈ treeOf s oldTy := hTcl current hcur op hop
  have hcur_nin_other : current ∉ treeOf s oldTy.other := hdTO current hcur
  have hop_ne_np : op ≠ np := fun h2 => (hdTO op hopT) (h2 ▸ hnp)
  have hcur_lt : current < s.nodes.length := hTb current hcur
  -- the frozen children map of the relabeling run
  have hchpar : ∀ y c, y ∈ treeOf s oldTy → c ∈ (getNode s4 y).children →
      (getNode s c).parent = some y ∧ c ∈ treeOf s oldTy := by
    intro y c hy hc
    have hynp : y ≠ np := fun h2 => (hdOT np hnp) (h2 ▸ hy)
    by_cases hyop : y = op
    · subst hyop
      rw [h4chop] at hc
      exact hTch y hy c (List.mem_of_mem_erase hc)
    · rw [h4ch y hyop hynp] at hc
      exact hTch y hy c hc
  have hRa : ∀ x, ReachCh (fun z => (getNode s4 z).children) current x →
      x ∈ treeOf s oldTy := by
    intro x hr
    induction hr with
    | refl => exact hcur
    | @step y z hry hmem ihy => exact (hchpar y z ihy hmem).2
  have hRb : ∀ x, ReachCh (fun z => (getNode s4 z).children) current x →
      ∃ d, iterP s d x = some current := by
    intro x hr
    induction hr with
    | refl => exact ⟨0, rfl⟩
    | @step y z hry hmem ihy =>
        by_cases hzc : z = current
        · subst hzc
          exact ⟨0, rfl⟩
        · obtain ⟨d, hd⟩ := ihy
          refine ⟨d + 1, ?_⟩
          simp only [iterP]
          rw [(hchpar y z (hRa y hry) hmem).1]
          exact hd
  -- the old tree's root
  rcases hTroot with hempT | ⟨r_old, hr_old_mem, hroot_all⟩
  · rw [hempT] at hcur
    cases hcur
  have hcur_root : rootOf? s (treeOf s oldTy).length current = some r_old :=
    hroot_all current hcur
  have hrold_par : (getNode s r_old).parent = none :=
    (rootOf_root s _ current r_old hcur_root).1
  have hRc : ¬ ReachCh (fun z => (getNode s4 z).children) current op := by
    intro hr
    obtain ⟨d, hd⟩ := hRb op hr
    have hcyc : iterP s (d + 1) current = some current := by
      simp only [iterP]
      rw [hop]
      exact hd
    exact rootOf_no_cycle s _ current r_old (d + 1) (by omega) hcyc hcur_root
  have hRd : ¬ ReachCh (fun z => (getNode s4 z).children) current np :=
    fun hr => (hdOT np hnp) (hRa np hr)
  have hRe : ∀ d x, x ∈ treeOf s oldTy → iterP s d x = some current →
      ReachCh (fun z => (getNode s4 z).children) current x := by
    intro d
    induction d with
    | zero =>
        intro x hx h
        injection h with h
        subst h
        exact ReachCh.refl _
    | succ d ihd =>
        intro x hx h
        by_cases hxc : x = current
        · subst hxc
          exact ReachCh.refl _
        · simp only [iterP] at h
          rcases hp : (getNode s x).parent with _ | p
          · rw [hp] at h
            cases h
          · rw [hp] at h
            have hp_mem : p ∈ treeOf s oldTy := hTcl x hx p hp
            have hRp := ihd p hp_mem h
            have hx_ch : x ∈ (getNode s4 p).children := by
              have hxc2 : x ∈ (getNode s p).children := hTpar x hx p hp
              have hpnp : p ≠ np := fun h2 => (hdOT np hnp) (h2 ▸ hp_mem)
              by_cases hpop : p = op
              · subst hpop
                rw [h4chop]
                exact (List.mem_erase_of_ne hxc).mpr hxc2
              · rw [h4ch p hpop hpnp]
                exact hxc2
            exact ReachCh.step hRp hx_ch
  -- run the relabel characterization
  have hnot_R_rold : ¬ ReachCh (fun z => (getNode s4 z).children) current r_old := by
    intro hr
    obtain ⟨d, hd⟩ := hRb r_old hr
    match d with
    | 0 =>
        injection hd with hd
        rw [hd] at hrold_par
        rw [hrold_par] at hop
        cases hop
    | d + 1 =>
        simp only [iterP] at hd
        rw [hrold_par] at hd
        cases hd
  obtain ⟨rs1, rs2, rs3, rs4, rs5, rs6, rs7⟩ :=
    relabel_spec np oldTy ((getNode s4 np).tree_type)
      (fun z => (getNode s4 z).children) fl [current] s4 s5
      (fun x => rfl)
      (by intro y hy
          rw [List.mem_singleton] at hy
          subst hy
          exact hRd)
      rfl
      (by rw [h4trees]; exact hTnd)
      (by rw [h4trees]; exact hOnd)
      (by intro x hx
          rw [h4trees] at hx ⊢
          exact hdTO x hx)
      (by intro x hx
          rw [h4trees] at hx
          rw [h4len]
          exact hTb x hx)
      hrel
  have hmq : ∀ x, (∃ y ∈ [current], ReachCh (fun z => (getNode s4 z).children) y x) ↔
      ReachCh (fun z => (getNode s4 z).children) current x := by
    intro x
    constructor
    · rintro ⟨y, hy, hr⟩
      rw [List.mem_singleton] at hy
      subst hy
      exact hr
    · intro hr
      exact ⟨current, List.mem_singleton.mpr rfl, hr⟩
  have hTval : (getNode s4 np).tree_type = oldTy.other := by
    rw [h4tag]
    exact hOtag np hnp
  -- restated run facts
  have r1 : ∀ x, ¬ ReachCh (fun z => (getNode s4 z).children) current x →
      getNode s5 x = getNode s4 x := by
    intro x hx
    exact rs1 x (fun h2 => hx ((hmq x).mp h2))
  have r2 : ∀ x, ReachCh (fun z => (getNode s4 z).children) current x →
      getNode s5 x = { getNode s4 x with tree_type := oldTy.other } := by
    intro x hx
    rw [rs2 x ((hmq x).mpr hx), hTval]
  have r3 : ∀ x, x ∈ treeOf s5 oldTy ↔
      x ∈ treeOf s oldTy ∧ ¬ ReachCh (fun z => (getNode s4 z).children) current x := by
    intro x
    rw [rs3 x, h4trees, hmq]
  have r4 : ∀ x, x ∈ treeOf s5 oldTy.other ↔
      x ∈ treeOf s oldTy.other ∨
        ReachCh (fun z => (getNode s4 z).children) current x := by
    intro x
    rw [rs4 x, h4trees, hmq]
  -- field-level description of the final state
  have h5par : ∀ x, (getNode s5 x).parent = (getNode s4 x).parent := by
    intro x
    by_cases hx : ReachCh (fun z => (getNode s4 z).children) current x
    · rw [r2 x hx]
    · rw [r1 x hx]
  have h5par_ne : ∀ x, x ≠ current → (getNode s5 x).parent = (getNode s x).parent := by
    intro x hx
    rw [h5par, h4par x hx]
  have h5parc : (getNode s5 current).parent = some np := by
    rw [h5par, h4parc]
  have h5ch : ∀ x, (getNode s5 x).children = (getNode s4 x).children := by
    intro x
    by_cases hx : ReachCh (fun z => (getNode s4 z).children) current x
    · rw [r2 x hx]
    · rw [r1 x hx]
  have h5tagR : ∀ x, ReachCh (fun z => (getNode s4 z).children) current x →
      (getNode s5 x).tree_type = oldTy.other := by
    intro x hx
    rw [r2 x hx]
  have h5tagN : ∀ x, ¬ ReachCh (fun z => (getNode s4 z).children) current x →
      (getNode s5 x).tree_type = (getNode s x).tree_type := by
    intro x hx
    rw [r1 x hx, h4tag]
  have h5len : s5.nodes.length = s.nodes.length := by
    rw [relabel_length_preserved _ _ _ _ hrel, h4len]
  have hexcl : ∀ x, ReachCh (fun z => (getNode s4 z).children) current x →
      x ∉ treeOf s oldTy.other := fun x hr => hdTO x (hRa x hr)
  have hcnotR : ∀ x, x ∈ treeOf s oldTy →
      ¬ ReachCh (fun z => (getNode s4 z).children) current x → x ≠ current :=
    fun x _ hnr h2 => hnr (by rw [h2]; exact ReachCh.refl current)
  -- the old-side tree is well formed
  have c1 : ∀ i ∈ treeOf s5 oldTy, i < s5.nodes.length := by
    intro i hi
    rw [h5len]
    exact hTb i ((r3 i).mp hi).1
  have c4 : tree_closed s5 (treeOf s5 oldTy) := by
    intro x hx p hp
    obtain ⟨hxm, hxR⟩ := (r3 x).mp hx
    have hxc := hcnotR x hxm hxR
    rw [h5par_ne x hxc] at hp
    have hpm : p ∈ treeOf s oldTy := hTcl x hxm p hp
    refine (r3 p).mpr ⟨hpm, ?_⟩
    intro hRp
    refine hxR (ReachCh.step hRp ?_)
    have hxc2 : x ∈ (getNode s p).children := hTpar x hxm p hp
    have hpnp : p ≠ np := fun h2 => (hdOT np hnp) (h2 ▸ hpm)
    by_cases hpop : p = op
    · subst hpop
      rw [h4chop]
      exact (List.mem_erase_of_ne hxc).mpr hxc2
    · rw [h4ch p hpop hpnp]
      exact hxc2
  have c5 : ∀ i ∈ treeOf s5 oldTy, ∀ c ∈ (getNode s5 i).children,
      (getNode s5 c).parent = some i ∧ c ∈ treeOf s5 oldTy := by
    intro i hi c hc
    obtain ⟨him, hiR⟩ := (r3 i).mp hi
    rw [h5ch] at hc
    obtain ⟨hpc, hcm⟩ := hchpar i c him hc
    have hcc : c ≠ current := by
      intro h2
      subst h2
      rw [hop] at hpc
      injection hpc with hpc
      subst hpc
      rw [h4chop] at hc
      exact ((List.Nodup.mem_erase_iff (hTchnd op him)).mp hc).1 rfl
    have hcR : ¬ ReachCh (fun z => (getNode s4 z).children) current c := by
      intro hrc
      rcases hrc with _ | ⟨hrz, hmemz⟩
      · exact hcc rfl
      · -- c entered via a child edge from a reached node z
        rename_i z
        obtain ⟨hpz, -⟩ := hchpar z c (hRa z hrz) hmemz
        rw [hpz] at hpc
        injection hpc with hpc
        exact hiR (hpc ▸ hrz)
    exact ⟨by rw [h5par_ne c hcc]; exact hpc, (r3 c).mpr ⟨hcm, hcR⟩⟩
  have c6 : ∀ c ∈ treeOf s5 oldTy, ∀ p, (getNode s5 c).parent = some p →
      c ∈ (getNode s5 p).children := by
    intro c hc p hp
    obtain ⟨hcm, hcR⟩ := (r3 c).mp hc
    have hcc := hcnotR c hcm hcR
    rw [h5par_ne c hcc] at hp
    have hpm : p ∈ treeOf s oldTy := hTcl c hcm p hp
    have hcch : c ∈ (getNode s p).children := hTpar c hcm p hp
    rw [h5ch]
    have hpnp : p ≠ np := fun h2 => (hdOT np hnp) (h2 ▸ hpm)
    by_cases hpop : p = op
    · subst hpop
      rw [h4chop]
      exact (List.mem_erase_of_ne hcc).mpr hcch
    · rw [h4ch p hpop hpnp]
      exact hcch
  have c8 : tree_rooted s5 (treeOf s5 oldTy) := by
    have hrmem5 : r_old ∈ treeOf s5 oldTy := (r3 r_old).mpr ⟨hr_old_mem, hnot_R_rold⟩
    refine Or.inr ⟨r_old, hrmem5, ?_⟩
    intro x hx
    obtain ⟨hxm, hxR⟩ := (r3 x).mp hx
    have havoid : ∀ e y, iterP s e x = some y → y ≠ current := by
      intro e y hit h2
      subst h2
      exact hxR (hRe e x hxm hit)
    have hcongr := rootOf_congr_avoid s s5 current h5par_ne
      ((treeOf s oldTy).length) x havoid
    have hs5root : rootOf? s5 (treeOf s oldTy).length x = some r_old := by
      rw [hcongr]
      exact hroot_all x hxm
    exact rootOf_compress s5 (treeOf s5 oldTy).length (treeOf s5 oldTy) le_rfl rs5
      x _ r_old hs5root hx
      (fun d y hit => iterP_in_tree s5 _ c4 d x y hx hit)
  -- the opposite-side tree is well formed
  rcases hOroot with hempO | ⟨r_b, hrb_mem, hrootb⟩
  · rw [hempO] at hnp
    cases hnp
  have d1 : ∀ i ∈ treeOf s5 oldTy.other, i < s5.nodes.length := by
    intro i hi
    rw [h5len]
    rcases (r4 i).mp hi with hi | hi
    · exact hOb i hi
    · exact hTb i (hRa i hi)
  have hRb5 : ∀ x, ReachCh (fun z => (getNode s4 z).children) current x →
      ∃ d, iterP s5 d x = some current := by
    intro x hr
    induction hr with
    | refl => exact ⟨0, rfl⟩
    | @step y z hry hmem ihy =>
        by_cases hzc : z = current
        · subst hzc
          exact ⟨0, rfl⟩
        · obtain ⟨d, hd⟩ := ihy
          refine ⟨d + 1, ?_⟩
          simp only [iterP]
          rw [h5par_ne z hzc, (hchpar y z (hRa y hry) hmem).1]
          exact hd
  have d4 : tree_closed s5 (treeOf s5 oldTy.other) := by
    intro x hx p hp
    rcases (r4 x).mp hx with hxo | hxR
    · have hxc : x ≠ current := fun h2 => hcur_nin_other (h2 ▸ hxo)
      rw [h5par_ne x hxc] at hp
      exact (r4 p).mpr (Or.inl (hOcl x hxo p hp))
    · by_cases hxc : x = current
      · subst hxc
        rw [h5parc] at hp
        injection hp with hp
        subst hp
        exact (r4 np).mpr (Or.inl hnp)
      · rw [h5par_ne x hxc] at hp
        rcases hxR with _ | ⟨hrz, hmemz⟩
        · exact absurd rfl hxc
        · rename_i z
          obtain ⟨hpz, -⟩ := hchpar z x (hRa z hrz) hmemz
          rw [hpz] at hp
          injection hp with hp
          exact (r4 p).mpr (Or.inr (hp ▸ hrz))
  have d5 : ∀ i ∈ treeOf s5 oldTy.other, ∀ c ∈ (getNode s5 i).children,
      (getNode s5 c).parent = some i ∧ c ∈ treeOf s5 oldTy.other := by
    intro i hi c hc
    rw [h5ch] at hc
    rcases (r4 i).mp hi with hio | hiR
    · have hinp_cases : i = np ∨ i ≠ np := em _
      by_cases hinp : i = np
      · subst hinp
        rw [h4chnp] at hc
        rcases List.mem_append.mp hc with hc | hc
        · obtain ⟨hpc, hcm⟩ := hOch i hio c hc
          have hcc : c ≠ current := fun h2 => hcur_nin_other (h2 ▸ hcm)
          exact ⟨by rw [h5par_ne c hcc]; exact hpc, (r4 c).mpr (Or.inl hcm)⟩
        · rw [List.mem_singleton] at hc
          subst hc
          exact ⟨h5parc, (r4 c).mpr (Or.inr (ReachCh.refl _))⟩
      · have hiop : i ≠ op := fun h2 => (hdOT i hio) (h2 ▸ hopT)
        rw [h4ch i hiop hinp] at hc
        obtain ⟨hpc, hcm⟩ := hOch i hio c hc
        have hcc : c ≠ current := fun h2 => hcur_nin_other (h2 ▸ hcm)
        exact ⟨by rw [h5par_ne c hcc]; exact hpc, (r4 c).mpr (Or.inl hcm)⟩
    · have him : i ∈ treeOf s oldTy := hRa i hiR
      obtain ⟨hpc, hcm⟩ := hchpar i c him hc
      have hcc : c ≠ current := by
        intro h2
        subst h2
        rw [hop] at hpc
        injection hpc with hpc
        exact hRc (hpc ▸ hiR)
      refine ⟨by rw [h5par_ne c hcc]; exact hpc, (r4 c).mpr (Or.inr ?_)⟩
      exact ReachCh.step hiR hc
  have d6 : ∀ c ∈ treeOf s5 oldTy.other, ∀ p, (getNode s5 c).parent = some p →
      c ∈ (getNode s5 p).children := by
    intro c hc p hp
    rw [h5ch]
    rcases (r4 c).mp hc with hco | hcR
    · have hcc : c ≠ current := fun h2 => hcur_nin_other (h2 ▸ hco)
      rw [h5par_ne c hcc] at hp
      have hpm : p ∈ treeOf s oldTy.other := hOcl c hco p hp
      have hcch : c ∈ (getNode s p).children := hOpar c hco p hp
      by_cases hpnp : p = np
      · subst hpnp
        rw [h4chnp]
        exact List.mem_append_left _ hcch
      · have hpop : p ≠ op := fun h2 => (hdOT p hpm) (h2 ▸ hopT)
        rw [h4ch p hpop hpnp]
        exact hcch
    · by_cases hcc : c = current
      · subst hcc
        rw [h5parc] at hp
        injection hp with hp
        subst hp
        rw [h4chnp]
        exact List.mem_append_right _ (List.mem_singleton.mpr rfl)
      · rw [h5par_ne c hcc] at hp
        have hcm : c ∈ treeOf s oldTy := hRa c hcR
        have hpm : p ∈ treeOf s oldTy := hTcl c hcm p hp
        have hcch : c ∈ (getNode s p).children := hTpar c hcm p hp
        have hpnp : p ≠ np := fun h2 => (hdOT np hnp) (h2 ▸ hpm)
        by_cases hpop : p = op
        · subst hpop
          rw [h4chop]
          exact (List.mem_erase_of_ne hcc).mpr hcch
        · rw [h4ch p hpop hpnp]
          exact hcch
  have d8 : tree_rooted s5 (treeOf s5 oldTy.other) := by
    have hrb5 : r_b ∈ treeOf s5 oldTy.other := (r4 r_b).mpr (Or.inl hrb_mem)
    refine Or.inr ⟨r_b, hrb5, ?_⟩
    intro x hx
    have hs5some : ∃ f, rootOf? s5 f x = some r_b := by
      rcases (r4 x).mp hx with hxo | hxR
      · have havoid : ∀ e y, iterP s e x = some y → y ≠ current := by
          intro e y hit h2
          subst h2
          exact hcur_nin_other (iterP_in_tree s _ hOcl e x _ hxo hit)
        refine ⟨(treeOf s oldTy.other).length, ?_⟩
        rw [rootOf_congr_avoid s s5 current h5par_ne _ x havoid]
        exact hrootb x hxo
      · obtain ⟨d, hd⟩ := hRb5 x hxR
        have hnp_avoid : ∀ e y, iterP s e np = some y → y ≠ current := by
          intro e y hit h2
          subst h2
          exact hcur_nin_other (iterP_in_tree s _ hOcl e np _ hnp hit)
        have hnproot : rootOf? s5 (treeOf s oldTy.other).length np = some r_b := by
          rw [rootOf_congr_avoid s s5 current h5par_ne _ np hnp_avoid]
          exact hrootb np hnp
        have hstep : iterP s5 (d + 1) x = some np := by
          rw [iterP_add s5 d 1 x, hd]
          simp only [Option.bind, iterP]
          rw [h5parc]
        refine ⟨(treeOf s oldTy.other).length + (d + 1), ?_⟩
        exact rootOf_prepend s5 (d + 1) x np _ r_b hstep hnproot
    obtain ⟨f, hf⟩ := hs5some
    exact rootOf_compress s5 (treeOf s5 oldTy.other).length _ le_rfl rs6 x f r_b hf hx
      (fun d y hit => iterP_in_tree s5 _ d4 d x y hx hit)
  refine ⟨forest_wf_of_ty s5 oldTy
    ⟨c1, rs5, ?_, c4, c5, c6, ?_, c8⟩
    ⟨d1, rs6, ?_, d4, d5, d6, ?_, d8⟩
    ?_, ?_, ?_⟩
  · -- tags on the old side
    intro i hi
    obtain ⟨him, hiR⟩ := (r3 i).mp hi
    rw [h5tagN i hiR]
    exact hTtag i him
  · -- children lists on the old side stay duplicate free
    intro i hi
    obtain ⟨him, hiR⟩ := (r3 i).mp hi
    rw [h5ch]
    have hinp : i ≠ np := fun h2 => (hdOT np hnp) (h2 ▸ him)
    by_cases hiop : i = op
    · subst hiop
      rw [h4chop]
      exact (hTchnd i him).erase current
    · rw [h4ch i hiop hinp]
      exact hTchnd i him
  · -- tags on the opposite side
    intro i hi
    rcases (r4 i).mp hi with hio | hiR
    · rw [h5tagN i (fun hr => hexcl i hr hio)]
      exact hOtag i hio
    · exact h5tagR i hiR
  · -- children lists on the opposite side stay duplicate free
    intro i hi
    rw [h5ch]
    rcases (r4 i).mp hi with hio | hiR
    · by_cases hinp : i = np
      · subst hinp
        rw [h4chnp, List.nodup_append]
        refine ⟨hOchnd i hio, List.nodup_singleton current, ?_⟩
        intro a ha hb
        rw [List.mem_singleton] at hb
        subst hb
        exact hcur_nin_other (hOch i hio a ha).2
      · have hiop : i ≠ op := fun h2 => (hdOT i hio) (h2 ▸ hopT)
        rw [h4ch i hiop hinp]
        exact hOchnd i hio
    · have him : i ∈ treeOf s oldTy := hRa i hiR
      have hinp : i ≠ np := fun h2 => (hdOT np hnp) (h2 ▸ him)
      by_cases hiop : i = op
      · subst hiop
        rw [h4chop]
        exact (hTchnd i him).erase current
      · rw [h4ch i hiop hinp]
        exact hTchnd i him
  · -- disjointness
    intro i hi
    obtain ⟨him, hiR⟩ := (r3 i).mp hi
    intro hio
    rcases (r4 i).mp hio with hio | hio
    · exact hdTO i him hio
    · exact hiR hio
  · exact (r3 op).mpr ⟨hopT, hRc⟩
  · exact (r4 current).mpr (Or.inr (ReachCh.refl _))

/-- A tag-preserving update preserves every handle's tree tag. -/
theorem getNode_setNode_tag (s : PlannerState) (i : ℕ) (f : NodeRec → NodeRec)
    (hf : ∀ nd, (f nd).tree_type = nd.tree_type) (j : ℕ) :
    (getNode (setNode s i f) j).tree_type = (getNode s j).tree_type := by
  by_cases hji : j = i
  · subst hji
    by_cases hlt : j < s.nodes.length
    · rw [getNode_setNode_self f hlt, hf]
    · simp [getNode, setNode, List.getD, List.set_eq_of_length_le (le_of_not_lt hlt)]
  · rw [getNode_setNode_other f hji]

/-- Field-level description of the four-fold node update performed by one
iteration of the repair walk before the subtree relabeling. -/
theorem repair_step_chars (s s4 : PlannerState) (current np op : ℕ) (st : ℝ)
    (ti : List (ℝ × TrajType))
    (hcur_lt : current < s.nodes.length) (hop_lt : op < s.nodes.length)
    (hnp_lt : np < s.nodes.length) (hop_ne_np : op ≠ np)
    (hs4 : s4 = setNode (setNode (setNode (setNode s current fun nd =>
        { nd with parent := some np }) op fun nd =>
        { nd with children := nd.children.erase current }) np fun nd =>
        { nd with children := nd.children ++ [current] }) current fun nd =>
        { nd with segment_time := some st, trajectory_info := some ti }) :
    (∀ x, x ≠ current → (getNode s4 x).parent = (getNode s x).parent) ∧
    (getNode s4 current).parent = some np ∧
    (∀ x, (getNode s4 x).tree_type = (getNode s x).tree_type) ∧
    (∀ x, x ≠ op → x ≠ np → (getNode s4 x).children = (getNode s x).children) ∧
    (getNode s4 op).children = (getNode s op).children.erase current ∧
    (getNode s4 np).children = (getNode s np).children ++ [current] ∧
    s4.nodes.length = s.nodes.length ∧
    (∀ ty, treeOf s4 ty = treeOf s ty) := by
  subst hs4
  refine ⟨?_, ?_, ?_, ?_, ?_, ?_, ?_, ?_⟩
  · intro x hx
    rw [getNode_setNode_parent _ current (fun nd =>
        { nd with segment_time := some st, trajectory_info := some ti })
        (fun nd => rfl) x,
      getNode_setNode_parent _ np (fun nd =>
        { nd with children := nd.children ++ [current] }) (fun nd => rfl) x,
      getNode_setNode_parent _ op (fun nd =>
        { nd with children := nd.children.erase current }) (fun nd => rfl) x,
      getNode_setNode_other (fun nd => { nd with parent := some np }) hx]
  · rw [getNode_setNode_parent _ current (fun nd =>
        { nd with segment_time := some st, trajectory_info := some ti })
        (fun nd => rfl) current,
      getNode_setNode_parent _ np (fun nd =>
        { nd with children := nd.children ++ [current] }) (fun nd => rfl) current,
      getNode_setNode_parent _ op (fun nd =>
        { nd with children := nd.children.erase current }) (fun nd => rfl) current,
      getNode_setNode_self (fun nd => { nd with parent := some np }) hcur_lt]
  · intro x
    rw [getNode_setNode_tag _ current (fun nd =>
        { nd with segment_time := some st, trajectory_info := some ti })
        (fun nd => rfl) x,
      getNode_setNode_tag _ np (fun nd =>
        { nd with children := nd.children ++ [current] }) (fun nd => rfl) x,
      getNode_setNode_tag _ op (fun nd =>
        { nd with children := nd.children.erase current }) (fun nd => rfl) x,
      getNode_setNode_tag _ current (fun nd =>
        { nd with parent := some np }) (fun nd => rfl) x]
  · intro x hxop hxnp
    rw [getNode_setNode_children _ current (fun nd =>
        { nd with segment_time := some st, trajectory_info := some ti })
        (fun nd => rfl) x,
      getNode_setNode_other (fun nd =>
        { nd with children := nd.children ++ [current] }) hxnp,
      getNode_setNode_other (fun nd =>
        { nd with children := nd.children.erase current }) hxop,
      getNode_setNode_children _ current (fun nd =>
        { nd with parent := some np }) (fun nd => rfl) x]
  · rw [getNode_setNode_children _ current (fun nd =>
        { nd with segment_time := some st, trajectory_info := some ti })
        (fun nd => rfl) op,
      getNode_setNode_other (fun nd =>
        { nd with children := nd.children ++ [current] }) hop_ne_np,
      getNode_setNode_self (fun nd => { nd with children := nd.children.erase current })
        (by rw [setNode_nodes_length]; exact hop_lt)]
    exact congrArg (fun l => List.erase l current)
      (getNode_setNode_children s current (fun nd =>
        { nd with parent := some np }) (fun nd => rfl) op)
  · rw [getNode_setNode_children _ current (fun nd =>
        { nd with segment_time := some st, trajectory_info := some ti })
        (fun nd => rfl) np,
      getNode_setNode_self (fun nd => { nd with children := nd.children ++ [current] })
        (by rw [setNode_nodes_length, setNode_nodes_length]; exact hnp_lt)]
    refine congrArg (fun l => l ++ [current]) ?_
    rw [getNode_setNode_other (fun nd =>
        { nd with children := nd.children.erase current }) (Ne.symm hop_ne_np)]
    exact getNode_setNode_children s current (fun nd =>
      { nd with parent := some np }) (fun nd => rfl) np
  · simp [setNode_nodes_length]
  · intro ty
    simp [treeOf_setNode]

/-- The whole repair walk preserves the forest invariant, provided the walk
starts at a member of the tree being repaired with its new parent a member of
the opposite tree. -/
theorem repair_loop_wf (cfg : PlannerCfg) (oldTy : TreeType) (stop : ℕ) :
    ∀ (fuel : ℕ) (current np : ℕ) (s s' : PlannerState),
    forest_wf s → current ∈ treeOf s oldTy → np ∈ treeOf s oldTy.other →
    repair_loop cfg oldTy stop fuel current np s = .ok s' →
    forest_wf s' := by
  intro fuel
  induction fuel with
  | zero => intro current np s s' _ _ _ h; cases h
  | succ fuel ih =>
      intro current np s s' hwf hcur hnp h
      by_cases hc : current = stop
      · rw [repair_loop, if_pos hc] at h
        cases h
        exact hwf
      · rw [repair_loop, if_neg hc] at h
        rcases hp : (getNode s current).parent with _ | op
        · rw [hp] at h
          cases h
        · rw [hp] at h
          simp only at h
          by_cases hm : current ∈
              (getNode (setNode s current fun nd => { nd with parent := some np })
                op).children
          · rw [if_pos hm] at h
            simp only [except_bind_ok] at h
            obtain ⟨seg, hseg, h⟩ := except_bind_ok_inv h
            obtain ⟨st, ti⟩ := seg
            simp only at h
            obtain ⟨s5, hrel, h⟩ := except_bind_ok_inv h
            obtain ⟨hT, hO, hdTO, hdOT⟩ := forest_wf_ty s hwf oldTy
            have hcur_lt : current < s.nodes.length := hT.1 current hcur
            have hop_mem : op ∈ treeOf s oldTy := hT.2.2.2.1 current hcur op hp
            have hop_lt : op < s.nodes.length := hT.1 op hop_mem
            have hnp_lt : np < s.nodes.length := hO.1 np hnp
            have hop_ne_np : op ≠ np := fun h2 => hdTO op hop_mem (h2 ▸ hnp)
            obtain ⟨k1, k2, k3, k4, k5, k6, k7, k8⟩ :=
              repair_step_chars s _ current np op st ti hcur_lt hop_lt hnp_lt
                hop_ne_np rfl
            obtain ⟨hwf5, hop5, hcur5⟩ :=
              repair_iteration_wf s _ s5 oldTy current np op (fuel + 1) hwf hcur hnp hp
                k1 k2 k3 k4 k5 k6 k7 k8 hrel
            exact ih op current s5 s' hwf5 hop5 hcur5 h
          · rw [if_neg hm] at h
            simp only [except_bind_err] at h
            cases h

/-- `remove_infeasible_edge` preserves the forest invariant whenever the
bridge nodes of the reported 4-tuple belong to the two distinct trees — the
shape in which the planner's collision validator produces them. -/
theorem remove_infeasible_edge_wf (cfg : PlannerCfg) (s s' : PlannerState)
    (e : ℕ × ℕ × ℕ × ℕ)
    (hwf : forest_wf s)
    (hbr : e.2.2.1 ∈ s.forward_tree ∧ e.2.2.2 ∈ s.backward_tree ∨
           e.2.2.1 ∈ s.backward_tree ∧ e.2.2.2 ∈ s.forward_tree)
    (h : remove_infeasible_edge cfg s e = .ok s') :
    forest_wf s' := by
  unfold remove_infeasible_edge at h
  simp only at h
  by_cases htag : (getNode s e.1).tree_type = (getNode s e.2.1).tree_type
  · rw [if_neg (not_not_intro htag)] at h
    rw [← htag] at h
    rcases hbr with ⟨hb1, hb2⟩ | ⟨hb1, hb2⟩
    · have ht1 : (getNode s e.2.2.1).tree_type = TreeType.forward :=
        (hwf.1).2.2.1 e.2.2.1 hb1
      rw [ht1] at h
      cases hty : (getNode s e.1).tree_type with
      | forward =>
          rw [hty, if_pos rfl] at h
          exact repair_loop_wf cfg TreeType.forward e.1 _ _ _ s s' hwf hb1 hb2 h
      | backward =>
          rw [hty, if_neg (fun hh => TreeType.noConfusion hh)] at h
          exact repair_loop_wf cfg TreeType.backward e.1 _ _ _ s s' hwf hb2 hb1 h
    · have ht1 : (getNode s e.2.2.1).tree_type = TreeType.backward :=
        (hwf.2.1).2.2.1 e.2.2.1 hb1
      rw [ht1] at h
      cases hty : (getNode s e.1).tree_type with
      | forward =>
          rw [hty, if_neg (fun hh => TreeType.noConfusion hh)] at h
          exact repair_loop_wf cfg TreeType.forward e.1 _ _ _ s s' hwf hb2 hb1 h
      | backward =>
          rw [hty, if_pos rfl] at h
          exact repair_loop_wf cfg TreeType.backward e.1 _ _ _ s s' hwf hb1 hb2 h
  · rw [if_pos htag] at h
    cases h
    exact hwf

/-- Adding a fresh isolated root (parent `none`, no children, tagged `ty`)
whose handle becomes the sole member of the `ty` tree yields a well-formed
forest, the other tree being untouched. -/
theorem fresh_root_wf (s s3 : PlannerState) (ty : TreeType)
    (hwf : forest_wf s)
    (hlen3 : s3.nodes.length = s.nodes.length + 1)
    (hparO : ∀ j, j ≠ s.nodes.length → (getNode s3 j).parent = (getNode s j).parent)
    (hparN : (getNode s3 s.nodes.length).parent = none)
    (htagO : ∀ j, j ≠ s.nodes.length →
        (getNode s3 j).tree_type = (getNode s j).tree_type)
    (htagN : (getNode s3 s.nodes.length).tree_type = ty)
    (hchO : ∀ j, j ≠ s.nodes.length → (getNode s3 j).children = (getNode s j).children)
    (hchN : (getNode s3 s.nodes.length).children = [])
    (hT3 : treeOf s3 ty = [s.nodes.length])
    (hO3 : treeOf s3 ty.other = treeOf s ty.other) :
    forest_wf s3 := by
  obtain ⟨hT, hO, hdTO, hdOT⟩ := forest_wf_ty s hwf ty
  obtain ⟨hOb, hOnd, hOtag, hOcl, hOch, hOpar, hOchnd, hOroot⟩ := hO
  have hOne : ∀ i ∈ treeOf s ty.other, i ≠ s.nodes.length :=
    fun i hi => Nat.ne_of_lt (hOb i hi)
  refine forest_wf_of_ty s3 ty ⟨?_, ?_, ?_, ?_, ?_, ?_, ?_, ?_⟩
    ⟨?_, ?_, ?_, ?_, ?_, ?_, ?_, ?_⟩ ?_
  · intro i hi
    rw [hT3, List.mem_singleton] at hi
    subst hi
    rw [hlen3]
    exact Nat.lt_succ_self _
  · rw [hT3]
    exact List.nodup_singleton _
  · intro i hi
    rw [hT3, List.mem_singleton] at hi
    subst hi
    exact htagN
  · intro i hi p hp
    rw [hT3, List.mem_singleton] at hi
    subst hi
    rw [hparN] at hp
    cases hp
  · intro i hi c hc
    rw [hT3, List.mem_singleton] at hi
    subst hi
    rw [hchN] at hc
    cases hc
  · intro c hc p hp
    rw [hT3, List.mem_singleton] at hc
    subst hc
    rw [hparN] at hp
    cases hp
  · intro i hi
    rw [hT3, List.mem_singleton] at hi
    subst hi
    rw [hchN]
    exact List.nodup_nil
  · refine Or.inr ⟨s.nodes.length, ?_, ?_⟩
    · rw [hT3]
      exact List.mem_singleton.mpr rfl
    · intro i hi
      rw [hT3, List.mem_singleton] at hi
      subst hi
      rw [hT3]
      simp only [List.length_singleton, rootOf?]
      rw [hparN]
  · intro i hi
    rw [hO3] at hi
    rw [hlen3]
    exact Nat.lt_succ_of_lt (hOb i hi)
  · rw [hO3]
    exact hOnd
  · intro i hi
    rw [hO3] at hi
    rw [htagO i (hOne i hi)]
    exact hOtag i hi
  · intro i hi p hp
    rw [hO3] at hi ⊢
    rw [hparO i (hOne i hi)] at hp
    exact hOcl i hi p hp
  · intro i hi c hc
    rw [hO3] at hi
    rw [hchO i (hOne i hi)] at hc
    obtain ⟨hpc, hcm⟩ := hOch i hi c hc
    refine ⟨?_, ?_⟩
    · rw [hparO c (hOne c hcm)]
      exact hpc
    · rw [hO3]
      exact hcm
  · intro c hc p hp
    rw [hO3] at hc
    rw [hparO c (hOne c hc)] at hp
    have hcm := hOpar c hc p hp
    rw [hchO p (hOne p (hOcl c hc p hp))]
    exact hcm
  · intro i hi
    rw [hO3] at hi
    rw [hchO i (hOne i hi)]
    exact hOchnd i hi
  · rcases hOroot with hnil | ⟨r, hr, hall⟩
    · exact Or.inl (hO3.trans hnil)
    · refine Or.inr ⟨r, ?_, ?_⟩
      · rw [hO3]
        exact hr
      · intro i hi
        rw [hO3] at hi ⊢
        rw [rootOf_congr s s3 (treeOf s ty.other) hOcl
          (fun j hj => hparO j (hOne j hj)) _ i hi]
        exact hall i hi
  · intro i hi
    rw [hT3, List.mem_singleton] at hi
    subst hi
    intro hio
    rw [hO3] at hio
    exact absurd (hOb _ hio) (lt_irrefl _)

/-- Hanging a fresh childless leaf under a tree member (and linking it as a
child of that member) preserves the well-formed forest. -/
theorem grown_leaf_wf (s s3 : PlannerState) (ty : TreeType) (sampled : ℕ)
    (hwf : forest_wf s)
    (hsm : sampled ∈ treeOf s ty)
    (hlen3 : s3.nodes.length = s.nodes.length + 1)
    (hparO : ∀ j, j ≠ s.nodes.length → (getNode s3 j).parent = (getNode s j).parent)
    (hparN : (getNode s3 s.nodes.length).parent = some sampled)
    (htagO : ∀ j, j ≠ s.nodes.length →
        (getNode s3 j).tree_type = (getNode s j).tree_type)
    (htagN : (getNode s3 s.nodes.length).tree_type = ty)
    (hchO : ∀ j, j ≠ s.nodes.length → j ≠ sampled →
        (getNode s3 j).children = (getNode s j).children)
    (hchS : (getNode s3 sampled).children =
        (getNode s sampled).children ++ [s.nodes.length])
    (hchN : (getNode s3 s.nodes.length).children = [])
    (hT3 : treeOf s3 ty = treeOf s ty ++ [s.nodes.length])
    (hO3 : treeOf s3 ty.other = treeOf s ty.other) :
    forest_wf s3 := by
  obtain ⟨hT, hO, hdTO, hdOT⟩ := forest_wf_ty s hwf ty
  obtain ⟨hTb, hTnd, hTtag, hTcl, hTch, hTpar, hTchnd, hTroot⟩ := hT
  obtain ⟨hOb, hOnd, hOtag, hOcl, hOch, hOpar, hOchnd, hOroot⟩ := hO
  have hTne : ∀ i ∈ treeOf s ty, i ≠ s.nodes.length :=
    fun i hi => Nat.ne_of_lt (hTb i hi)
  have hOne : ∀ i ∈ treeOf s ty.other, i ≠ s.nodes.length :=
    fun i hi => Nat.ne_of_lt (hOb i hi)
  have hOns : ∀ i ∈ treeOf s ty.other, i ≠ sampled :=
    fun i hi heq => hdTO sampled hsm (heq ▸ hi)
  have hNT : s.nodes.length ∉ treeOf s ty :=
    fun hh => absurd (hTb _ hh) (lt_irrefl _)
  have w2 : (treeOf s3 ty).Nodup := by
    rw [hT3]
    refine List.nodup_append.mpr ⟨hTnd, List.nodup_singleton _, ?_⟩
    intro a ha hb
    rw [List.mem_singleton] at hb
    subst hb
    exact hNT ha
  have w4 : tree_closed s3 (treeOf s3 ty) := by
    intro x hx p hp
    rw [hT3] at hx ⊢
    rcases List.mem_append.mp hx with hx | hx
    · rw [hparO x (hTne x hx)] at hp
      exact List.mem_append_left _ (hTcl x hx p hp)
    · rw [List.mem_singleton] at hx
      subst hx
      rw [hparN] at hp
      injection hp with hp
      subst hp
      exact List.mem_append_left _ hsm
  refine forest_wf_of_ty s3 ty ⟨?_, w2, ?_, w4, ?_, ?_, ?_, ?_⟩
    ⟨?_, ?_, ?_, ?_, ?_, ?_, ?_, ?_⟩ ?_
  · intro i hi
    rw [hT3] at hi
    rw [hlen3]
    rcases List.mem_append.mp hi with hi | hi
    · exact Nat.lt_succ_of_lt (hTb i hi)
    · rw [List.mem_singleton] at hi
      subst hi
      exact Nat.lt_succ_self _
  · intro i hi
    rw [hT3] at hi
    rcases List.mem_append.mp hi with hi | hi
    · rw [htagO i (hTne i hi)]
      exact hTtag i hi
    · rw [List.mem_singleton] at hi
      subst hi
      exact htagN
  · intro i hi c hc
    rw [hT3] at hi
    rcases List.mem_append.mp hi with hi | hi
    · by_cases his : i = sampled
      · subst his
        rw [hchS] at hc
        rcases List.mem_append.mp hc with hc | hc
        · obtain ⟨hpc, hcm⟩ := hTch i hi c hc
          refine ⟨?_, ?_⟩
          · rw [hparO c (hTne c hcm)]
            exact hpc
          · rw [hT3]
            exact List.mem_append_left _ hcm
        · rw [List.mem_singleton] at hc
          subst hc
          refine ⟨hparN, ?_⟩
          rw [hT3]
          exact List.mem_append_right _ (List.mem_singleton.mpr rfl)
      · rw [hchO i (hTne i hi) his] at hc
        obtain ⟨hpc, hcm⟩ := hTch i hi c hc
        refine ⟨?_, ?_⟩
        · rw [hparO c (hTne c hcm)]
          exact hpc
        · rw [hT3]
          exact List.mem_append_left _ hcm
    · rw [List.mem_singleton] at hi
      subst hi
      rw [hchN] at hc
      cases hc
  · intro c hc p hp
    rw [hT3] at hc
    rcases List.mem_append.mp hc with hc | hc
    · rw [hparO c (hTne c hc)] at hp
      have hcm := hTpar c hc p hp
      have hpm := hTcl c hc p hp
      by_cases hps : p = sampled
      · subst hps
        rw [hchS]
        exact List.mem_append_left _ hcm
      · rw [hchO p (hTne p hpm) hps]
        exact hcm
    · rw [List.mem_singleton] at hc
      subst hc
      rw [hparN] at hp
      injection hp with hp
      subst hp
      rw [hchS]
      exact List.mem_append_right _ (List.mem_singleton.mpr rfl)
  · intro i hi
    rw [hT3] at hi
    rcases List.mem_append.mp hi with hi | hi
    · by_cases his : i = sampled
      · subst his
        rw [hchS]
        refine List.nodup_append.mpr ⟨hTchnd i hi, List.nodup_singleton _, ?_⟩
        intro a ha hb
        rw [List.mem_singleton] at hb
        subst hb
        exact hNT (hTch i hi _ ha).2
      · rw [hchO i (hTne i hi) his]
        exact hTchnd i hi
    · rw [List.mem_singleton] at hi
      subst hi
      rw [hchN]
      exact List.nodup_nil
  · rcases hTroot with hnil | ⟨r, hrm, hall⟩
    · rw [hnil] at hsm
      cases hsm
    · have hcongrT : ∀ x ∈ treeOf s ty,
          rootOf? s3 (treeOf s ty).length x = some r := by
        intro x hx
        rw [rootOf_congr s s3 (treeOf s ty) hTcl
          (fun j hj => hparO j (hTne j hj)) _ x hx]
        exact hall x hx
      refine Or.inr ⟨r, ?_, ?_⟩
      · rw [hT3]
        exact List.mem_append_left _ hrm
      · intro x hx
        have hx' := hx
        rw [hT3] at hx'
        rcases List.mem_append.mp hx' with hxT | hxN
        · exact rootOf_compress s3 (treeOf s3 ty).length (treeOf s3 ty) le_rfl w2
            x _ r (hcongrT x hxT) hx
            (fun d y hit => iterP_in_tree s3 _ w4 d x y hx hit)
        · rw [List.mem_singleton] at hxN
          subst hxN
          have hstep : iterP s3 1 s.nodes.length = some sampled := by
            simp only [iterP]
            rw [hparN]
          have h3 : rootOf? s3 ((treeOf s ty).length + 1) s.nodes.length = some r :=
            rootOf_prepend s3 1 s.nodes.length sampled _ r hstep (hcongrT sampled hsm)
          exact rootOf_compress s3 (treeOf s3 ty).length (treeOf s3 ty) le_rfl w2
            _ _ r h3 hx
            (fun d y hit => iterP_in_tree s3 _ w4 d _ y hx hit)
  · intro i hi
    rw [hO3] at hi
    rw [hlen3]
    exact Nat.lt_succ_of_lt (hOb i hi)
  · rw [hO3]
    exact hOnd
  · intro i hi
    rw [hO3] at hi
    rw [htagO i (hOne i hi)]
    exact hOtag i hi
  · intro i hi p hp
    rw [hO3] at hi ⊢
    rw [hparO i (hOne i hi)] at hp
    exact hOcl i hi p hp
  · intro i hi c hc
    rw [hO3] at hi
    rw [hchO i (hOne i hi) (hOns i hi)] at hc
    obtain ⟨hpc, hcm⟩ := hOch i hi c hc
    refine ⟨?_, ?_⟩
    · rw [hparO c (hOne c hcm)]
      exact hpc
    · rw [hO3]
      exact hcm
  · intro c hc p hp
    rw [hO3] at hc
    rw [hparO c (hOne c hc)] at hp
    have hcm := hOpar c hc p hp
    have hpm := hOcl c hc p hp
    rw [hchO p (hOne p hpm) (hOns p hpm)]
    exact hcm
  · intro i hi
    rw [hO3] at hi
    rw [hchO i (hOne i hi) (hOns i hi)]
    exact hOchnd i hi
  · rcases hOroot with hnil | ⟨r, hr, hall⟩
    · exact Or.inl (hO3.trans hnil)
    · refine Or.inr ⟨r, ?_, ?_⟩
      · rw [hO3]
        exact hr
      · intro i hi
        rw [hO3] at hi ⊢
        rw [rootOf_congr s s3 (treeOf s ty.other) hOcl
          (fun j hj => hparO j (hOne j hj)) _ i hi]
        exact hall i hi
  · intro i hi
    rw [hT3] at hi
    intro hio
    rw [hO3] at hio
    rcases List.mem_append.mp hi with hi | hi
    · exact hdTO i hi hio
    · rw [List.mem_singleton] at hi
      subst hi
      exact absurd (hOb _ hio) (lt_irrefl _)

/-- A tree whose membership list is empty is trivially well formed. -/
theorem tree_wf_nil (s : PlannerState) (ty : TreeType) (h : treeOf s ty = []) :
    tree_wf s ty := by
  refine ⟨?_, ?_, ?_, ?_, ?_, ?_, ?_, Or.inl h⟩
  · intro i hi
    rw [h] at hi
    cases hi
  · rw [h]
    exact List.nodup_nil
  · intro i hi
    rw [h] at hi
    cases hi
  · intro i hi
    rw [h] at hi
    cases hi
  · intro i hi
    rw [h] at hi
    cases hi
  · intro i hi
    rw [h] at hi
    cases hi
  · intro i hi
    rw [h] at hi
    cases hi

/-- The freshly constructed planner (both trees empty) satisfies the forest
invariant. -/
theorem init_planner_wf (start goal : List ℝ) :
    forest_wf (init_planner start goal) := by
  refine ⟨tree_wf_nil _ _ rfl, tree_wf_nil _ _ rfl, ?_⟩
  intro i hi
  cases hi

/-- Field-level description of the node-append, tree-push, seed-node segment
update performed by `_seed_trees` when the braking trajectory exists. -/
theorem seed_push_chars (s s3 : PlannerState) (ty : TreeType) (R : NodeRec)
    (seedIdx : ℕ) (st : ℝ) (ti : List (ℝ × TrajType))
    (hs3 : s3 = setNode (pushTree { s with nodes := s.nodes ++ [R] } ty
        s.nodes.length) seedIdx fun n =>
        { n with segment_time := some st, trajectory_info := some ti }) :
    s3.nodes.length = s.nodes.length + 1 ∧
    (∀ j, j ≠ s.nodes.length → (getNode s3 j).parent = (getNode s j).parent) ∧
    (getNode s3 s.nodes.length).parent = R.parent ∧
    (∀ j, j ≠ s.nodes.length → (getNode s3 j).tree_type = (getNode s j).tree_type) ∧
    (getNode s3 s.nodes.length).tree_type = R.tree_type ∧
    (∀ j, j ≠ s.nodes.length → (getNode s3 j).children = (getNode s j).children) ∧
    (getNode s3 s.nodes.length).children = R.children ∧
    treeOf s3 ty = treeOf s ty ++ [s.nodes.length] ∧
    treeOf s3 ty.other = treeOf s ty.other := by
  subst hs3
  have hpushn : ∀ j, getNode (pushTree { s with nodes := s.nodes ++ [R] } ty
      s.nodes.length) j = getNode { s with nodes := s.nodes ++ [R] } j := by
    intro j
    unfold getNode
    rw [pushTree_nodes]
  have hs1o : ∀ j, j ≠ s.nodes.length →
      getNode { s with nodes := s.nodes ++ [R] } j = getNode s j := by
    intro j hj
    exact getD_snoc_ne R default s.nodes j hj
  have hs1N : getNode { s with nodes := s.nodes ++ [R] } s.nodes.length = R :=
    getD_snoc_self R default s.nodes
  refine ⟨?_, ?_, ?_, ?_, ?_, ?_, ?_, ?_, ?_⟩
  · rw [setNode_nodes_length, pushTree_nodes]
    simp
  · intro j hj
    rw [getNode_setNode_parent _ seedIdx (fun n =>
        { n with segment_time := some st, trajectory_info := some ti })
        (fun nd => rfl) j, hpushn j, hs1o j hj]
  · rw [getNode_setNode_parent _ seedIdx (fun n =>
        { n with segment_time := some st, trajectory_info := some ti })
        (fun nd => rfl) _, hpushn _, hs1N]
  · intro j hj
    rw [getNode_setNode_tag _ seedIdx (fun n =>
        { n with segment_time := some st, trajectory_info := some ti })
        (fun nd => rfl) j, hpushn j, hs1o j hj]
  · rw [getNode_setNode_tag _ seedIdx (fun n =>
        { n with segment_time := some st, trajectory_info := some ti })
        (fun nd => rfl) _, hpushn _, hs1N]
  · intro j hj
    rw [getNode_setNode_children _ seedIdx (fun n =>
        { n with segment_time := some st, trajectory_info := some ti })
        (fun nd => rfl) j, hpushn j, hs1o j hj]
  · rw [getNode_setNode_children _ seedIdx (fun n =>
        { n with segment_time := some st, trajectory_info := some ti })
        (fun nd => rfl) _, hpushn _, hs1N]
  · rw [treeOf_setNode, (pushTree_lists _ ty _).1]
    cases ty <;> rfl
  · rw [treeOf_setNode, (pushTree_lists _ ty _).2]
    cases ty <;> rfl

/-- One side of `_seed_trees` keeps the forest invariant when its tree starts
empty, and never touches the opposite tree's list. -/
theorem seed_side_wf (cfg : PlannerCfg) (s : PlannerState) (ty : TreeType)
    (hwf : forest_wf s) (hempty : treeOf s ty = []) :
    forest_wf (seed_side cfg s ty).1 ∧
    treeOf (seed_side cfg s ty).1 ty.other = treeOf s ty.other := by
  cases ty
  case forward =>
    simp only [seed_side]
    rcases hgen : generate_max_braking_trajectory cfg (getNode s s.start_idx).state
        with _ | ⟨ist, st, ti⟩
    · exact ⟨hwf, rfl⟩
    · obtain ⟨hl, hp1, hp2, ht1, ht2, hc1, hc2, htr1, htr2⟩ :=
        seed_push_chars s _ TreeType.forward
          { state := ist, tree_type := TreeType.forward, parent := none,
            segment_time := none, trajectory_info := none, children := [] }
          s.start_idx st ti rfl
      exact ⟨fresh_root_wf s _ TreeType.forward hwf hl hp1 hp2 ht1 ht2 hc1 hc2
        (by rw [htr1, hempty]; rfl) htr2, htr2⟩
  case backward =>
    simp only [seed_side]
    rcases hgen : generate_max_braking_trajectory cfg (getNode s s.goal_idx).state
        with _ | ⟨ist, st, ti⟩
    · exact ⟨hwf, rfl⟩
    · obtain ⟨hl, hp1, hp2, ht1, ht2, hc1, hc2, htr1, htr2⟩ :=
        seed_push_chars s _ TreeType.backward
          { state := ist, tree_type := TreeType.backward, parent := none,
            segment_time := none, trajectory_info := none, children := [] }
          s.goal_idx st ti rfl
      exact ⟨fresh_root_wf s _ TreeType.backward hwf hl hp1 hp2 ht1 ht2 hc1 hc2
        (by rw [htr1, hempty]; rfl) htr2, htr2⟩

/-- Seeding from the freshly constructed planner establishes the forest
invariant. -/
theorem seed_trees_wf (cfg : PlannerCfg) (start goal : List ℝ) :
    forest_wf (seed_trees cfg (init_planner start goal)).1 := by
  have h0 : forest_wf (init_planner start goal) := init_planner_wf start goal
  obtain ⟨h1, h2⟩ :=
    seed_side_wf cfg (init_planner start goal) TreeType.forward h0 rfl
  simp only [seed_trees]
  by_cases hb : (seed_side cfg (init_planner start goal) TreeType.forward).2
  · rw [if_pos hb]
    have hbe : treeOf (seed_side cfg (init_planner start goal) TreeType.forward).1
        TreeType.backward = [] := h2
    exact (seed_side_wf cfg _ TreeType.backward h1 hbe).1
  · rw [if_neg hb]
    exact h1

/-- Field-level description of the node-append, tree-push, child-link update
performed by a successful `extend_tree`. -/
theorem extend_push_chars (s s3 : PlannerState) (ty : TreeType) (R : NodeRec)
    (sampled : ℕ) (hslt : sampled < s.nodes.length)
    (hs3 : s3 = setNode (pushTree { s with nodes := s.nodes ++ [R] } ty
        s.nodes.length) sampled fun n =>
        { n with children := n.children ++ [s.nodes.length] }) :
    s3.nodes.length = s.nodes.length + 1 ∧
    (∀ j, j ≠ s.nodes.length → (getNode s3 j).parent = (getNode s j).parent) ∧
    (getNode s3 s.nodes.length).parent = R.parent ∧
    (∀ j, j ≠ s.nodes.length → (getNode s3 j).tree_type = (getNode s j).tree_type) ∧
    (getNode s3 s.nodes.length).tree_type = R.tree_type ∧
    (∀ j, j ≠ s.nodes.length → j ≠ sampled →
        (getNode s3 j).children = (getNode s j).children) ∧
    (getNode s3 sampled).children = (getNode s sampled).children ++ [s.nodes.length] ∧
    (getNode s3 s.nodes.length).children = R.children ∧
    treeOf s3 ty = treeOf s ty ++ [s.nodes.length] ∧
    treeOf s3 ty.other = treeOf s ty.other := by
  subst hs3
  have hsne : sampled ≠ s.nodes.length := Nat.ne_of_lt hslt
  have hpushn : ∀ j, getNode (pushTree { s with nodes := s.nodes ++ [R] } ty
      s.nodes.length) j = getNode { s with nodes := s.nodes ++ [R] } j := by
    intro j
    unfold getNode
    rw [pushTree_nodes]
  have hs1o : ∀ j, j ≠ s.nodes.length →
      getNode { s with nodes := s.nodes ++ [R] } j = getNode s j := by
    intro j hj
    exact getD_snoc_ne R default s.nodes j hj
  have hs1N : getNode { s with nodes := s.nodes ++ [R] } s.nodes.length = R :=
    getD_snoc_self R default s.nodes
  refine ⟨?_, ?_, ?_, ?_, ?_, ?_, ?_, ?_, ?_, ?_⟩
  · rw [setNode_nodes_length, pushTree_nodes]
    simp
  · intro j hj
    rw [getNode_setNode_parent _ sampled (fun n =>
        { n with children := n.children ++ [s.nodes.length] })
        (fun nd => rfl) j, hpushn j, hs1o j hj]
  · rw [getNode_setNode_parent _ sampled (fun n =>
        { n with children := n.children ++ [s.nodes.length] })
        (fun nd => rfl) _, hpushn _, hs1N]
  · intro j hj
    rw [getNode_setNode_tag _ sampled (fun n =>
        { n with children := n.children ++ [s.nodes.length] })
        (fun nd => rfl) j, hpushn j, hs1o j hj]
  · rw [getNode_setNode_tag _ sampled (fun n =>
        { n with children := n.children ++ [s.nodes.length] })
        (fun nd => rfl) _, hpushn _, hs1N]
  · intro j hj hjs
    rw [getNode_setNode_other (fun n =>
        { n with children := n.children ++ [s.nodes.length] }) hjs,
      hpushn j, hs1o j hj]
  · rw [getNode_setNode_self (fun n =>
        { n with children := n.children ++ [s.nodes.length] })
        (by rw [pushTree_nodes]; simp only [List.length_append,
          List.length_singleton]; omega)]
    exact congrArg (fun l => l ++ [s.nodes.length])
      (by rw [hpushn sampled, hs1o sampled hsne])
  · rw [getNode_setNode_other (fun n =>
        { n with children := n.children ++ [s.nodes.length] }) (Ne.symm hsne),
      hpushn _, hs1N]
  · rw [treeOf_setNode, (pushTree_lists _ ty _).1]
    cases ty <;> rfl
  · rw [treeOf_setNode, (pushTree_lists _ ty _).2]
    cases ty <;> rfl

/-- A successful `extend_tree` preserves the forest invariant. -/
theorem extend_tree_wf (cfg : PlannerCfg) (s : PlannerState) (ty : TreeType)
    (k : ℕ) (rp : List ℝ) (s' : PlannerState) (n : Option ℕ)
    (hwf : forest_wf s)
    (h : extend_tree cfg s ty k rp = .ok (s', n)) : forest_wf s' := by
  simp only [extend_tree] at h
  split at h
  · cases h
  · rename_i hne0
    split at h
    · simp only [Except.ok.injEq, Prod.mk.injEq] at h
      obtain ⟨hs', -⟩ := h
      exact hs' ▸ hwf
    · obtain ⟨seg, hseg, h⟩ := except_bind_ok_inv h
      obtain ⟨st, ti⟩ := seg
      simp only [Except.ok.injEq, Prod.mk.injEq] at h
      obtain ⟨hs', -⟩ := h
      rw [← hs']
      have hpos : 0 < (treeOf s ty).length := Nat.pos_of_ne_zero hne0
      have hsm : (treeOf s ty).getD (k % (treeOf s ty).length) 0 ∈ treeOf s ty :=
        getD_mem_of_lt _ _ 0 (Nat.mod_lt k hpos)
      obtain ⟨hT, hO, hdTO, hdOT⟩ := forest_wf_ty s hwf ty
      have hslt : (treeOf s ty).getD (k % (treeOf s ty).length) 0 < s.nodes.length :=
        hT.1 _ hsm
      obtain ⟨hl, hp1, hp2, ht1, ht2, hc1, hcS, hcN, htr1, htr2⟩ :=
        extend_push_chars s _ ty
          { state := sample_free_space_state cfg rp,
            tree_type := (getNode s
              ((treeOf s ty).getD (k % (treeOf s ty).length) 0)).tree_type,
            parent := some ((treeOf s ty).getD (k % (treeOf s ty).length) 0),
            segment_time := some st, trajectory_info := some ti, children := [] }
          ((treeOf s ty).getD (k % (treeOf s ty).length) 0) hslt rfl
      exact grown_leaf_wf s _ ty ((treeOf s ty).getD (k % (treeOf s ty).length) 0)
        hwf hsm hl hp1 hp2 ht1 (ht2.trans (hT.2.2.1 _ hsm)) hc1 hcS hcN htr1 htr2

/-- The C5 arena satisfies the forest invariant. -/
theorem c5_state_wf : forest_wf c5_state := by
  refine ⟨⟨?_, ?_, ?_, ?_, ?_, ?_, ?_, ?_⟩, ⟨?_, ?_, ?_, ?_, ?_, ?_, ?_, ?_⟩, ?_⟩
  · intro i hi
    have hi' : i = 3 ∨ i = 2 ∨ i = 1 := by simpa [c5_state, treeOf] using hi
    rcases hi' with rfl | rfl | rfl <;> norm_num [c5_state]
  · decide
  · intro i hi
    have hi' : i = 3 ∨ i = 2 ∨ i = 1 := by simpa [c5_state, treeOf] using hi
    rcases hi' with rfl | rfl | rfl <;> rfl
  · intro i hi p hp
    have hi' : i = 3 ∨ i = 2 ∨ i = 1 := by simpa [c5_state, treeOf] using hi
    rcases hi' with rfl | rfl | rfl
    · rw [show (getNode c5_state 3).parent = none from rfl] at hp
      cases hp
    · rw [show (getNode c5_state 2).parent = some 3 from rfl] at hp
      injection hp with hp
      subst hp
      simp [c5_state, treeOf]
    · rw [show (getNode c5_state 1).parent = some 2 from rfl] at hp
      injection hp with hp
      subst hp
      simp [c5_state, treeOf]
  · intro i hi c hc
    have hi' : i = 3 ∨ i = 2 ∨ i = 1 := by simpa [c5_state, treeOf] using hi
    rcases hi' with rfl | rfl | rfl
    · rw [show (getNode c5_state 3).children = [2] from rfl,
        List.mem_singleton] at hc
      subst hc
      exact ⟨rfl, by simp [c5_state, treeOf]⟩
    · rw [show (getNode c5_state 2).children = [1] from rfl,
        List.mem_singleton] at hc
      subst hc
      exact ⟨rfl, by simp [c5_state, treeOf]⟩
    · rw [show (getNode c5_state 1).children = [] from rfl] at hc
      cases hc
  · intro c hc p hp
    have hc' : c = 3 ∨ c = 2 ∨ c = 1 := by simpa [c5_state, treeOf] using hc
    rcases hc' with rfl | rfl | rfl
    · rw [show (getNode c5_state 3).parent = none from rfl] at hp
      cases hp
    · rw [show (getNode c5_state 2).parent = some 3 from rfl] at hp
      injection hp with hp
      subst hp
      rw [show (getNode c5_state 3).children = [2] from rfl]
      exact List.mem_singleton.mpr rfl
    · rw [show (getNode c5_state 1).parent = some 2 from rfl] at hp
      injection hp with hp
      subst hp
      rw [show (getNode c5_state 2).children = [1] from rfl]
      exact List.mem_singleton.mpr rfl
  · intro i hi
    have hi' : i = 3 ∨ i = 2 ∨ i = 1 := by simpa [c5_state, treeOf] using hi
    rcases hi' with rfl | rfl | rfl <;> decide
  · refine Or.inr ⟨3, by simp [c5_state, treeOf], ?_⟩
    intro i hi
    have hi' : i = 3 ∨ i = 2 ∨ i = 1 := by simpa [c5_state, treeOf] using hi
    rcases hi' with rfl | rfl | rfl <;> rfl
  · intro i hi
    have hi' : i = 0 := by simpa [c5_state, treeOf] using hi
    subst hi'
    norm_num [c5_state]
  · decide
  · intro i hi
    have hi' : i = 0 := by simpa [c5_state, treeOf] using hi
    subst hi'
    rfl
  · intro i hi p hp
    have hi' : i = 0 := by simpa [c5_state, treeOf] using hi
    subst hi'
    rw [show (getNode c5_state 0).parent = none from rfl] at hp
    cases hp
  · intro i hi c hc
    have hi' : i = 0 := by simpa [c5_state, treeOf] using hi
    subst hi'
    rw [show (getNode c5_state 0).children = [] from rfl] at hc
    cases hc
  · intro c hc p hp
    have hc' : c = 0 := by simpa [c5_state, treeOf] using hc
    subst hc'
    rw [show (getNode c5_state 0).parent = none from rfl] at hp
    cases hp
  · intro i hi
    have hi' : i = 0 := by simpa [c5_state, treeOf] using hi
    subst hi'
    decide
  · refine Or.inr ⟨0, by simp [c5_state, treeOf], ?_⟩
    intro i hi
    have hi' : i = 0 := by simpa [c5_state, treeOf] using hi
    subst hi'
    rfl
  · intro i hi
    have hi' : i = 3 ∨ i = 2 ∨ i = 1 := by simpa [c5_state] using hi
    rcases hi' with rfl | rfl | rfl <;> simp [c5_state]

/-- The C10 arena satisfies the forest invariant. -/
theorem c10_state_wf : forest_wf c10_state := by
  refine ⟨⟨?_, ?_, ?_, ?_, ?_, ?_, ?_, ?_⟩, tree_wf_nil _ _ rfl, ?_⟩
  · intro i hi
    have hi' : i = 2 := by simpa [c10_state, treeOf] using hi
    subst hi'
    norm_num [c10_state]
  · decide
  · intro i hi
    have hi' : i = 2 := by simpa [c10_state, treeOf] using hi
    subst hi'
    rfl
  · intro i hi p hp
    have hi' : i = 2 := by simpa [c10_state, treeOf] using hi
    subst hi'
    rw [show (getNode c10_state 2).parent = none from rfl] at hp
    cases hp
  · intro i hi c hc
    have hi' : i = 2 := by simpa [c10_state, treeOf] using hi
    subst hi'
    rw [show (getNode c10_state 2).children = [] from rfl] at hc
    cases hc
  · intro c hc p hp
    have hc' : c = 2 := by simpa [c10_state, treeOf] using hc
    subst hc'
    rw [show (getNode c10_state 2).parent = none from rfl] at hp
    cases hp
  · intro i hi
    have hi' : i = 2 := by simpa [c10_state, treeOf] using hi
    subst hi'
    decide
  · refine Or.inr ⟨2, by simp [c10_state, treeOf], ?_⟩
    intro i hi
    have hi' : i = 2 := by simpa [c10_state, treeOf] using hi
    subst hi'
    rfl
  · intro i hi
    simp [c10_state]

/-- C6: the forest invariant.  Seeding from the freshly constructed planner
establishes the invariant; successful extensions preserve it; successful
repairs preserve it whenever the reported 4-tuple's bridge nodes lie in the
two distinct trees — the shape in which the collision validator produces
them; and under the invariant every tree member reaches its tree's root by
following parent links within tree-size many steps, no member lies on a
parent-link cycle, and no handle is held by both trees simultaneously. -/
theorem C6_forest_invariant (cfg : PlannerCfg) :
    (∀ start goal, forest_wf (seed_trees cfg (init_planner start goal)).1) ∧
    (∀ s ty k rp s' n, forest_wf s →
        extend_tree cfg s ty k rp = .ok (s', n) → forest_wf s') ∧
    (∀ s e s', forest_wf s →
        (e.2.2.1 ∈ s.forward_tree ∧ e.2.2.2 ∈ s.backward_tree ∨
         e.2.2.1 ∈ s.backward_tree ∧ e.2.2.2 ∈ s.forward_tree) →
        remove_infeasible_edge cfg s e = .ok s' → forest_wf s') ∧
    (∀ s ty, forest_wf s → treeOf s ty = [] ∨
        ∃ r ∈ treeOf s ty, ∀ i ∈ treeOf s ty,
          rootOf? s (treeOf s ty).length i = some r) ∧
    (∀ s ty, forest_wf s → ∀ i ∈ treeOf s ty, ∀ c, 1 ≤ c →
        iterP s c i ≠ some i) ∧
    (∀ s, forest_wf s → ∀ i ∈ s.forward_tree, i ∉ s.backward_tree) := by
  refine ⟨?_, ?_, ?_, ?_, ?_, ?_⟩
  · intro start goal
    exact seed_trees_wf cfg start goal
  · intro s ty k rp s' n hwf h
    exact extend_tree_wf cfg s ty k rp s' n hwf h
  · intro s e s' hwf hbr h
    exact remove_infeasible_edge_wf cfg s s' e hwf hbr h
  · intro s ty hwf
    rcases (forest_wf_ty s hwf ty).1.2.2.2.2.2.2.2 with h | ⟨r, hr, hall⟩
    · exact Or.inl h
    · exact Or.inr ⟨r, hr, hall⟩
  · intro s ty hwf i hi c hc hcyc
    rcases (forest_wf_ty s hwf ty).1.2.2.2.2.2.2.2 with h | ⟨r, hr, hall⟩
    · rw [h] at hi
      cases hi
    · exact rootOf_no_cycle s _ i r c hc hcyc (hall i hi)
  · intro s hwf
    exact hwf.2.2

/-- Witness for C6 at concrete inputs: the C5 repair run (bridge nodes 1 and 0
in the forward and backward trees), the rejected C10 extension, a concrete
seeding, plus the cycle-freedom and disjointness consequences on the C5
arena. -/
theorem C6_forest_invariant_witness :
    forest_wf c5_state ∧
    forest_wf c5_final ∧
    forest_wf c10_state ∧
    forest_wf (seed_trees c3_cfg (init_planner [0, 0] [7, 0])).1 ∧
    (∀ c, 1 ≤ c → iterP c5_state c 1 ≠ some 1) ∧
    (3 : ℕ) ∉ c5_state.backward_tree := by
  refine ⟨c5_state_wf, ?_, ?_, ?_, ?_, ?_⟩
  · exact (C6_forest_invariant c5_cfg).2.2.1 c5_state (2, 1, 1, 0) c5_final
      c5_state_wf (Or.inl ⟨by simp [c5_state], by simp [c5_state]⟩) c5_repair_eval
  · exact (C6_forest_invariant c4_cfg).2.1 c10_state TreeType.forward 0 [5]
      c10_state none c10_state_wf c10_extend_eval
  · exact (C6_forest_invariant c3_cfg).1 [0, 0] [7, 0]
  · exact (C6_forest_invariant c5_cfg).2.2.2.2.1 c5_state TreeType.forward
      c5_state_wf 1 (by simp [c5_state, treeOf])
  · exact (C6_forest_invariant c5_cfg).2.2.2.2.2 c5_state c5_state_wf 3
      (by simp [c5_state])

end

end RampPlanner
